import Mathlib

/-!
# A shallow embedding of the `sdds` package (pylhc/sdds)

This file models the Python sources `sdds/classes.py`, `sdds/reader.py` and
`sdds/writer.py` as executable Lean definitions and proves properties of them.

Modelling conventions:
* Python `bytes` are `List Nat` (each entry < 256 where meaningful).
* Python `str` is `List Char` (`PyStr`); Lean `Char` is a unicode scalar value,
  matching Python's string model.  Text encoding/decoding uses explicit UTF-8
  functions defined below (the package uses `ENCODING = "utf-8"`).
* Python machine integers written through numpy dtypes are modelled as `Int`
  with explicit two's-complement conversion at the declared byte width;
  out-of-range conversions model numpy's `OverflowError` as an error result.
* Python floats are modelled at the bit level: `PyVal.f32 bits` / `PyVal.f64
  bits` stand for a Python float whose value is exactly the binary32/binary64
  number with those bits (the binary codec only ever moves these bits).
  Decimal text to float conversion (`float(text)`) is kept as the opaque-free
  constructor `PyVal.floatText` for texts matching the literal grammar that
  `float()` accepts (and is the `ValueError` it raises otherwise), since IEEE
  rounding of accepted decimal literals is floating-point behaviour outside
  this embedding; no theorem below depends on identifying `floatText` with a
  bit pattern.
* Fallible Python code (exceptions) returns `Except String _`; the error
  string names the Python exception.
* Loops over streams use explicit fuel (`Nat`) so that every definition is
  executable by kernel reduction.
-/

set_option maxRecDepth 10000

namespace Sdds

abbrev PyStr := List Char

/-- Shorthand turning a Lean string literal into the `List Char` model of a
Python `str`. -/
def tstr (s : String) : PyStr := s.toList

/-! ## Small helpers: decimal digits, whitespace, splitting -/

/-- Python's notion of an ASCII decimal digit (as used by `int(...)`). -/
def isDigitB (c : Char) : Bool := 48 ≤ c.toNat && c.toNat ≤ 57

/-- Whitespace characters stripped by Python's `str.strip()` / split by
`str.split()` (the ASCII ones; unicode whitespace beyond these is not
modelled). -/
def isPySpace (c : Char) : Bool :=
  c.toNat = 32 || c.toNat = 9 || c.toNat = 10 || c.toNat = 13 || c.toNat = 11 || c.toNat = 12

/-- Python `str.strip()`. -/
def pyStrip (s : PyStr) : PyStr :=
  ((s.dropWhile isPySpace).reverse.dropWhile isPySpace).reverse

/-- Accumulator worker for `splitWS`. -/
def splitWSAux : PyStr → PyStr → List PyStr
  | [], acc => if acc.isEmpty then [] else [acc.reverse]
  | c :: rest, acc =>
    if isPySpace c then
      if acc.isEmpty then splitWSAux rest []
      else acc.reverse :: splitWSAux rest []
    else splitWSAux rest (c :: acc)

/-- Python `str.split()` with no argument: split on whitespace runs,
dropping empty results. -/
def splitWS (s : PyStr) : List PyStr := splitWSAux s []

/-- Accumulator worker for `pySplitChar`. -/
def pySplitCharAux (sep : Char) : PyStr → PyStr → List PyStr
  | [], acc => [acc.reverse]
  | c :: rest, acc =>
    if c = sep then acc.reverse :: pySplitCharAux sep rest []
    else pySplitCharAux sep rest (c :: acc)

/-- Python `str.split(sep)` for a one-character separator: keeps empty
pieces. -/
def pySplitChar (sep : Char) (s : PyStr) : List PyStr := pySplitCharAux sep s []

/-- The whitespace-delimited words of a comma-joined item list: every item
but the last carries its trailing comma (proof-support view of the
writer's `", ".join`). -/
def commaWords : List PyStr → List PyStr
  | [] => []
  | [i] => [i]
  | i :: rest => (i ++ [',']) :: commaWords rest

/-- Digits of `n` in base 10, most significant first (fueled). -/
def natToDecAux : Nat → Nat → List Char
  | 0, _ => []
  | f + 1, n =>
    if n < 10 then [Char.ofNat (48 + n)]
    else natToDecAux f (n / 10) ++ [Char.ofNat (48 + n % 10)]

/-- Python `str(n)` for a natural number. -/
def natToDec (n : Nat) : PyStr := natToDecAux (n + 1) n

/-- Python `str(i)` for an `int`. -/
def intToDec (i : Int) : PyStr :=
  if i < 0 then '-' :: natToDec i.natAbs else natToDec i.toNat

/-- Value of a digit string, most significant first. -/
def digitsToNat (ds : List Char) : Nat :=
  ds.foldl (fun a c => a * 10 + (c.toNat - 48)) 0

/-- Python `int(text)`: strip whitespace, optional sign, decimal digits.
(Underscore digit grouping accepted by CPython is not modelled.) -/
def pyIntParseCore : PyStr → Option Int
  | [] => none
  | c :: rest =>
    if c = '-' then
      if rest ≠ [] ∧ rest.all isDigitB then some (-(digitsToNat rest : Int)) else none
    else if c = '+' then
      if rest ≠ [] ∧ rest.all isDigitB then some (digitsToNat rest) else none
    else if (c :: rest).all isDigitB then some (digitsToNat (c :: rest)) else none

/-- Python `int(text)` (see `pyIntParseCore`). -/
def pyIntParse (s : PyStr) : Option Int := pyIntParseCore (pyStrip s)

/-! ## UTF-8 (the package's `ENCODING`) -/

/-- UTF-8 encoding of one unicode scalar value. -/
def utf8EncodeChar (c : Char) : List Nat :=
  let n := c.toNat
  if n < 128 then [n]
  else if n < 2048 then [192 + n / 64, 128 + n % 64]
  else if n < 65536 then [224 + n / 4096, 128 + (n / 64) % 64, 128 + n % 64]
  else [240 + n / 262144, 128 + (n / 4096) % 64, 128 + (n / 64) % 64, 128 + n % 64]

/-- UTF-8 encoding of a Python string (`str.encode("utf-8")`). -/
def utf8Encode (s : PyStr) : List Nat := (s.map utf8EncodeChar).flatten

/-- Is `b` a UTF-8 continuation byte? -/
def isCont (b : Nat) : Bool := 128 ≤ b && b < 192

/-- Decode one multi-byte UTF-8 sequence with lead byte `b0` (≥ 0x80):
the code point and the remaining bytes, or `none` for malformed input
(lone continuation bytes, truncated sequences, overlong encodings,
surrogates, out-of-range code points — as CPython's strict decoder). -/
def utf8Span (b0 : Nat) (rest0 : List Nat) : Option (Nat × List Nat) :=
  if b0 < 224 then
    match rest0 with
    | b1 :: rest1 =>
      if 192 ≤ b0 ∧ isCont b1 then
        let n := (b0 - 192) * 64 + (b1 - 128)
        if 128 ≤ n then some (n, rest1) else none
      else none
    | [] => none
  else if b0 < 240 then
    match rest0 with
    | b1 :: b2 :: rest2 =>
      if isCont b1 ∧ isCont b2 then
        let n := (b0 - 224) * 4096 + (b1 - 128) * 64 + (b2 - 128)
        if 2048 ≤ n ∧ ¬(55296 ≤ n ∧ n < 57344) then some (n, rest2) else none
      else none
    | _ => none
  else if b0 < 248 then
    match rest0 with
    | b1 :: b2 :: b3 :: rest3 =>
      if isCont b1 ∧ isCont b2 ∧ isCont b3 then
        let n := (b0 - 240) * 262144 + (b1 - 128) * 4096 + (b2 - 128) * 64 + (b3 - 128)
        if 65536 ≤ n ∧ n < 1114112 then some (n, rest3) else none
      else none
    | _ => none
  else none

/-- Fueled worker for `utf8Decode` (each step consumes at least one
byte, so fuel `length + 1` always suffices). -/
def utf8DecodeF : Nat → List Nat → Option PyStr
  | 0, _ => none
  | _ + 1, [] => some []
  | fuel + 1, b0 :: rest0 =>
    if b0 < 128 then (utf8DecodeF fuel rest0).map (Char.ofNat b0 :: ·)
    else
      match utf8Span b0 rest0 with
      | some p => (utf8DecodeF fuel p.2).map (Char.ofNat p.1 :: ·)
      | none => none

/-- Strict UTF-8 decoding (`bytes.decode("utf-8")`). -/
def utf8Decode (bs : List Nat) : Option PyStr := utf8DecodeF (bs.length + 1) bs

/-! ## Big-endian byte encoding of machine integers -/

/-- `w` bytes of `v`, big-endian (as produced by numpy's `>` dtypes). -/
def natToBEBytes : Nat → Nat → List Nat
  | 0, _ => []
  | w + 1, v => natToBEBytes w (v / 256) ++ [v % 256]

/-- Value of a big-endian byte list. -/
def beNat (bs : List Nat) : Nat := bs.foldl (fun a b => a * 256 + b) 0

/-- Two's-complement representative of `i` at byte width `w`. -/
def toTwos (w : Nat) (i : Int) : Nat := (i % ((2 ^ (8 * w) : Nat) : Int)).toNat

/-- Signed value of a `w`-byte unsigned representative (numpy `>iW`
interpretation). -/
def fromTwos (w : Nat) (n : Nat) : Int :=
  if n < 2 ^ (8 * w - 1) then (n : Int) else (n : Int) - ((2 ^ (8 * w) : Nat) : Int)

/-- Is `i` representable as a signed `w`-byte integer?  numpy raises
`OverflowError` when converting an out-of-range Python int to a fixed-width
dtype. -/
def intFits (w : Nat) (i : Int) : Prop :=
  -((2 ^ (8 * w - 1) : Nat) : Int) ≤ i ∧ i < ((2 ^ (8 * w - 1) : Nat) : Int)

instance (w : Nat) (i : Int) : Decidable (intFits w i) := by
  unfold intFits; infer_instance

/-- `np.array(i, dtype=">iW").tobytes()`: big-endian two's complement, or
`OverflowError` if out of range. -/
def npIntBytes (w : Nat) (i : Int) : Except String (List Nat) :=
  if intFits w i then .ok (natToBEBytes w (toTwos w i))
  else .error "OverflowError: Python int out of bounds for dtype"

/-! ## `sdds/classes.py`: type registry and containers -/

/-- `NUMTYPES` from `classes.py`: dtype letter per declared type name. -/
def NUMTYPES (t : PyStr) : Option PyStr :=
  if t = tstr "float" then some (tstr "f")
  else if t = tstr "double" then some (tstr "d")
  else if t = tstr "short" then some (tstr "i2")
  else if t = tstr "long" then some (tstr "i4")
  else if t = tstr "llong" then some (tstr "i8")
  else if t = tstr "char" then some (tstr "i1")
  else if t = tstr "boolean" then some (tstr "i1")
  else if t = tstr "string" then some (tstr "s")
  else none

/-- `NUMTYPES_SIZES` from `classes.py` (no entry for `string`). -/
def NUMTYPES_SIZES (t : PyStr) : Option Nat :=
  if t = tstr "float" then some 4
  else if t = tstr "double" then some 8
  else if t = tstr "short" then some 2
  else if t = tstr "long" then some 4
  else if t = tstr "llong" then some 8
  else if t = tstr "char" then some 1
  else if t = tstr "boolean" then some 1
  else none

/-- The cast function stored in `NUMTYPES_CAST` for a type name.
`toInt` is Python `int`, `toFloat` is Python `float`, `toStr` is Python
`str`; `none` models a `KeyError` on lookup (no entry for `string`). -/
inductive CastKind | toInt | toFloat | toStr
deriving DecidableEq

/-- `NUMTYPES_CAST` from `classes.py`. -/
def NUMTYPES_CAST (t : PyStr) : Option CastKind :=
  if t = tstr "float" then some .toFloat
  else if t = tstr "double" then some .toFloat
  else if t = tstr "short" then some .toInt
  else if t = tstr "long" then some .toInt
  else if t = tstr "llong" then some .toInt
  else if t = tstr "char" then some .toStr
  else if t = tstr "boolean" then some .toInt
  else none

/-- Fields shared by all data definitions (`Definition` dataclass in
`classes.py`): `name`, `type` and the optional descriptive metadata. -/
structure DefCommon where
  name : PyStr
  type : PyStr
  symbol : Option PyStr
  units : Option PyStr
  description : Option PyStr
  format : Option PyStr
deriving DecidableEq, Repr

/-- The closed set of definition variants: `Parameter`, `Array`, `Column`
(subclasses of `Definition` in `classes.py`), with their extra fields. -/
inductive Definition where
  | param (c : DefCommon) (fixed_value : Option PyStr)
  | arr (c : DefCommon) (field_length : Option Int) (group_name : Option PyStr)
      (dimensions : Option Int)
  | col (c : DefCommon)
deriving DecidableEq, Repr

namespace Definition

def common : Definition → DefCommon
  | .param c _ => c
  | .arr c _ _ _ => c
  | .col c => c

def name (d : Definition) : PyStr := d.common.name

def type (d : Definition) : PyStr := d.common.type

def isParam : Definition → Bool
  | .param _ _ => true
  | _ => false

def isArr : Definition → Bool
  | .arr _ _ _ _ => true
  | _ => false

def isCol : Definition → Bool
  | .col _ => true
  | _ => false

end Definition

/-- A Python value as it appears as an SDDS parameter/array/column value.
See the module docstring for the float conventions; `vlist` covers both
Python lists and numpy arrays (a numpy array is identified with its nested
list of scalars). -/
inductive PyVal where
  | int (i : Int)
  | f32 (bits : Nat)
  | f64 (bits : Nat)
  | floatText (s : PyStr)
  | str (s : PyStr)
  | vlist (xs : List PyVal)

/-- `Description` (&description) container from `classes.py`. -/
structure SddsDescription where
  text : Option PyStr
  contents : Option PyStr
deriving DecidableEq, Repr

/-- `Data` (&data) container from `classes.py`. -/
structure SddsData where
  mode : PyStr
deriving DecidableEq, Repr

/-- Python dict key access on an insertion-ordered association list. -/
def assocLookup {α : Type} (k : PyStr) : List (PyStr × α) → Option α
  | [] => none
  | (a, b) :: t => if a = k then some b else assocLookup k t

/-- Association-list update with Python-dict semantics: overwriting keeps
the original key position, otherwise the pair is appended. -/
def assocUpsert (m : List (PyStr × α)) (k : PyStr) (v : α) : List (PyStr × α) :=
  if (assocLookup k m).isSome then m.map (fun p => if p.1 = k then (k, v) else p)
  else m ++ [(k, v)]

/-- Build an (insertion-ordered) Python dict from a pair list. -/
def dictOfPairs (l : List (PyStr × α)) : List (PyStr × α) :=
  l.foldl (fun m p => assocUpsert m p.1 p.2) []

/-- `SddsFile` from `classes.py`.  `definitions` and `values` are the two
name-keyed insertion-ordered dicts.  `mode` models the dynamic attribute the
writer reads and sets (absent on a freshly constructed file).
`npages` is Modelled from the spec: the page count attribute used by the
writer is absent from the `classes.py` snapshot in `src/`; the spec's data
model says a document holds one value per definition, or one value per page
for multi-page documents, so a plain page-count field with default 1 is
used. -/
structure SddsFile where
  version : PyStr
  description : Option SddsDescription
  definitions : List (PyStr × Definition)
  values : List (PyStr × PyVal)
  mode : Option PyStr
  npages : Nat

/-- `SddsFile.__init__`: validates name uniqueness (`ValueError` on
duplicates, computed exactly as `len(name_list) != len(set(name_list))`),
then zips definitions with values into the two dicts (`zip` truncates to the
shorter list). -/
def sddsFileInit (version : PyStr) (description : Option SddsDescription)
    (definitions_list : List Definition) (values_list : List PyVal) :
    Except String SddsFile :=
  let name_list := definitions_list.map Definition.name
  if name_list.dedup.length ≠ name_list.length then
    .error "ValueError: Duplicated name entries found"
  else
    .ok ⟨version, description,
      dictOfPairs (definitions_list.map fun d => (d.name, d)),
      dictOfPairs ((definitions_list.zip values_list).map fun p => (p.1.name, p.2)),
      none, 1⟩

/-- `SddsFile.__getitem__`: returns the (definition, value) pair for a name;
a missing key in either dict is a `KeyError`. -/
def sddsGetItem (f : SddsFile) (name : PyStr) : Except String (Definition × PyVal) :=
  match assocLookup name f.definitions with
  | none => .error "KeyError: name not in definitions"
  | some d =>
    match assocLookup name f.values with
    | none => .error "KeyError: name not in values"
    | some v => .ok (d, v)

/-! ## `sdds/reader.py` -/

/-- `IO.readline()` on a byte stream: the line including its newline byte,
and the remaining bytes.  Returns an empty line exactly at end of stream. -/
def readline : List Nat → List Nat × List Nat
  | [] => ([], [])
  | b :: rest =>
    if b = 10 then ([10], rest)
    else
      let p := readline rest
      (b :: p.1, p.2)

/-- Loop of `_get_endianness`: scan decoded lines for the endianness marker
comments; stop at end of stream.  A line that does not decode as UTF-8 is a
`UnicodeDecodeError` (the Python code would raise out of the helper). -/
def getEndiannessLoop : Nat → PyStr → List Nat → Except String PyStr
  | 0, _, _ => .error "fuel exhausted"
  | fuel + 1, machine, bs =>
    let p := readline bs
    if p.1.isEmpty then .ok machine
    else
      match utf8Decode p.1 with
      | none => .error "UnicodeDecodeError"
      | some line =>
        if pyStrip line = tstr "!# big-endian" then .ok (tstr "big")
        else if pyStrip line = tstr "!# little-endian" then .ok (tstr "little")
        else getEndiannessLoop fuel machine p.2

/-- `_get_endianness`: machine endianness unless an endianness comment line
is found first; afterwards the stream is rewound (`seek(0)`), so the
returned stream offset is 0. -/
def getEndianness (machine : PyStr) (bs : List Nat) : Except String (PyStr × Nat) :=
  (getEndiannessLoop (bs.length + 1) machine bs).map (fun e => (e, 0))

/-- The byte lines of a stream, as successive `readline` results until the
empty read at end of stream (fueled worker). -/
def byteLines : Nat → List Nat → List (List Nat)
  | 0, _ => []
  | fuel + 1, bs =>
    let p := readline bs
    if p.1.isEmpty then [] else p.1 :: byteLines fuel p.2

/-- `byteLines` with sufficient fuel. -/
def streamLines (bs : List Nat) : List (List Nat) := byteLines (bs.length + 1) bs

/-- Reference definition for C9, following the spec's words over the
decoded line list: the *first* line whose stripped content is an
endianness marker decides the endianness; if no such line exists the
machine endianness is used. -/
def endiannessSpec (machine : PyStr) (lines : List PyStr) : PyStr :=
  match lines.find? (fun l => decide (pyStrip l = tstr "!# big-endian") ||
      decide (pyStrip l = tstr "!# little-endian")) with
  | some l => if pyStrip l = tstr "!# big-endian" then tstr "big" else tstr "little"
  | none => machine

/-- State of the lazy `_gen_words` generator over the byte stream: the
not-yet-read bytes and the words of the current line not yet yielded. -/
structure WordState where
  rest : List Nat
  buf : List PyStr
deriving DecidableEq

/-- One pull from `_gen_words`/`_gen_real_lines`: yield a buffered word, or
read lines (skipping the pure-newline and comment lines, stripping the rest)
until a line yields words; `none` at end of stream. -/
def nextWord : Nat → WordState → Except String (Option (PyStr × WordState))
  | 0, _ => .error "fuel exhausted"
  | fuel + 1, ws =>
    match ws.buf with
    | w :: more => .ok (some (w, ⟨ws.rest, more⟩))
    | [] =>
      if ws.rest.isEmpty then .ok none
      else
        let p := readline ws.rest
        match utf8Decode p.1 with
        | none => .error "UnicodeDecodeError"
        | some line =>
          if line = tstr "\n" then nextWord fuel ⟨p.2, []⟩
          else if (tstr "!").isPrefixOf (pyStrip line) then nextWord fuel ⟨p.2, []⟩
          else
            match splitWS (pyStrip line) with
            | [] => nextWord fuel ⟨p.2, []⟩
            | w :: more => .ok (some (w, ⟨p.2, more⟩))

/-- `nextWord` with the always-sufficient fuel (each internal step consumes
at least one byte of the stream). -/
def nextWordF (ws : WordState) : Except String (Option (PyStr × WordState)) :=
  nextWord (ws.rest.length + 1) ws

/-- Split one `key=value` assignment (`assign.split("=")` followed by the
2-tuple unpack in the dict comprehension of `_get_def_as_dict`). -/
def splitAssign (assign : PyStr) : Except String (PyStr × PyStr) :=
  match pySplitChar '=' assign with
  | [k, v] => .ok (pyStrip k, pyStrip v)
  | _ => .error "ValueError: assignment does not split into key and value"

/-- Loop of `_get_def_as_dict`: collect (stripped) words until `&end`, then
re-join with spaces, split on commas dropping empty pieces, and build the
key to value dict.  Exhausting the word stream first is an error. -/
def getDefAsDictLoop : Nat → WordState → List PyStr →
    Except String (List (PyStr × PyStr) × WordState)
  | 0, _, _ => .error "fuel exhausted"
  | fuel + 1, ws, raw => do
    match ← nextWordF ws with
    | none => .error "ValueError: EOF found while looking for &end tag."
    | some (w, ws1) =>
      if pyStrip w = tstr "&end" then do
        let recomposed := List.intercalate (tstr " ") raw.reverse
        let parts := (pySplitChar ',' recomposed).filter (fun a => ¬a.isEmpty)
        let pairs ← parts.mapM splitAssign
        .ok (dictOfPairs pairs, ws1)
      else getDefAsDictLoop fuel ws1 (pyStrip w :: raw)

/-- `_get_def_as_dict` with its sufficient fuel. -/
def getDefAsDict (ws : WordState) : Except String (List (PyStr × PyStr) × WordState) :=
  getDefAsDictLoop (ws.rest.length + ws.buf.length + 1) ws []

/-- ASCII lowercase of a string (`str.lower()`; non-ASCII case mapping is
not modelled). -/
def pyLower (s : PyStr) : PyStr :=
  s.map fun c => if 65 ≤ c.toNat ∧ c.toNat ≤ 90 then Char.ofNat (c.toNat + 32) else c

/-- `__post_init__` handling of an `Optional[str]` dataclass field fed from
the header dict: absent stays `None`, a value whose lowercase is `"none"`
becomes `None`, anything else is kept as the raw string. -/
def strFieldOfDict (dict : List (PyStr × PyStr)) (k : PyStr) : Option PyStr :=
  match assocLookup k dict with
  | none => none
  | some v => if pyLower v = tstr "none" then none else some v

/-- `__post_init__` handling of an `Optional[int]` field: as above but with
an `int(value)` conversion that may raise `ValueError`. -/
def intFieldOfDict (dict : List (PyStr × PyStr)) (k : PyStr) :
    Except String (Option Int) :=
  match assocLookup k dict with
  | none => .ok none
  | some v =>
    if pyLower v = tstr "none" then .ok none
    else
      match pyIntParse v with
      | some i => .ok (some i)
      | none => .error "ValueError: invalid literal for int()"

/-- The keyword names accepted by each definition constructor beyond the
mandatory `name` and `type` (passing any other key is a `TypeError`). -/
def allowedKeys (tag : PyStr) : List PyStr :=
  let base := [tstr "symbol", tstr "units", tstr "description", tstr "format"]
  if tag = tstr "&parameter" then base ++ [tstr "fixed_value"]
  else if tag = tstr "&array" then
    base ++ [tstr "field_length", tstr "group_name", tstr "dimensions"]
  else base

/-- Construct a `Parameter`/`Array`/`Column` from the header dict, modelling
`def_dict.pop("name")`, `def_dict.pop("type")`, the `**def_dict` keyword
call and the `__post_init__` conversions. -/
def buildDef (tag : PyStr) (dict : List (PyStr × PyStr)) : Except String Definition := do
  let name ← match assocLookup (tstr "name") dict with
    | some v => pure v
    | none => .error "KeyError: name"
  let type ← match assocLookup (tstr "type") dict with
    | some v => pure v
    | none => .error "KeyError: type"
  let remaining := dict.filter fun p => p.1 ≠ tstr "name" ∧ p.1 ≠ tstr "type"
  if remaining.all (fun p => (allowedKeys tag).contains p.1) then
    let c : DefCommon :=
      ⟨name, type, strFieldOfDict dict (tstr "symbol"), strFieldOfDict dict (tstr "units"),
        strFieldOfDict dict (tstr "description"), strFieldOfDict dict (tstr "format")⟩
    if tag = tstr "&parameter" then
      .ok (.param c (strFieldOfDict dict (tstr "fixed_value")))
    else if tag = tstr "&array" then do
      let fl ← intFieldOfDict dict (tstr "field_length")
      let dims ← intFieldOfDict dict (tstr "dimensions")
      .ok (.arr c fl (strFieldOfDict dict (tstr "group_name")) dims)
    else
      .ok (.col c)
  else .error "TypeError: unexpected keyword argument"

/-- `_sort_definitions`: Parameters, then Arrays, then Columns, each group
in order of appearance. -/
def sortDefinitions (orig_defs : List Definition) : List Definition :=
  orig_defs.filter Definition.isParam ++ orig_defs.filter Definition.isArr ++
    orig_defs.filter Definition.isCol

/-- Header loop of `_read_header`: read a command tag, always collect its
dict, then dispatch.  Stops at `&data`; reaching end of stream first is the
missing-&data error. -/
def readHeaderLoop : Nat → WordState → List Definition → Option SddsDescription →
    Except String (List Definition × Option SddsDescription × SddsData × WordState)
  | 0, _, _, _ => .error "fuel exhausted"
  | fuel + 1, ws, defs, desc => do
    match ← nextWordF ws with
    | none => .error "ValueError: Found end of file while looking for &data tag."
    | some (word, ws1) => do
      let (dict, ws2) ← getDefAsDict ws1
      if word = tstr "&column" ∨ word = tstr "&parameter" ∨ word = tstr "&array" then do
        let d ← buildDef word dict
        readHeaderLoop fuel ws2 (defs ++ [d]) desc
      else if word = tstr "&description" then
        if desc.isSome then .error "ValueError: Two &description tags found."
        else do
          let remaining := dict.filter fun p =>
            p.1 ≠ tstr "text" ∧ p.1 ≠ tstr "contents"
          if remaining.isEmpty then
            -- `Description` is a plain dataclass without `__post_init__`,
            -- so its fields keep the raw strings (no "None" conversion).
            readHeaderLoop fuel ws2 defs
              (some ⟨assocLookup (tstr "text") dict, assocLookup (tstr "contents") dict⟩)
          else .error "TypeError: unexpected keyword argument"
      else if word = tstr "&include" then .error "NotImplementedError"
      else if word = tstr "&data" then
        match assocLookup (tstr "mode") dict with
        | some m => .ok (defs, desc, ⟨m⟩, ws2)
        | none => .error "KeyError: mode"
      else .error "ValueError: Unknown token encountered."

/-- `_read_header`: version token must be `SDDS1`, then the command loop,
then the canonical reordering of definitions.  Returns the remaining byte
stream (the data section) along with the parsed header. -/
def readHeader (bs : List Nat) :
    Except String (PyStr × List Definition × Option SddsDescription × SddsData × List Nat) := do
  match ← nextWordF ⟨bs, []⟩ with
  | none => .error "StopIteration"
  | some (version, ws1) =>
    if version = tstr "SDDS1" then do
      let (defs, desc, data, ws2) ←
        readHeaderLoop (ws1.rest.length + ws1.buf.length + 1) ws1 [] none
      .ok (version, sortDefinitions defs, desc, data, ws2.rest)
    else .error "AssertionError: This module is compatible with SDDS v1 only"

/-! ### Binary data reading -/

/-- Reverse each chunk for a little-endian dtype; big-endian chunks are read
as-is. -/
def endianBytes (endianness : PyStr) (chunk : List Nat) : List Nat :=
  if endianness = tstr "little" then chunk.reverse else chunk

/-- Split `count` chunks of `w` bytes off a stream. -/
def readChunks : Nat → Nat → List Nat → List (List Nat) × List Nat
  | 0, _, bs => ([], bs)
  | k + 1, w, bs =>
    let p := readChunks k w (bs.drop w)
    (bs.take w :: p.1, p.2)

/-- `_read_bin_numeric` for integer dtypes: read `count * size` bytes and
interpret each chunk as a signed big/little-endian integer.  Running out of
bytes models numpy's `frombuffer` buffer-size `ValueError`. -/
def readBinInts (t : PyStr) (count : Nat) (endianness : PyStr) (bs : List Nat) :
    Except String (List Int × List Nat) := do
  let size ← match NUMTYPES_SIZES t with
    | some s => pure s
    | none => .error "KeyError: type not in NUMTYPES_SIZES"
  if endianness = tstr "big" ∨ endianness = tstr "little" then
    if count * size ≤ bs.length then
      let p := readChunks count size bs
      .ok (p.1.map (fun c => fromTwos size (beNat (endianBytes endianness c))), p.2)
    else .error "ValueError: buffer size must be a multiple of element size"
  else .error "KeyError: endianness"

/-- `_read_bin_int`: one signed `long`. -/
def readBinInt (endianness : PyStr) (bs : List Nat) : Except String (Int × List Nat) := do
  let p ← readBinInts (tstr "long") 1 endianness bs
  match p.1 with
  | [i] => .ok (i, p.2)
  | _ => .error "ValueError: not a single element"

/-- `_read_string`: read `n` bytes and decode them (negative lengths cannot
unpack; modelled as the `struct.error`). -/
def readString (n : Int) (bs : List Nat) : Except String (PyStr × List Nat) :=
  if n < 0 then .error "struct.error: bad length"
  else
    let taken := bs.take n.toNat
    if taken.length = n.toNat then
      match utf8Decode taken with
      | some s => .ok (s, bs.drop n.toNat)
      | none => .error "UnicodeDecodeError"
    else .error "struct.error: unpack requires a buffer"

/-- The text produced by `str()` of a one-element numpy int array, as built
by the `char` cast in `_read_bin_param`. -/
def npArray1Str (i : Int) : PyStr := '[' :: (intToDec i ++ [']'])

/-- The digit-run continuation of a Python numeric literal after its first
digit: further digits, with a single underscore allowed strictly between
two digits (CPython `_Py_string_to_double_with_underscores`).  Returns the
unconsumed remainder. -/
def digitsUndAux : List Char → List Char
  | [] => []
  | c :: rest =>
    if isDigitB c then digitsUndAux rest
    else if c = '_' then
      match rest with
      | d :: rest2 => if isDigitB d then digitsUndAux rest2 else c :: rest
      | [] => c :: rest
    else c :: rest

/-- A Python `DIGITS` run (`digit (["_"] digit)*`): the remainder after
the run, or `none` when the text does not start with a digit. -/
def parseDigits : List Char → Option (List Char)
  | c :: rest => if isDigitB c then some (digitsUndAux rest) else none
  | [] => none

/-- The optional exponent suffix of a Python float literal: either empty,
or `("e"|"E") ["+"|"-"] DIGITS` consuming the whole remainder. -/
def floatExpOk : List Char → Bool
  | [] => true
  | e :: rest =>
    if e = 'e' ∨ e = 'E' then
      let rest2 := match rest with
        | c :: r => if c = '+' ∨ c = '-' then r else c :: r
        | [] => []
      match parseDigits rest2 with
      | some [] => true
      | _ => false
    else false

/-- The mantissa-and-exponent body of a Python float literal (after the
optional sign): `DIGITS ["." [DIGITS]] [exp]` or `"." DIGITS [exp]`. -/
def floatNumberOk (s : List Char) : Bool :=
  match parseDigits s with
  | some rest =>
    match rest with
    | c :: r =>
      if c = '.' then
        match parseDigits r with
        | some r2 => floatExpOk r2
        | none => floatExpOk r
      else floatExpOk rest
    | [] => true
  | none =>
    match s with
    | c :: r =>
      if c = '.' then
        match parseDigits r with
        | some r2 => floatExpOk r2
        | none => false
      else false
    | [] => false

/-- The texts Python's `float()` accepts: surrounding whitespace is
stripped, then an optional sign followed by `inf`/`infinity`/`nan`
(case-insensitive) or a decimal mantissa with optional exponent
(underscores only between digits).  Anything else raises `ValueError`.
(As with the other text helpers, only ASCII digits are modelled; the
unicode digits `float()` also accepts are outside the embedding.) -/
def pyFloatAccepts (txt : PyStr) : Bool :=
  let s := pyStrip txt
  let s1 := match s with
    | c :: r => if c = '+' ∨ c = '-' then r else c :: r
    | [] => []
  if pyLower s1 = tstr "inf" ∨ pyLower s1 = tstr "infinity" ∨ pyLower s1 = tstr "nan"
    then true
  else floatNumberOk s1

/-- `NUMTYPES_CAST[type](text)` for a textual input (used for
`fixed_value`).  `float(text)` returns the abstract `floatText` carrier
(see module docstring) when the text matches the literal grammar that
`float()` accepts, and is the `ValueError` Python raises otherwise. -/
def castText (t : PyStr) (txt : PyStr) : Except String PyVal :=
  match NUMTYPES_CAST t with
  | none => .error "KeyError: type not in NUMTYPES_CAST"
  | some .toInt =>
    match pyIntParse txt with
    | some i => .ok (.int i)
    | none => .error "ValueError: invalid literal for int()"
  | some .toFloat =>
    if pyFloatAccepts txt then .ok (.floatText txt)
    else .error "ValueError: could not convert string to float"
  | some .toStr => .ok (.str txt)

/-- `_read_bin_param` for a `Parameter` definition. -/
def readBinParam (c : DefCommon) (fixed_value : Option PyStr) (endianness : PyStr)
    (bs : List Nat) : Except String (PyVal × List Nat) := do
  match fixed_value with
  | some fv =>
    if c.type = tstr "string" then .ok (.str fv, bs)
    else do
      let v ← castText c.type fv
      .ok (v, bs)
  | none =>
    if c.type = tstr "string" then do
      let (len, bs1) ← readBinInt endianness bs
      let (s, bs2) ← readString len bs1
      .ok (.str s, bs2)
    else do
      let size ← match NUMTYPES_SIZES c.type with
        | some s => pure s
        | none => .error "KeyError: type not in NUMTYPES_SIZES"
      if endianness = tstr "big" ∨ endianness = tstr "little" then
        if size ≤ bs.length then
          let raw := beNat (endianBytes endianness (bs.take size))
          let rest := bs.drop size
          match NUMTYPES_CAST c.type with
          | none => .error "KeyError: type not in NUMTYPES_CAST"
          | some .toInt => .ok (.int (fromTwos size raw), rest)
          | some .toFloat =>
            if c.type = tstr "float" then .ok (.f32 raw, rest)
            else .ok (.f64 raw, rest)
          | some .toStr => .ok (.str (npArray1Str (fromTwos size raw)), rest)
        else .error "ValueError: buffer size must be a multiple of element size"
      else .error "KeyError: endianness"

/-- Product of array extents (`int(np.prod(dims))`; the empty product is 1). -/
def listProdInt (l : List Int) : Int := l.foldl (· * ·) 1

/-- Split a flat list into `count` chunks of `size`. -/
def chunkList : Nat → Nat → List PyVal → List (List PyVal)
  | 0, _, _ => []
  | k + 1, size, l => l.take size :: chunkList k size (l.drop size)

/-- Product of a `Nat` shape. -/
def listProd (l : List Nat) : Nat := l.foldl (· * ·) 1

/-- `np.reshape` of a flat value list to a row-major nested shape (numpy's
`-1` extent inference is not modelled; extents here are the non-negative
ones).  A 0-d reshape produces the lone scalar. -/
def reshapeValF : Nat → List Nat → List PyVal → Option PyVal
  | 0, _, _ => none
  | _ + 1, [], flat =>
    match flat with
    | [x] => some x
    | _ => none
  | _ + 1, [n], flat => if flat.length = n then some (.vlist flat) else none
  | fuel + 1, n :: rest, flat =>
    if flat.length = n * listProd rest then
      ((chunkList n (listProd rest) flat).mapM (reshapeValF fuel rest)).map .vlist
    else none

/-- `reshapeValF` with sufficient fuel. -/
def reshapeVal (dims : List Nat) (flat : List PyVal) : Option PyVal :=
  reshapeValF (dims.length + 1) dims flat

/-- `_read_bin_array_len`: read one extent per declared dimension (default
1) and return extents and their product. -/
def readBinArrayLen (num_dims : Option Int) (endianness : PyStr) (bs : List Nat) :
    Except String (List Int × Int × List Nat) := do
  let n := (num_dims.getD 1).toNat
  let (dims, bs1) ← readDims n endianness bs
  .ok (dims, listProdInt dims, bs1)
where
  readDims : Nat → PyStr → List Nat → Except String (List Int × List Nat)
    | 0, _, bs => .ok ([], bs)
    | k + 1, e, bs => do
      let (i, bs1) ← readBinInt e bs
      let (more, bs2) ← readDims k e bs1
      .ok (i :: more, bs2)

/-- Read `count` length-prefixed strings (the string-array payload of
`_read_bin_array`; the length prefix type is `long` since `Array`
definitions carry no `modifier` attribute). -/
def readBinStrings : Nat → PyStr → List Nat → Except String (List PyVal × List Nat)
  | 0, _, bs => .ok ([], bs)
  | k + 1, endianness, bs => do
    let (len, bs1) ← readBinInt endianness bs
    let (s, bs2) ← readString len bs1
    let (more, bs3) ← readBinStrings k endianness bs2
    .ok (.str s :: more, bs3)

/-- `_read_bin_array`. -/
def readBinArray (c : DefCommon) (dimensions : Option Int) (endianness : PyStr)
    (bs : List Nat) : Except String (PyVal × List Nat) := do
  let (dims, total, bs1) ← readBinArrayLen dimensions endianness bs
  if c.type = tstr "string" then do
    let (strs, bs2) ← readBinStrings total.toNat endianness bs1
    .ok (.vlist strs, bs2)
  else do
    if dims.all (0 ≤ ·) then do
      let (elems, bs2) ← readBinElems c.type total.toNat endianness bs1
      match reshapeVal (dims.map Int.toNat) elems with
      | some v => .ok (v, bs2)
      | none => .error "ValueError: cannot reshape array"
    else .error "ValueError: negative dimensions are not modelled"
where
  /-- `_read_bin_numeric` for the array payload: unlike the parameter path
  the values keep their numpy dtype, so floats stay at their width. -/
  readBinElems (t : PyStr) (count : Nat) (endianness : PyStr) (bs : List Nat) :
      Except String (List PyVal × List Nat) := do
    let size ← match NUMTYPES_SIZES t with
      | some s => pure s
      | none => .error "KeyError: type not in NUMTYPES_SIZES"
    if endianness = tstr "big" ∨ endianness = tstr "little" then
      if count * size ≤ bs.length then
        let p := readChunks count size bs
        let mk : List Nat → PyVal := fun chunk =>
          let raw := beNat (endianBytes endianness chunk)
          if t = tstr "float" then .f32 raw
          else if t = tstr "double" then .f64 raw
          else .int (fromTwos size raw)
        .ok (p.1.map mk, p.2)
      else .error "ValueError: buffer size must be a multiple of element size"
    else .error "KeyError: endianness"

/-- `_read_data_binary`: leading row count, then one decode per definition
in canonical order; `Column` raises `NotImplementedError`. -/
def readDataBinary (defs : List Definition) (bs : List Nat) (endianness : PyStr) :
    Except String (List PyVal) := do
  let (_row_count, bs1) ← readBinInt endianness bs
  let r ← go defs bs1
  .ok r.1
where
  go : List Definition → List Nat → Except String (List PyVal × List Nat)
    | [], bs => .ok ([], bs)
    | d :: more, bs => do
      let (v, bs1) ←
        match d with
        | .param c fv => readBinParam c fv endianness bs
        | .arr c _ _ dims => readBinArray c dims endianness bs
        | .col _ => .error "NotImplementedError"
      let (vs, bs2) ← go more bs1
      .ok (v :: vs, bs2)

/-! ### ASCII data reading -/

/-- `_read_ascii_parameter`. -/
def readAsciiParameter (c : DefCommon) (fixed_value : Option PyStr)
    (lines : List PyStr) : Except String (PyVal × List PyStr) :=
  match fixed_value with
  | some fv =>
    if c.type = tstr "string" then .ok (.str fv, lines)
    else if (NUMTYPES_CAST c.type).isSome then do
      let v ← castText c.type fv
      .ok (v, lines)
    else .error "TypeError: type for Parameter unsupported"
  | none =>
    match lines with
    | [] => .error "StopIteration"
    | line :: more =>
      if c.type = tstr "string" then .ok (.str line, more)
      else if (NUMTYPES_CAST c.type).isSome then do
        let v ← castText c.type line
        .ok (v, more)
      else .error "TypeError: type for Parameter unsupported"

/-- Token-gathering loop of `_read_ascii_array`: append
`line.strip().split(" ")` (single-space split, keeping empties) until
exactly `total` tokens are gathered; running out of lines first raises. -/
def gatherTokens (total : Int) : List PyStr → List PyStr →
    Except String (List PyStr × List PyStr)
  | acc, lines =>
    if (acc.length : Int) = total then .ok (acc, lines)
    else
      match lines with
      | [] => .error "StopIteration"
      | line :: more => gatherTokens total (acc ++ pySplitChar ' ' (pyStrip line)) more

/-- `_read_ascii_array`. -/
def readAsciiArray (c : DefCommon) (lines : List PyStr) :
    Except String (PyVal × List PyStr) := do
  match lines with
  | [] => .error "StopIteration"
  | dimsLine :: rest => do
    let dims ← (splitWS dimsLine).mapM fun tok =>
      match pyIntParse tok with
      | some i => Except.ok i
      | none => Except.error "ValueError: invalid literal for int()"
    let (toks, rest1) ← gatherTokens (listProdInt dims) [] rest
    let vals ← if c.type = tstr "string" then
        .ok (toks.map PyVal.str)
      else
        toks.mapM (castText c.type)
    if dims.all (0 ≤ ·) then
      match reshapeVal (dims.map Int.toNat) vals with
      | some v => .ok (v, rest1)
      | none => .error "ValueError: cannot reshape array"
    else .error "ValueError: negative dimensions are not modelled"

/-- `_read_data_ascii`: decode the remaining bytes with `chr` per byte,
split into lines, drop `!`-comment lines, then walk the definitions.
`Parameter` and `Array` definitions consume values; any other definition
(i.e. `Column`) is silently skipped, producing no entry at all. -/
def readDataAscii (defs : List Definition) (bs : List Nat) :
    Except String (List PyVal) := do
  let text : PyStr := bs.map Char.ofNat
  let lines := (pySplitChar '\n' text).filter fun l => ¬(tstr "!").isPrefixOf l
  let r ← go defs lines
  .ok r.1
where
  go : List Definition → List PyStr → Except String (List PyVal × List PyStr)
    | [], lines => .ok ([], lines)
    | d :: more, lines => do
      match d with
      | .param c fv => do
        let (v, lines1) ← readAsciiParameter c fv lines
        let (vs, lines2) ← go more lines1
        .ok (v :: vs, lines2)
      | .arr c _ _ _ => do
        let (v, lines1) ← readAsciiArray c lines
        let (vs, lines2) ← go more lines1
        .ok (v :: vs, lines2)
      | .col _ => go more lines

/-- `_read_data`: dispatch on the declared mode. -/
def readData (data : SddsData) (defs : List Definition) (bs : List Nat)
    (endianness : PyStr) : Except String (List PyVal) :=
  if data.mode = tstr "binary" then readDataBinary defs bs endianness
  else if data.mode = tstr "ascii" then readDataAscii defs bs
  else .error "ValueError: Unsupported data mode"

/-- `read_sdds` on an in-memory byte stream: optional explicit endianness
(otherwise auto-detected from the comments, falling back to the machine
endianness `machineEnd`), header parse, data parse, and `SddsFile`
construction. -/
def readSdds (machineEnd : PyStr) (endianness : Option PyStr) (bs : List Nat) :
    Except String SddsFile := do
  let e ← match endianness with
    | some e => pure e
    | none => do
      let p ← getEndianness machineEnd bs
      pure p.1
  let (version, defs, desc, data, rest) ← readHeader bs
  let vals ← readData data defs rest e
  sddsFileInit version desc defs vals

/-! ## `sdds/writer.py` -/

/-- Python `str(x)` of an optional string field for the
`f"{key}={value}"` interpolation: `None` prints as `"None"`. -/
def pyReprOptStr : Option PyStr → PyStr
  | none => tstr "None"
  | some s => s

/-- As above for optional int fields. -/
def pyReprOptInt : Option Int → PyStr
  | none => tstr "None"
  | some i => intToDec i

/-- The `Description` the header parser reconstructs from a printed
description line: the raw printed field texts (no `__post_init__` on
`Description`, so a `None` field comes back as the string `"None"`). -/
def descRead : Option SddsDescription → Option SddsDescription
  | none => none
  | some d => some ⟨some (pyReprOptStr d.text), some (pyReprOptStr d.contents)⟩

/-- The `key=value` pairs of `definition.__dict__` in dataclass field
order (base fields first, then the variant's extra fields). -/
def defDictPairs : Definition → List (PyStr × PyStr)
  | .param c fv => commonPairs c ++ [(tstr "fixed_value", pyReprOptStr fv)]
  | .arr c fl gn dims =>
    commonPairs c ++
      [(tstr "field_length", pyReprOptInt fl), (tstr "group_name", pyReprOptStr gn),
        (tstr "dimensions", pyReprOptInt dims)]
  | .col c => commonPairs c
where
  commonPairs (c : DefCommon) : List (PyStr × PyStr) :=
    [(tstr "name", c.name), (tstr "type", c.type), (tstr "symbol", pyReprOptStr c.symbol),
      (tstr "units", pyReprOptStr c.units), (tstr "description", pyReprOptStr c.description),
      (tstr "format", pyReprOptStr c.format)]

/-- The `TAG` class variable of a definition. -/
def defTag : Definition → PyStr
  | .param _ _ => tstr "&parameter"
  | .arr _ _ _ _ => tstr "&array"
  | .col _ => tstr "&column"

/-- Render `key=value` pairs joined by `", "`. -/
def renderPairs (pairs : List (PyStr × PyStr)) : PyStr :=
  List.intercalate (tstr ", ") (pairs.map fun p => p.1 ++ '=' :: p.2)

/-- `_sdds_def_as_str` for a data definition. -/
def sddsDefAsStr (d : Definition) : PyStr :=
  defTag d ++ ' ' :: renderPairs (defDictPairs d) ++ tstr " &end\n"

/-- The content (without trailing newline) of a header command line with
the given tag and `key=value` pairs (proof-support view of
`_sdds_def_as_str`). -/
def cmdLineContent (tag : PyStr) (pairs : List (PyStr × PyStr)) : PyStr :=
  tag ++ ' ' :: renderPairs pairs ++ tstr " &end"

/-- The `key=value` items of a pair list. -/
def kvItems (pairs : List (PyStr × PyStr)) : List PyStr :=
  pairs.map fun p => p.1 ++ '=' :: p.2

/-- `_sdds_def_as_str` for the `Description` container. -/
def descAsStr (d : SddsDescription) : PyStr :=
  tstr "&description " ++
    renderPairs [(tstr "text", pyReprOptStr d.text), (tstr "contents", pyReprOptStr d.contents)]
    ++ tstr " &end\n"

/-- The header bytes the writer emits for the optional description. -/
def descBytes : Option SddsDescription → List Nat
  | some dd => utf8Encode (descAsStr dd)
  | none => []

/-- `_write_header`: `SDDS1` line, the big-endian marker comment for binary
mode, the description, one line per definition (in dict order), and the
`&data` line.  Pure text, so it cannot fail.  (Called after `write_sdds`
has set the `mode` attribute.) -/
def writeHeaderBytes (f : SddsFile) : List Nat :=
  utf8Encode (tstr "SDDS1\n") ++
    (if f.mode = some (tstr "binary") then utf8Encode (tstr "!# big-endian\n") else []) ++
    (match f.description with
      | some d => utf8Encode (descAsStr d)
      | none => []) ++
    (f.definitions.map (fun p => utf8Encode (sddsDefAsStr p.2))).flatten ++
    utf8Encode (tstr "&data mode=" ++ f.mode.getD [] ++ tstr ", &end\n")

/-- Python `len(value)` for the values stored in a document (`TypeError`
for scalars). -/
def pyLen : PyVal → Except String Nat
  | .vlist xs => .ok xs.length
  | .str s => .ok s.length
  | _ => .error "TypeError: object has no len()"

/-- Python `value[i]` for document values (list/array/str indexing). -/
def pyIndex (v : PyVal) (i : Nat) : Except String PyVal :=
  match v with
  | .vlist xs =>
    match xs.get? i with
    | some x => .ok x
    | none => .error "IndexError: index out of range"
  | .str s =>
    match s.get? i with
    | some ch => .ok (.str [ch])
    | none => .error "IndexError: index out of range"
  | _ => .error "TypeError: not subscriptable"

/-- `struct.pack(">{n}s", bs)`: truncate or zero-pad the byte string to
exactly `n` bytes. -/
def packBytes (n : Nat) (bs : List Nat) : List Nat :=
  bs.take n ++ List.replicate (n - bs.length) 0

/-- `_write_string`: a 4-byte big-endian length prefix holding
`len(string)` (the *character* count), then the UTF-8 bytes packed to that
same count (so non-ASCII strings are silently truncated by `struct.pack`).
A non-string value fails (`len`/`encode`). -/
def writeStringVal : PyVal → Except String (List Nat)
  | .str s => do
    let lb ← npIntBytes 4 (s.length : Int)
    .ok (lb ++ packBytes s.length (utf8Encode s))
  | _ => .error "TypeError: not a string"

/-- `np.array(value, dtype=get_dtype_str(t)).tobytes()` for one scalar.
Conversions between value kinds (e.g. Python int fed to a float dtype, or
float narrowing) involve IEEE arithmetic and are not modelled: only the
kind-exact conversions appear, everything else is an error, and no theorem
below touches the unmodelled combinations. -/
def npScalarBytes (t : PyStr) (v : PyVal) : Except String (List Nat) :=
  match NUMTYPES t with
  | none => .error "KeyError: type not in NUMTYPES"
  | some letter =>
    if letter = tstr "f" then
      match v with
      | .f32 b => if b < 2 ^ 32 then .ok (natToBEBytes 4 b) else .error "invalid float bits"
      | _ => .error "dtype conversion not modelled"
    else if letter = tstr "d" then
      match v with
      | .f64 b => if b < 2 ^ 64 then .ok (natToBEBytes 8 b) else .error "invalid float bits"
      | _ => .error "dtype conversion not modelled"
    else if letter = tstr "s" then .error "ValueError: string dtype for scalar"
    else
      let w : Nat := if letter = tstr "i2" then 2 else if letter = tstr "i4" then 4
        else if letter = tstr "i8" then 8 else 1
      match v with
      | .int i => npIntBytes w i
      | _ => .error "dtype conversion not modelled"

/-- One cell written by `_write_parameters`/`_write_columns`: `string` goes
through `_write_string`; `char`/`character` always raises, because
`get_dtype_str("char", length=n)` is `">{n}i1"`, which `struct.pack`
rejects (trailing repeat count without a format character); everything else
goes through the numpy scalar path. -/
def writeCell (t : PyStr) (v : PyVal) : Except String (List Nat) :=
  if t = tstr "string" then writeStringVal v
  else if t = tstr "char" ∨ t = tstr "character" then
    .error "struct.error: repeat count given without format specifier"
  else npScalarBytes t v

/-- `_write_parameters`. -/
def writeParameters : List (Definition × PyVal) → Except String (List Nat)
  | [] => .ok []
  | (d, v) :: more => do
    let b ← writeCell d.type v
    let bs ← writeParameters more
    .ok (b ++ bs)

/-- `get_dimensions_from_array` from `_write_arrays`: `[len(value)]` plus
the dimensions of `value[0]`; an empty list/array raises `IndexError`
(there is no emptiness guard in the source). -/
def getDimensionsFromArray : PyVal → Except String (List Nat)
  | .vlist [] => .error "IndexError: index out of range"
  | .vlist (x :: xs) => do
    let ds ← getDimensionsFromArray x
    .ok ((xs.length + 1) :: ds)
  | _ => .ok []

/-- Row-major flattening of a nested value against a shape, modelling the
rectangularity check `np.array(value, dtype=...)` performs (ragged input is
a `ValueError`). -/
def flattenRectF : Nat → List Nat → PyVal → Except String (List PyVal)
  | 0, _, _ => .error "fuel exhausted"
  | _ + 1, [], v => .ok [v]
  | fuel + 1, n :: rest, v =>
    match v with
    | .vlist xs =>
      if xs.length = n then do
        let parts ← xs.mapM (flattenRectF fuel rest)
        .ok parts.flatten
      else .error "ValueError: inhomogeneous shape"
    | _ => .error "ValueError: inhomogeneous shape"

/-- `flattenRectF` with sufficient fuel. -/
def flattenRect (shape : List Nat) (v : PyVal) : Except String (List PyVal) :=
  flattenRectF (shape.length + 1) shape v

/-- Python iteration over an array-of-strings value (`for string in
value`); iterating a `str` yields its characters. -/
def iterStrings : PyVal → Except String (List PyVal)
  | .vlist xs => .ok xs
  | .str s => .ok (s.map fun ch => .str [ch])
  | _ => .error "TypeError: not iterable"

/-- `_write_arrays` for one (definition, value) pair: the per-axis extents
as `long`s, then the payload (length-prefixed strings, or the flattened
numpy element bytes). -/
def writeArrayPair (d : Definition) (v : PyVal) : Except String (List Nat) := do
  let dims ← getDimensionsFromArray v
  let dimParts ← dims.mapM fun n : Nat => npIntBytes 4 (n : Int)
  let dimBytes := dimParts.flatten
  if d.type = tstr "string" then do
    let xs ← iterStrings v
    let parts ← xs.mapM writeStringVal
    .ok (dimBytes ++ parts.flatten)
  else do
    let flat ← flattenRect dims v
    let parts ← flat.mapM (npScalarBytes d.type)
    .ok (dimBytes ++ parts.flatten)

/-- `_write_arrays`. -/
def writeArrays : List (Definition × PyVal) → Except String (List Nat)
  | [] => .ok []
  | (d, v) :: more => do
    let b ← writeArrayPair d v
    let bs ← writeArrays more
    .ok (b ++ bs)

/-- Truncating transpose, i.e. Python `list(zip(*rows))`. -/
def truncTransposeF : Nat → List (List PyVal) → List (List PyVal)
  | 0, _ => []
  | fuel + 1, ls =>
    if ls.isEmpty then []
    else if ls.any List.isEmpty then []
    else (ls.map (·.headD (.int 0))) :: truncTransposeF fuel (ls.map (·.drop 1))

/-- `list(zip(*vals))` over document values: each value must be iterable
(list/array or str); the result is the list of rows, truncated to the
shortest column. -/
def pyZipStar (vals : List PyVal) : Except String (List (List PyVal)) := do
  let lists ← vals.mapM fun v =>
    match v with
    | .vlist xs => Except.ok xs
    | .str s => Except.ok (s.map fun ch => PyVal.str [ch])
    | _ => Except.error "TypeError: not iterable"
  .ok (truncTransposeF ((lists.map List.length).foldr max 0 + 1) lists)

/-- Run byte-producing steps in order, keeping the bytes already produced
when a step raises (the bare `except: pass` discards the exception but the
earlier `outbytes.write` calls have already happened). -/
def catUntilError : List (Except String (List Nat)) → List Nat
  | [] => []
  | .ok b :: more => b ++ catUntilError more
  | .error _ :: _ => []

/-- `_write_columns` (binary): transpose the column values (truncating to
the shortest), then write cells row-major; any exception anywhere in the
body is swallowed by the bare `except: pass`, keeping the bytes written so
far.  (The `print` call writes to stdout, not to the stream.) -/
def writeColumns (colData : List (Definition × PyVal)) : List Nat :=
  match pyZipStar (colData.map (·.2)) with
  | .error _ => []
  | .ok rows =>
    catUntilError <| rows.flatMap fun row =>
      (row.zip (colData.map (·.1))).map fun p => writeCell p.2.type p.1

/-- Collect the `(definition, value)` pairs of `names` whose definition
satisfies `pred`, via `sdds_file[name]` (so missing keys raise `KeyError`);
with `page = some p` the value is additionally indexed with `[p]`. -/
def pairsFor (f : SddsFile) (names : List PyStr) (pred : Definition → Bool)
    (page : Option Nat) : Except String (List (Definition × PyVal)) :=
  match names with
  | [] => .ok []
  | n :: more => do
    match assocLookup n f.definitions with
    | none => .error "KeyError: name not in definitions"
    | some d =>
      if pred d then do
        let (d', v) ← sddsGetItem f n
        let v ← match page with
          | none => Except.ok v
          | some p => pyIndex v p
        let rest ← pairsFor f more pred page
        .ok ((d', v) :: rest)
      else pairsFor f more pred page

/-- `_get_row_count`: the length of the first column's (page-0) value, or 0
when there are no columns. -/
def getRowCount (f : SddsFile) (names : List PyStr) : Except String Int := do
  let colData ← pairsFor f names Definition.isCol
    (if f.npages > 1 then some 0 else none)
  match colData with
  | [] => .ok 0
  | (_, v) :: _ => do
    let n ← pyLen v
    .ok (n : Int)

/-- One binary page of `_write_data`: row count, parameters, arrays,
columns (in that order, each group in dict order). -/
def writeBinaryPage (f : SddsFile) (names : List PyStr) (nrow : Int)
    (page : Option Nat) : Except String (List Nat) := do
  let rc ← npIntBytes 4 nrow
  let params ← pairsFor f names Definition.isParam page
  let pb ← writeParameters params
  let arrays ← pairsFor f names Definition.isArr page
  let ab ← writeArrays arrays
  let cols ← pairsFor f names Definition.isCol page
  .ok (rc ++ pb ++ ab ++ writeColumns cols)

/-- `_write_data` (binary mode): one page, or `npages` pages with values
indexed per page. -/
def writeData (f : SddsFile) (names : List PyStr) : Except String (List Nat) := do
  let nrow ← getRowCount f names
  if f.npages > 1 then do
    let pages ← (List.range f.npages).mapM fun p =>
      writeBinaryPage f names nrow (some p)
    .ok pages.flatten
  else
    writeBinaryPage f names nrow none

/-- Modelled from the spec: the `NUMTYPES_ascii` print-format table the
writer imports from `sdds.classes` is absent from the `src/` snapshot.
The spec says numeric values are rendered with a type-specific print
format; integers render as decimal text and strings as themselves.  The
exact decimal rendering of floats is floating-point formatting and is not
pinned down by the spec; it is modelled as a fixed injective rendering of
the bit pattern, and no theorem below depends on ascii-rendered float
text.  Unknown type names are a `KeyError`. -/
def asciiRender (t : PyStr) (v : PyVal) : Except String PyStr :=
  if (NUMTYPES t).isSome then
    match v with
    | .int i => .ok (intToDec i)
    | .str s => .ok s
    | .f32 b => .ok (tstr "f32bits" ++ natToDec b)
    | .f64 b => .ok (tstr "f64bits" ++ natToDec b)
    | .floatText s => .ok s
    | .vlist _ => .error "TypeError: format of a list"
  else .error "KeyError: type not in NUMTYPES_ascii"

/-- `_write_ascii_parameters`: one rendered value per line. -/
def writeAsciiParameters : List (Definition × PyVal) → Except String PyStr
  | [] => .ok []
  | (d, v) :: more => do
    let s ← asciiRender d.type v
    let rest ← writeAsciiParameters more
    .ok (s ++ '\n' :: rest)

/-- `_write_ascii_arrays`: a line of space-preceded extents, then every
element (row-major) preceded by a space, then a newline. -/
def writeAsciiArrays : List (Definition × PyVal) → Except String PyStr
  | [] => .ok []
  | (d, v) :: more => do
    let dims ← getDimensionsFromArray v
    let dimsLine := (dims.map fun n => ' ' :: intToDec (n : Int)).flatten ++ ['\n']
    let flat ← flattenRect dims v
    let cells ← flat.mapM fun x => do
      let s ← asciiRender d.type x
      pure (' ' :: s)
    let rest ← writeAsciiArrays more
    .ok (dimsLine ++ cells.flatten ++ '\n' :: rest)

/-- `_write_ascii_columns`: like the binary column writer this swallows any
exception in its body (bare `except: pass`), keeping the text already
written: a row-count line, then one line per (transposed, truncated) row. -/
def writeAsciiColumns (colData : List (Definition × PyVal)) : List Nat :=
  match colData.map (·.2) with
  | [] => []
  | v0 :: _ =>
    match pyLen v0, pyZipStar (colData.map (·.2)) with
    | .ok nrow, .ok rows =>
      catUntilError <|
        (Except.ok (utf8Encode (' ' :: intToDec (nrow : Int) ++ ['\n'])) ::
          rows.flatMap fun row =>
            ((row.zip (colData.map (·.1))).map fun p =>
              (asciiRender p.2.type p.1).map fun s => utf8Encode (' ' :: s)) ++
              [Except.ok (utf8Encode ['\n'])])
    | _, _ => []

/-- One ascii page of `_write_ascii_data` (without the page comment). -/
def writeAsciiPage (f : SddsFile) (names : List PyStr) (page : Option Nat) :
    Except String (List Nat) := do
  let params ← pairsFor f names Definition.isParam page
  let pt ← writeAsciiParameters params
  let arrays ← pairsFor f names Definition.isArr page
  let at_ ← writeAsciiArrays arrays
  let cols ← pairsFor f names Definition.isCol page
  .ok (utf8Encode pt ++ utf8Encode at_ ++ writeAsciiColumns cols)

/-- `_write_ascii_data`. -/
def writeAsciiData (f : SddsFile) (names : List PyStr) : Except String (List Nat) := do
  if f.npages > 1 then do
    let pages ← (List.range f.npages).mapM fun p => do
      let body ← writeAsciiPage f names (some p)
      pure (utf8Encode (tstr "! page number " ++ natToDec (p + 1) ++ tstr "\n") ++ body)
    .ok pages.flatten
  else
    writeAsciiPage f names none

/-- `write_sdds`: resolve the mode (argument over attribute over
`"binary"`), *set it on the input object* (`sdds_file.mode = ...`), then
write header and data.  Returns the (mutated) input and the produced bytes,
or the exception that aborted the write. -/
def writeSdds (f : SddsFile) (mode : Option PyStr) : SddsFile × Except String (List Nat) :=
  let resolved := match mode with
    | some m => m
    | none => f.mode.getD (tstr "binary")
  let f' := { f with mode := some resolved }
  let names := f'.definitions.map (·.1)
  let body : Except String (List Nat) :=
    if resolved = tstr "binary" then writeData f' names
    else if resolved = tstr "ascii" then writeAsciiData f' names
    else .ok []
  (f', body.map (writeHeaderBytes f' ++ ·))

/-! ## Well-formedness predicates for the binary round-trip theorem

The round trip `read(write(doc))` can only reproduce documents whose
header-visible texts survive the tokenizer and whose values match their
declared types at the declared widths; these executable predicates capture
exactly that domain.  They are hypotheses of the C1 theorem, not part of
the codec model. -/

/-- A character that survives the header tokenizer inside a `key=value`
word: ASCII, no whitespace, no comma, no equals sign. -/
def tokenCharB (c : Char) : Bool :=
  decide (c.toNat < 128) && !isPySpace c && !decide (c = ',') && !decide (c = '=')

/-- A non-empty token-safe string. -/
def tokenSafeB (s : PyStr) : Bool := !s.isEmpty && s.all tokenCharB

/-- An optional metadata field that round-trips through the header: absent,
or token-safe and not spelled like `None` (which `__post_init__` would turn
back into `None`). -/
def optFieldSafeB : Option PyStr → Bool
  | none => true
  | some s => tokenSafeB s && !decide (pyLower s = tstr "none")

/-- Header-safe common definition fields. -/
def wfCommonB (c : DefCommon) : Bool :=
  tokenSafeB c.name && tokenSafeB c.type && optFieldSafeB c.symbol &&
    optFieldSafeB c.units && optFieldSafeB c.description && optFieldSafeB c.format

/-- All characters ASCII. -/
def asciiStrB (s : PyStr) : Bool := s.all fun c => decide (c.toNat < 128)

/-- Byte width of the integer-valued registry types. -/
def intWidthOf (t : PyStr) : Option Nat :=
  if t = tstr "short" then some 2
  else if t = tstr "long" then some 4
  else if t = tstr "llong" then some 8
  else if t = tstr "char" then some 1
  else if t = tstr "boolean" then some 1
  else none

/-- A scalar value matching its declared type at the declared width (the
float widths are bit-pattern widths, see the module docstring). -/
def wfElemB (t : PyStr) (v : PyVal) : Bool :=
  if t = tstr "float" then
    match v with
    | .f32 b => decide (b < 2 ^ 32)
    | _ => false
  else if t = tstr "double" then
    match v with
    | .f64 b => decide (b < 2 ^ 64)
    | _ => false
  else
    match intWidthOf t, v with
    | some w, .int i => decide (intFits w i)
    | _, _ => false

/-- A parameter value the binary writer can emit and the reader restore:
an ASCII string of length below 2^31, or a width-correct scalar of a
non-`char` type (`char` parameters always crash `struct.pack`). -/
def wfParamValB (t : PyStr) (v : PyVal) : Bool :=
  if t = tstr "string" then
    match v with
    | .str s => asciiStrB s && decide (s.length < 2 ^ 31)
    | _ => false
  else if t = tstr "char" then false
  else if t = tstr "character" then false
  else wfElemB t v

/-- An array value the binary codec round-trips: a non-empty flat list of
ASCII strings with declared rank 1, or a rectangular nested list of
width-correct scalars whose shape has the declared rank and positive
extents below 2^31. -/
def wfArrayValB (t : PyStr) (dims : Option Int) (v : PyVal) : Bool :=
  if t = tstr "string" then
    match v with
    | .vlist xs =>
      decide (dims.getD 1 = 1) && !xs.isEmpty && decide (xs.length < 2 ^ 31) &&
        xs.all fun x =>
          match x with
          | .str s => asciiStrB s && decide (s.length < 2 ^ 31)
          | _ => false
    | _ => false
  else
    match getDimensionsFromArray v with
    | .ok shape =>
      decide (dims.getD 1 = (shape.length : Int)) &&
        shape.all (fun n => decide (0 < n) && decide (n < 2 ^ 31)) &&
        (match flattenRect shape v with
          | .ok flat => flat.all (wfElemB t)
          | .error _ => false)
    | .error _ => false

/-- Well-formedness of one (definition, value) pair for the C1 round trip:
only Parameters (without `fixed_value`) and Arrays, with header-safe
fields and codec-safe values. -/
def wfDefValB : Definition → PyVal → Bool
  | .param c fv, v => wfCommonB c && fv.isNone && wfParamValB c.type v
  | .arr c _ gn dims, v => wfCommonB c && optFieldSafeB gn && wfArrayValB c.type dims v
  | .col _, _ => false

/-- A description whose fields parse back through the header (they need
not round-trip to the same `Description`, which the claim does not
mention; they must only not break the tokenizer). -/
def wfDescB : Option SddsDescription → Bool
  | none => true
  | some d =>
    (match d.text with
      | none => true
      | some s => tokenSafeB s) &&
    (match d.contents with
      | none => true
      | some s => tokenSafeB s)

/-- A header dict pair whose key is a nonempty token-safe string and whose
value is token-safe (possibly empty).  Every pair the writer prints for a
well-formed definition satisfies this. -/
def pairTokenSafe (p : PyStr × PyStr) : Prop :=
  p.1 ≠ [] ∧ (∀ c ∈ p.1, tokenCharB c = true) ∧ (∀ c ∈ p.2, tokenCharB c = true)

/-! ## Concrete inputs used by the claim theorems -/

/-- A document built directly (as user code may) from definitions and
values, with matching name keys, no `mode` attribute and a single page. -/
def mkDoc (defs : List Definition) (vals : List PyVal) : SddsFile :=
  ⟨tstr "SDDS1", none, defs.map (fun d => (d.name, d)),
    (defs.zip vals).map (fun p => (p.1.name, p.2)), none, 1⟩

/-- `Parameter(name=n, type=t, fixed_value=fv)`. -/
def mkP (n t : String) (fv : Option String) : Definition :=
  .param ⟨tstr n, tstr t, none, none, none, none⟩ (fv.map tstr)

/-- `Array(name=n, type=t, dimensions=dims)`. -/
def mkA (n t : String) (dims : Option Int) : Definition :=
  .arr ⟨tstr n, tstr t, none, none, none, none⟩ none none dims

/-- `Column(name=n, type=t)`. -/
def mkC (n t : String) : Definition :=
  .col ⟨tstr n, tstr t, none, none, none, none⟩

/-- Rank of a definition in the canonical ordering. -/
def kindRank : Definition → Nat
  | .param _ _ => 0
  | .arr _ _ _ _ => 1
  | .col _ => 2

/-- C1 counterexample input: a document with only Parameter definitions,
one of them carrying a `fixed_value` and followed by a second parameter. -/
def c1Doc : SddsFile :=
  mkDoc [mkP "p1" "long" (some "7"), mkP "p2" "long" none] [.int 7, .int 3]

/-- C2: parameter `a` with `fixed_value="5"` and value 5. -/
def c2DocFixed : SddsFile := mkDoc [mkP "a" "long" (some "5")] [.int 5]

/-- C2: the same document without the `fixed_value`. -/
def c2DocPlain : SddsFile := mkDoc [mkP "a" "long" none] [.int 5]

/-- C3: a header declaring one column, binary mode, one row-count word of
data. -/
def c3BinaryBytes : List Nat :=
  utf8Encode (tstr "SDDS1\n&column name=c, type=long, &end\n&data mode=binary, &end\n")
    ++ [0, 0, 0, 0]

/-- C3: the same header in ascii mode. -/
def c3AsciiBytes : List Nat :=
  utf8Encode (tstr "SDDS1\n&column name=c, type=long, &end\n&data mode=ascii, &end\n")

/-- C4: two columns whose values have different lengths (2 and 1). -/
def c4Doc : SddsFile :=
  mkDoc [mkC "c1" "long", mkC "c2" "long"]
    [.vlist [.int 1, .int 2], .vlist [.int 9]]

/-- C9 counterexample stream: a little-endian marker line before a
big-endian marker line. -/
def c9Bytes : List Nat := utf8Encode (tstr "!# little-endian\n!# big-endian\n")

/-! # Theorems -/

/-! ### Association list helpers -/

@[simp] theorem assocLookup_nil {α : Type} (k : PyStr) :
    assocLookup (α := α) k [] = none := rfl

theorem assocLookup_cons {α : Type} (k a : PyStr) (b : α) (t : List (PyStr × α)) :
    assocLookup k ((a, b) :: t) = if a = k then some b else assocLookup k t := rfl

theorem lookup_eq_none_of_not_mem {α : Type} (l : List (PyStr × α)) (k : PyStr)
    (h : k ∉ l.map Prod.fst) : assocLookup k l = none := by
  induction l with
  | nil => rfl
  | cons p t ih =>
    obtain ⟨a, b⟩ := p
    simp only [List.map_cons, List.mem_cons, not_or] at h
    rw [assocLookup_cons, if_neg (fun hEq => h.1 hEq.symm)]
    exact ih h.2

theorem lookup_append_of_none {α : Type} (l₁ l₂ : List (PyStr × α)) (k : PyStr)
    (h : assocLookup k l₁ = none) : assocLookup k (l₁ ++ l₂) = assocLookup k l₂ := by
  induction l₁ with
  | nil => rfl
  | cons p t ih =>
    obtain ⟨a, b⟩ := p
    rw [assocLookup_cons] at h
    by_cases hk : a = k
    · rw [if_pos hk] at h
      cases h
    · rw [if_neg hk] at h
      rw [List.cons_append, assocLookup_cons, if_neg hk]
      exact ih h

theorem foldl_upsert_eq_append {α : Type} (l : List (PyStr × α)) :
    ∀ acc : List (PyStr × α), (∀ k ∈ l.map Prod.fst, assocLookup k acc = none) →
    (l.map Prod.fst).Nodup →
    l.foldl (fun m p => assocUpsert m p.1 p.2) acc = acc ++ l := by
  induction l with
  | nil => intro acc _ _; simp
  | cons p t ih =>
    intro acc h hn
    have hacc : assocLookup p.1 acc = none := h p.1 (List.mem_cons_self _ _)
    have hup : assocUpsert acc p.1 p.2 = acc ++ [p] := by
      unfold assocUpsert
      rw [hacc]
      rfl
    simp only [List.map_cons, List.nodup_cons] at hn
    rw [List.foldl_cons, hup, ih (acc ++ [p]) ?keys hn.2, List.append_assoc]
    rfl
    case keys =>
      intro k hk
      have hk1 : p.1 ≠ k := by
        rintro rfl
        exact hn.1 hk
      rw [lookup_append_of_none _ _ _ (h k (List.mem_cons_of_mem _ hk)), assocLookup_cons,
        if_neg hk1]
      rfl

theorem dictOfPairs_eq_self {α : Type} (l : List (PyStr × α))
    (h : (l.map Prod.fst).Nodup) : dictOfPairs l = l := by
  unfold dictOfPairs
  simpa using foldl_upsert_eq_append l [] (by intro k _; rfl) h

theorem lookup_map_name (defs : List Definition) (d : Definition)
    (hn : (defs.map Definition.name).Nodup) (hd : d ∈ defs) :
    assocLookup d.name (defs.map fun x => (x.name, x)) = some d := by
  induction defs with
  | nil => cases hd
  | cons a t ih =>
    simp only [List.map_cons, List.nodup_cons] at hn
    rcases List.mem_cons.1 hd with rfl | hmem
    · rw [List.map_cons, assocLookup_cons, if_pos rfl]
    · have hne : a.name ≠ d.name := by
        intro hEq
        exact hn.1 (hEq ▸ List.mem_map_of_mem Definition.name hmem)
      rw [List.map_cons, assocLookup_cons, if_neg hne]
      exact ih hn.2 hmem

theorem map_fst_zip_eq_take {α β : Type} :
    ∀ (l₁ : List α) (l₂ : List β), (l₁.zip l₂).map Prod.fst = l₁.take l₂.length
  | [], _ => by simp
  | _ :: _, [] => by simp
  | a :: t₁, b :: t₂ => by
    simp [List.zip_cons_cons, map_fst_zip_eq_take t₁ t₂]

/-! ### C7: canonical ordering of definitions -/

theorem pairwise_of_const {α : Type} {R : α → α → Prop} {P : α → Prop} {l : List α}
    (h : ∀ x ∈ l, P x) (hR : ∀ x y, P x → P y → R x y) : l.Pairwise R := by
  induction l with
  | nil => exact .nil
  | cons a t ih =>
    exact .cons (fun b hb => hR a b (h a (List.mem_cons_self a t)) (h b (List.mem_cons_of_mem a hb)))
      (ih fun x hx => h x (List.mem_cons_of_mem a hx))

theorem filter_filter_self (p : Definition → Bool) (l : List Definition) :
    (l.filter p).filter p = l.filter p :=
  List.filter_eq_self.2 fun a ha => (List.mem_filter.1 ha).2

theorem filter_filter_disjoint {p q : Definition → Bool}
    (h : ∀ d, q d = true → p d = false) (l : List Definition) :
    (l.filter q).filter p = [] :=
  List.filter_eq_nil.2 fun a ha => by
    rw [h a (List.mem_filter.1 ha).2]
    simp

theorem defKindCases (d : Definition) :
    (d.isParam = true ∧ d.isArr = false ∧ d.isCol = false ∧ kindRank d = 0) ∨
    (d.isParam = false ∧ d.isArr = true ∧ d.isCol = false ∧ kindRank d = 1) ∨
    (d.isParam = false ∧ d.isArr = false ∧ d.isCol = true ∧ kindRank d = 2) := by
  rcases d with _ | _ | _ <;>
    simp [Definition.isParam, Definition.isArr, Definition.isCol, kindRank]

theorem arr_not_param {d : Definition} (h : d.isArr = true) : d.isParam = false := by
  rcases defKindCases d with ⟨h1, h2, _, _⟩ | ⟨h1, _, _, _⟩ | ⟨h1, _, _, _⟩ <;> simp_all

theorem col_not_param {d : Definition} (h : d.isCol = true) : d.isParam = false := by
  rcases defKindCases d with ⟨_, _, h3, _⟩ | ⟨_, _, h3, _⟩ | ⟨h1, _, _, _⟩ <;> simp_all

theorem col_not_arr {d : Definition} (h : d.isCol = true) : d.isArr = false := by
  rcases defKindCases d with ⟨_, _, h3, _⟩ | ⟨_, _, h3, _⟩ | ⟨_, h2, _, _⟩ <;> simp_all

theorem param_not_arr {d : Definition} (h : d.isParam = true) : d.isArr = false := by
  rcases defKindCases d with ⟨_, h2, _, _⟩ | ⟨h1, _, _, _⟩ | ⟨h1, _, _, _⟩ <;> simp_all

theorem param_not_col {d : Definition} (h : d.isParam = true) : d.isCol = false := by
  rcases defKindCases d with ⟨_, _, h3, _⟩ | ⟨h1, _, _, _⟩ | ⟨h1, _, _, _⟩ <;> simp_all

theorem arr_not_col {d : Definition} (h : d.isArr = true) : d.isCol = false := by
  rcases defKindCases d with ⟨_, h2, _, _⟩ | ⟨_, _, h3, _⟩ | ⟨_, h2, _, _⟩ <;> simp_all

theorem sortDefinitions_perm (l : List Definition) : (sortDefinitions l).Perm l := by
  have e1 : (l.filter fun d => !d.isParam).filter Definition.isArr
      = l.filter Definition.isArr := by
    rw [List.filter_filter]
    refine List.filter_congr fun x _ => ?_
    rcases defKindCases x with ⟨h1, h2, _, _⟩ | ⟨h1, h2, _, _⟩ | ⟨h1, h2, _, _⟩ <;>
      rw [h1, h2] <;> rfl
  have e2 : (l.filter fun d => !d.isParam).filter (fun d => !d.isArr)
      = l.filter Definition.isCol := by
    rw [List.filter_filter]
    refine List.filter_congr fun x _ => ?_
    rcases defKindCases x with ⟨h1, h2, h3, _⟩ | ⟨h1, h2, h3, _⟩ | ⟨h1, h2, h3, _⟩ <;>
      rw [h1, h2, h3] <;> rfl
  unfold sortDefinitions
  rw [List.append_assoc, ← e1, ← e2]
  exact ((List.filter_append_perm _ _).append_left _).trans (List.filter_append_perm _ _)

/-- C7: `_sort_definitions` keeps each group's relative order (the
group-restricted sublists are unchanged), is a permutation of its input,
is sorted by group (Parameters, then Arrays, then Columns), and on the
spec's six-definition example produces exactly the listed output. -/
theorem C7_sort_definitions_canonical_order :
    (∀ l : List Definition,
      (sortDefinitions l).filter Definition.isParam = l.filter Definition.isParam ∧
      (sortDefinitions l).filter Definition.isArr = l.filter Definition.isArr ∧
      (sortDefinitions l).filter Definition.isCol = l.filter Definition.isCol ∧
      (sortDefinitions l).Perm l ∧
      (sortDefinitions l).Pairwise (fun a b => kindRank a ≤ kindRank b)) ∧
    sortDefinitions
        [mkA "array1" "long" none, mkC "col1" "long", mkP "param1" "long" none,
          mkP "param2" "long" none, mkA "array2" "long" none, mkC "col2" "long"] =
      [mkP "param1" "long" none, mkP "param2" "long" none, mkA "array1" "long" none,
        mkA "array2" "long" none, mkC "col1" "long", mkC "col2" "long"] := by
  constructor
  · intro l
    refine ⟨?_, ?_, ?_, sortDefinitions_perm l, ?_⟩
    · unfold sortDefinitions
      rw [List.filter_append, List.filter_append, filter_filter_self,
        filter_filter_disjoint (fun d => arr_not_param),
        filter_filter_disjoint (fun d => col_not_param)]
      simp
    · unfold sortDefinitions
      rw [List.filter_append, List.filter_append, filter_filter_self,
        filter_filter_disjoint (fun d => param_not_arr),
        filter_filter_disjoint (fun d => col_not_arr)]
      simp
    · unfold sortDefinitions
      rw [List.filter_append, List.filter_append, filter_filter_self,
        filter_filter_disjoint (fun d => param_not_col),
        filter_filter_disjoint (fun d => arr_not_col)]
      simp
    · unfold sortDefinitions
      rw [List.pairwise_append, List.pairwise_append]
      have rankOf : ∀ (p : Definition → Bool) (k : Nat),
          (∀ d : Definition, p d = true → kindRank d = k) →
          ∀ x ∈ l.filter p, kindRank x = k := by
        intro p k hp x hx
        exact hp x (List.mem_filter.1 hx).2
      have hP : ∀ x ∈ l.filter Definition.isParam, kindRank x = 0 := by
        refine rankOf _ 0 fun d hd => ?_
        rcases defKindCases d with ⟨_, _, _, h4⟩ | ⟨h1, _, _, _⟩ | ⟨h1, _, _, _⟩ <;> simp_all
      have hA : ∀ x ∈ l.filter Definition.isArr, kindRank x = 1 := by
        refine rankOf _ 1 fun d hd => ?_
        rcases defKindCases d with ⟨_, h2, _, _⟩ | ⟨_, _, _, h4⟩ | ⟨_, h2, _, _⟩ <;> simp_all
      have hC : ∀ x ∈ l.filter Definition.isCol, kindRank x = 2 := by
        refine rankOf _ 2 fun d hd => ?_
        rcases defKindCases d with ⟨_, _, h3, _⟩ | ⟨_, _, h3, _⟩ | ⟨_, _, _, h4⟩ <;> simp_all
      refine ⟨⟨pairwise_of_const hP (fun x y hx hy => by simp [hx, hy]),
        pairwise_of_const hA (fun x y hx hy => by simp [hx, hy]),
        fun a ha b hb => by rw [hP a ha, hA b hb]; omega⟩,
        pairwise_of_const hC (fun x y hx hy => by simp [hx, hy]),
        fun a ha b hb => ?_⟩
      rw [hC b hb]
      rcases List.mem_append.1 ha with ha | ha
      · rw [hP a ha]; omega
      · rw [hA a ha]; omega
  · rfl

/-! ### C8: duplicate name rejection -/

/-- C8: constructing an `SddsFile` from two Parameters both named `"test"`
fails with the duplicate-name `ValueError` (no file is constructed), and
for every definition list with pairwise distinct names (and any values
list) construction succeeds. -/
theorem C8_duplicate_name_rejection :
    sddsFileInit (tstr "SDDS1") none
        [mkP "test" "int" none, mkP "test" "str" none] [.int 1, .str (tstr "hello")] =
      .error "ValueError: Duplicated name entries found" ∧
    ∀ (version : PyStr) (desc : Option SddsDescription) (defs : List Definition)
      (vals : List PyVal), (defs.map Definition.name).Nodup →
      ∃ f, sddsFileInit version desc defs vals = .ok f := by
  refine ⟨rfl, ?_⟩
  intro version desc defs vals hn
  have hd : (defs.map Definition.name).dedup.length = (defs.map Definition.name).length := by
    rw [List.Nodup.dedup hn]
  exact ⟨_, by unfold sddsFileInit; rw [if_neg (by omega)]⟩

theorem C8_duplicate_name_rejection_witness :
    ∃ f, sddsFileInit (tstr "SDDS1") none [mkP "a" "long" none, mkP "b" "long" none]
      [.int 1, .int 2] = .ok f :=
  C8_duplicate_name_rejection.2 (tstr "SDDS1") none _ _ (by decide)

/-! ### C10: values list shorter than the definitions list -/

/-- C10: construction with a shorter values list succeeds; the `zip`
silently leaves every trailing definition without an entry in the values
dict, so its definition is present but `__getitem__` on its name raises
the missing-key error. -/
theorem C10_short_values_list :
    ∀ (version : PyStr) (desc : Option SddsDescription) (defs : List Definition)
      (vals : List PyVal), (defs.map Definition.name).Nodup →
      vals.length < defs.length →
      ∃ f, sddsFileInit version desc defs vals = .ok f ∧
        ∀ d ∈ defs.drop vals.length,
          assocLookup d.name f.definitions = some d ∧
          assocLookup d.name f.values = none ∧
          sddsGetItem f d.name = .error "KeyError: name not in values" := by
  intro version desc defs vals hn hlen
  have hd : (defs.map Definition.name).dedup.length = (defs.map Definition.name).length := by
    rw [List.Nodup.dedup hn]
  have hdefKeys : ((defs.map fun d => (d.name, d)).map Prod.fst) = defs.map Definition.name := by
    rw [List.map_map]
    rfl
  have hdefDict : dictOfPairs (defs.map fun d => (d.name, d)) = defs.map fun d => (d.name, d) :=
    dictOfPairs_eq_self _ (by rw [hdefKeys]; exact hn)
  have hvalKeys : (((defs.zip vals).map fun p => (p.1.name, p.2)).map Prod.fst) =
      ((defs.map Definition.name).take vals.length) := by
    rw [List.map_map]
    have : (Prod.fst ∘ fun p : Definition × PyVal => (p.1.name, p.2)) =
        (Definition.name ∘ Prod.fst) := rfl
    rw [this, ← List.map_map, map_fst_zip_eq_take, List.map_take]
  have hvalNodup : (((defs.zip vals).map fun p => (p.1.name, p.2)).map Prod.fst).Nodup := by
    rw [hvalKeys]
    exact hn.sublist (List.take_sublist _ _)
  have hvalDict : dictOfPairs ((defs.zip vals).map fun p => (p.1.name, p.2)) =
      (defs.zip vals).map fun p => (p.1.name, p.2) :=
    dictOfPairs_eq_self _ hvalNodup
  refine ⟨_, by unfold sddsFileInit; rw [if_neg (by omega)], ?_⟩
  intro d hdrop
  have hmem : d ∈ defs := List.mem_of_mem_drop hdrop
  have hclash : d.name ∉ ((defs.map Definition.name).take vals.length) := by
    have hsplit : (defs.map Definition.name) =
        (defs.map Definition.name).take vals.length ++
          (defs.map Definition.name).drop vals.length :=
      (List.take_append_drop _ _).symm
    have hnd := hn
    rw [hsplit, List.nodup_append] at hnd
    intro hin
    exact hnd.2.2 hin (by
      rw [← List.map_drop]
      exact List.mem_map_of_mem Definition.name hdrop)
  have hlookupDefs : assocLookup d.name
      (dictOfPairs (defs.map fun d => (d.name, d))) = some d := by
    rw [hdefDict]
    exact lookup_map_name defs d hn hmem
  have hlookupVals : assocLookup d.name
      (dictOfPairs ((defs.zip vals).map fun p => (p.1.name, p.2))) = none := by
    rw [hvalDict]
    apply lookup_eq_none_of_not_mem
    rw [hvalKeys]
    exact hclash
  refine ⟨hlookupDefs, hlookupVals, ?_⟩
  unfold sddsGetItem
  rw [hlookupDefs, hlookupVals]

theorem C10_short_values_list_witness :
    ∃ f, sddsFileInit (tstr "SDDS1") none [mkP "a" "long" none, mkP "b" "long" none]
      [.int 1] = .ok f ∧
      ∀ d ∈ ([mkP "a" "long" none, mkP "b" "long" none].drop 1),
        assocLookup d.name f.definitions = some d ∧
        assocLookup d.name f.values = none ∧
        sddsGetItem f d.name = .error "KeyError: name not in values" :=
  C10_short_values_list (tstr "SDDS1") none _ _ (by decide) (by decide)

/-! ### C2: fixed-value parameters and the binary writer -/

/-- C2 (writer bug): `_write_parameters` never consults `fixed_value`, so a
fixed-value parameter still contributes its 4 value bytes; the two
documents differing only in the presence of the `fixed_value` produce
*identical* data sections (row count `0` then the value `5`), in
particular data sections of *equal* byte length. -/
theorem C2_writer_emits_bytes_for_fixed_value_parameter :
    writeParameters [(mkP "a" "long" (some "5"), .int 5)] = .ok [0, 0, 0, 5] ∧
    writeData c2DocFixed [tstr "a"] = .ok [0, 0, 0, 0, 0, 0, 0, 5] ∧
    writeData c2DocPlain [tstr "a"] = .ok [0, 0, 0, 0, 0, 0, 0, 5] ∧
    (writeData c2DocFixed [tstr "a"]).map List.length =
      (writeData c2DocPlain [tstr "a"]).map List.length := by
  exact ⟨rfl, rfl, rfl, rfl⟩

/-! ### C3: column data reading -/

/-- C3: reading binary data with a Column definition raises
`NotImplementedError`, but reading *ascii* data with a Column definition
does **not** fail: it silently skips the column and returns a partial
document whose values dict has no entry for the column (so only a later
`__getitem__` would raise). -/
theorem C3_column_read_behaviour :
    readSdds (tstr "little") none c3BinaryBytes = .error "NotImplementedError" ∧
    readSdds (tstr "little") none c3AsciiBytes =
      .ok ⟨tstr "SDDS1", none, [(tstr "c", mkC "c" "long")], [], none, 1⟩ ∧
    sddsGetItem ⟨tstr "SDDS1", none, [(tstr "c", mkC "c" "long")], [], none, 1⟩ (tstr "c") =
      .error "KeyError: name not in values" := by
  exact ⟨rfl, rfl, rfl⟩

/-! ### C4: unequal column lengths at write time -/

/-- C4: writing a document whose two columns have values of different
lengths (2 and 1) does *not* fail: the bare `except: pass` in
`_write_columns` swallows everything and `zip` truncates to the shortest
column, so the write completes, emitting a row count of 2 (the first
column's length) followed by a single row. -/
theorem C4_unequal_columns_write_completes :
    writeData c4Doc [tstr "c1", tstr "c2"] =
      .ok [0, 0, 0, 2, 0, 0, 0, 1, 0, 0, 0, 9] ∧
    ((writeSdds c4Doc (some (tstr "binary"))).2).isOk = true := by
  exact ⟨rfl, rfl⟩

/-! ### C1: binary round trip -/

/-- C1 counterexample: a document containing only Parameter definitions
(no Columns), one of which has a `fixed_value`.  Writing it in binary mode
and reading the bytes back succeeds but returns value 7 for parameter
`p2`, whose value in the input document is 3: the writer emitted bytes for
the fixed parameter `p1` that the reader (correctly) does not consume, so
the stream is misaligned. -/
theorem C1_binary_roundtrip_counterexample :
    ((writeSdds c1Doc (some (tstr "binary"))).2.map fun bs =>
      (readSdds (tstr "little") none bs).map fun f => assocLookup (tstr "p2") f.values) =
      .ok (.ok (some (.int 7))) ∧
    assocLookup (tstr "p2") c1Doc.values = some (.int 3) ∧
    PyVal.int 7 ≠ PyVal.int 3 := by
  refine ⟨rfl, rfl, ?_⟩
  intro h
  injection h with h2
  exact absurd h2 (by decide)

/-! ### C5: mutation of the input document by `write_sdds` -/

/-- C5 counterexample: `write_sdds` executes `sdds_file.mode = ...`; on a
document without a `mode` attribute the attribute is `"binary"` after the
call, so not every attribute of the input is unchanged. -/
theorem C5_write_mutates_mode_counterexample :
    (writeSdds (mkDoc [] []) none).1.mode = some (tstr "binary") ∧
    (mkDoc [] []).mode = none ∧
    (writeSdds (mkDoc [] []) none).1.mode ≠ (mkDoc [] []).mode := by
  refine ⟨rfl, rfl, ?_⟩
  intro h
  cases h

/-- C5 amended: `write_sdds` mutates exactly the `mode` attribute of its
input (setting it to the resolved mode: the argument if given, else the
existing attribute, else `"binary"`); `version`, `description`,
`definitions`, `values` and the page count are unchanged, for every
document and every mode argument. -/
theorem C5_write_mutates_only_mode (f : SddsFile) (mode : Option PyStr) :
    ((writeSdds f mode).1.version = f.version ∧
      (writeSdds f mode).1.description = f.description ∧
      (writeSdds f mode).1.definitions = f.definitions ∧
      (writeSdds f mode).1.values = f.values ∧
      (writeSdds f mode).1.npages = f.npages) ∧
    (writeSdds f mode).1.mode =
      some (match mode with
        | some m => m
        | none => f.mode.getD (tstr "binary")) := by
  cases mode <;> exact ⟨⟨rfl, rfl, rfl, rfl, rfl⟩, rfl⟩

/-! ### C6: fixed-value parameters read nothing from the stream -/

/-- C6: decoding a Parameter whose `fixed_value` is set synthesizes the
value from the definition — `fixed_value` itself for `string`, otherwise
the `NUMTYPES_CAST` cast of the text — and consumes nothing: the binary
byte cursor and the ascii line cursor are returned unchanged, whatever
their content. -/
theorem C6_fixed_value_parameter_reads_nothing
    (c : DefCommon) (fv : PyStr) (v : PyVal)
    (hcast : (if c.type = tstr "string" then Except.ok (PyVal.str fv)
      else castText c.type fv) = .ok v) :
    (∀ (endianness : PyStr) (bs : List Nat),
      readBinParam c (some fv) endianness bs = .ok (v, bs)) ∧
    ∀ lines : List PyStr,
      readAsciiParameter c (some fv) lines = .ok (v, lines) := by
  by_cases hs : c.type = tstr "string"
  · rw [if_pos hs] at hcast
    injection hcast with h
    constructor
    · intro e bs
      simp only [readBinParam, if_pos hs, h]
    · intro lines
      simp only [readAsciiParameter, if_pos hs, h]
  · rw [if_neg hs] at hcast
    have hsome : (NUMTYPES_CAST c.type).isSome = true := by
      cases hnc : NUMTYPES_CAST c.type with
      | none =>
        unfold castText at hcast
        rw [hnc] at hcast
        cases hcast
      | some k => rfl
    constructor
    · intro e bs
      simp only [readBinParam, if_neg hs, hcast]
      rfl
    · intro lines
      simp only [readAsciiParameter, if_neg hs, if_pos hsome, hcast]
      rfl

theorem C6_fixed_value_parameter_reads_nothing_witness :
    readBinParam ⟨tstr "p", tstr "long", none, none, none, none⟩ (some (tstr "5"))
        (tstr "big") [9, 9] = .ok (.int 5, [9, 9]) ∧
    readAsciiParameter ⟨tstr "p", tstr "long", none, none, none, none⟩ (some (tstr "5"))
        [tstr "x"] = .ok (.int 5, [tstr "x"]) :=
  ⟨(C6_fixed_value_parameter_reads_nothing _ _ _ (by rfl)).1 (tstr "big") [9, 9],
    (C6_fixed_value_parameter_reads_nothing _ _ _ (by rfl)).2 [tstr "x"]⟩

/-- `float("xyz")` raises: the cast hypothesis of the C6 theorem excludes
malformed float `fixed_value` texts, on which `_read_bin_param` and
`_read_ascii_parameter` propagate the `ValueError`. -/
theorem castText_double_malformed :
    castText (tstr "double") (tstr "xyz")
      = .error "ValueError: could not convert string to float" := rfl

/-- A well-formed float literal is cast to its abstract carrier. -/
theorem castText_double_literal :
    castText (tstr "double") (tstr "1.5e-3") = .ok (.floatText (tstr "1.5e-3")) := rfl

/-! ### C9: endianness detection -/

theorem readline_length (bs : List Nat) :
    (readline bs).1.length + (readline bs).2.length = bs.length := by
  induction bs with
  | nil => rfl
  | cons b t ih =>
    by_cases hb : b = 10
    · simp [readline, hb]
      omega
    · simp only [readline, if_neg hb, List.length_cons]
      omega

theorem readline_ne_nil {bs : List Nat} (h : bs ≠ []) : (readline bs).1 ≠ [] := by
  cases bs with
  | nil => cases h rfl
  | cons b t => by_cases hb : b = 10 <;> simp [readline, hb]

theorem byteLines_congr : ∀ (f1 : Nat) (f2 : Nat) (bs : List Nat),
    bs.length < f1 → bs.length < f2 → byteLines f1 bs = byteLines f2 bs := by
  intro f1
  induction f1 with
  | zero => intro f2 bs h1 _; omega
  | succ f1 ih =>
    intro f2 bs h1 h2
    cases f2 with
    | zero => omega
    | succ f2 =>
      simp only [byteLines]
      by_cases he : (readline bs).1.isEmpty
      · rw [if_pos he, if_pos he]
      · rw [if_neg he, if_neg he]
        have hne : bs ≠ [] := by
          rintro rfl
          exact he rfl
        have hlen := readline_length bs
        have hpos : 0 < (readline bs).1.length := by
          cases hl : (readline bs).1 with
          | nil => exact absurd hl (readline_ne_nil hne)
          | cons _ _ => simp
        have hrest : (readline bs).2.length < bs.length := by omega
        rw [ih f2 (readline bs).2 (by omega) (by omega)]

theorem streamLines_cons {bs : List Nat} (h : bs ≠ []) :
    streamLines bs = (readline bs).1 :: streamLines (readline bs).2 := by
  unfold streamLines
  have hlen := readline_length bs
  have hpos : 0 < (readline bs).1.length := by
    cases hl : (readline bs).1 with
    | nil => exact absurd hl (readline_ne_nil h)
    | cons _ _ => simp
  simp only [byteLines]
  rw [if_neg (by
    intro he
    rw [List.isEmpty_iff] at he
    rw [he] at hpos
    exact absurd hpos (by simp))]
  rw [byteLines_congr bs.length ((readline bs).2.length + 1) (readline bs).2
    (by omega) (by omega)]
  rfl

theorem getEndianness_loop_spec (machine : PyStr) :
    ∀ (fuel : Nat) (bs : List Nat) (ls : List PyStr), bs.length < fuel →
    (streamLines bs).mapM utf8Decode = some ls →
    getEndiannessLoop fuel machine bs = .ok (endiannessSpec machine ls) := by
  intro fuel
  induction fuel with
  | zero => intro bs ls h1 _; omega
  | succ fuel ih =>
    intro bs ls h1 hdec
    by_cases hnil : bs = []
    · subst hnil
      cases hdec
      rfl
    · have hcons := streamLines_cons hnil
      have hlen := readline_length bs
      have hpos : 0 < (readline bs).1.length := by
        cases hl : (readline bs).1 with
        | nil => exact absurd hl (readline_ne_nil hnil)
        | cons _ _ => simp
      have hne : ((readline bs).1.isEmpty) = false := by
        cases hl : (readline bs).1 with
        | nil => rw [hl] at hpos; exact absurd hpos (by simp)
        | cons _ _ => rfl
      rw [hcons] at hdec
      rw [List.mapM_cons] at hdec
      cases hline : utf8Decode (readline bs).1 with
      | none => rw [hline] at hdec; cases hdec
      | some line =>
        rw [hline] at hdec
        cases hls' : (streamLines (readline bs).2).mapM utf8Decode with
        | none => rw [hls'] at hdec; cases hdec
        | some tail =>
          rw [hls'] at hdec
          have hEq : some (line :: tail) = some ls := hdec
          injection hEq with hEq2
          subst hEq2
          simp only [getEndiannessLoop, hne, Bool.false_eq_true, if_false, hline]
          by_cases hbig : pyStrip line = tstr "!# big-endian"
          · rw [if_pos hbig]
            unfold endiannessSpec
            rw [List.find?_cons_of_pos _ (by simp [hbig])]
            simp [hbig]
          · rw [if_neg hbig]
            by_cases hlittle : pyStrip line = tstr "!# little-endian"
            · rw [if_pos hlittle]
              unfold endiannessSpec
              rw [List.find?_cons_of_pos _ (by simp [hlittle])]
              simp [hbig]
            · rw [if_neg hlittle]
              have hrest : (readline bs).2.length < bs.length := by omega
              rw [ih (readline bs).2 tail (by omega) hls']
              unfold endiannessSpec
              rw [List.find?_cons_of_neg _ (by simp [hbig, hlittle])]

/-- C9 counterexample: on a stream whose first marker line is the
little-endian comment and whose *second* line's stripped content equals
`!# big-endian`, the helper returns `"little"`, not `"big"`: the claim's
"returns 'big' if a line ... '!# big-endian' is found" does not hold when a
little-endian marker precedes it. -/
theorem C9_first_marker_counterexample :
    getEndianness (tstr "big") c9Bytes = .ok (tstr "little", 0) ∧
    utf8Decode (readline (readline c9Bytes).2).1 = some (tstr "!# big-endian\n") ∧
    pyStrip (tstr "!# big-endian\n") = tstr "!# big-endian" ∧
    tstr "little" ≠ tstr "big" := by
  refine ⟨rfl, rfl, rfl, by decide⟩

/-- C9 amended: provided every line of the stream decodes as UTF-8 (say to
the line list `ls`; on an undecodable line the helper raises instead), the
helper returns the endianness named by the *first* marker line of `ls` —
`"big"`/`"little"` for a line whose stripped content is `!# big-endian` /
`!# little-endian` — and the machine byte order when no marker line
exists; in every such case the stream is rewound to offset 0. -/
theorem C9_endianness_detection (machine : PyStr) (bs : List Nat) (ls : List PyStr)
    (hdec : (streamLines bs).mapM utf8Decode = some ls) :
    getEndianness machine bs = .ok (endiannessSpec machine ls, 0) := by
  unfold getEndianness
  rw [getEndianness_loop_spec machine (bs.length + 1) bs ls (by omega) hdec]
  rfl

theorem C9_endianness_detection_witness :
    getEndianness (tstr "little") (utf8Encode (tstr "abc\ndef")) =
      .ok (endiannessSpec (tstr "little") [tstr "abc\n", tstr "def"], 0) :=
  C9_endianness_detection (tstr "little") (utf8Encode (tstr "abc\ndef"))
    [tstr "abc\n", tstr "def"] (by rfl)

/-! ### Byte-level foundations for the C1 round trip -/

theorem natToBEBytes_length (w : Nat) : ∀ v : Nat, (natToBEBytes w v).length = w := by
  induction w with
  | zero => intro v; rfl
  | succ w ih => intro v; simp [natToBEBytes, ih]

theorem beNat_append_one (l : List Nat) (x : Nat) :
    beNat (l ++ [x]) = beNat l * 256 + x := by
  unfold beNat
  rw [List.foldl_append]
  rfl

theorem beNat_natToBEBytes (w : Nat) : ∀ v : Nat, v < 256 ^ w →
    beNat (natToBEBytes w v) = v := by
  induction w with
  | zero =>
    intro v h
    simp only [pow_zero, Nat.lt_one_iff] at h
    subst h
    rfl
  | succ w ih =>
    intro v h
    have hdiv : v / 256 < 256 ^ w := by
      rw [Nat.div_lt_iff_lt_mul (by norm_num)]
      calc v < 256 ^ (w + 1) := h
        _ = 256 ^ w * 256 := by rw [pow_succ]
    unfold natToBEBytes
    rw [beNat_append_one, ih (v / 256) hdiv]
    omega

theorem pow_256_eq (w : Nat) : 256 ^ w = 2 ^ (8 * w) := by
  rw [show (256 : Nat) = 2 ^ 8 by norm_num, ← pow_mul]

theorem toTwos_lt (w : Nat) (i : Int) : toTwos w i < 2 ^ (8 * w) := by
  unfold toTwos
  have hNpos : (0 : Int) < ((2 ^ (8 * w) : Nat) : Int) := by positivity
  have hlt := Int.emod_lt_of_pos i hNpos
  have hge := Int.emod_nonneg i (ne_of_gt hNpos)
  omega

theorem fromTwos_toTwos (w : Nat) (i : Int) (hw : 0 < w) (h : intFits w i) :
    fromTwos w (toTwos w i) = i := by
  obtain ⟨h1, h2⟩ := h
  have hsplit : 8 * w - 1 + 1 = 8 * w := by omega
  have hNn : (2 : Nat) ^ (8 * w) = 2 ^ (8 * w - 1) * 2 := by rw [← pow_succ, hsplit]
  have hHpos : 0 < (2 : Nat) ^ (8 * w - 1) := by positivity
  unfold fromTwos toTwos
  generalize hH : (2 : Nat) ^ (8 * w - 1) = Hn at h1 h2 hNn hHpos ⊢
  generalize hN : (2 : Nat) ^ (8 * w) = Nn at hNn ⊢
  have hge : (0 : Int) ≤ i % (Nn : Int) :=
    Int.emod_nonneg i (by exact_mod_cast by omega)
  have hm : i % (Nn : Int) = i ∨ i % (Nn : Int) = i + (Nn : Int) := by
    by_cases hi : 0 ≤ i
    · exact Or.inl (Int.emod_eq_of_lt hi (by omega))
    · refine Or.inr ?_
      have h0 : (i + (Nn : Int) * 1) % (Nn : Int) = i % (Nn : Int) :=
        Int.add_mul_emod_self_left i ((Nn : Int)) 1
      have h3 : (i + (Nn : Int) * 1) % (Nn : Int) = i + (Nn : Int) * 1 :=
        Int.emod_eq_of_lt (by omega) (by omega)
      rw [← h0, h3]
      ring
  generalize hmv : i % (Nn : Int) = m at hge hm ⊢
  rcases hm with hm | hm
  · by_cases hc : m.toNat < Hn
    · rw [if_pos hc]
      omega
    · rw [if_neg hc]
      omega
  · by_cases hc : m.toNat < Hn
    · rw [if_pos hc]
      omega
    · rw [if_neg hc]
      omega

theorem npIntBytes_spec (w : Nat) (i : Int) (hw : 0 < w) (h : intFits w i) :
    npIntBytes w i = .ok (natToBEBytes w (toTwos w i)) ∧
      (natToBEBytes w (toTwos w i)).length = w ∧
      fromTwos w (beNat (natToBEBytes w (toTwos w i))) = i := by
  refine ⟨by unfold npIntBytes; rw [if_pos h], natToBEBytes_length w _, ?_⟩
  rw [beNat_natToBEBytes w _ (by rw [pow_256_eq]; exact toTwos_lt w i)]
  exact fromTwos_toTwos w i hw h

/-! ### ASCII and UTF-8 facts -/

theorem utf8EncodeChar_ascii {c : Char} (h : c.toNat < 128) :
    utf8EncodeChar c = [c.toNat] := by
  unfold utf8EncodeChar
  rw [if_pos h]

theorem utf8Encode_ascii {s : PyStr} (h : ∀ c ∈ s, c.toNat < 128) :
    utf8Encode s = s.map Char.toNat := by
  induction s with
  | nil => rfl
  | cons c t ih =>
    unfold utf8Encode at *
    simp only [List.map_cons, List.flatten_cons]
    rw [utf8EncodeChar_ascii (h c (List.mem_cons_self _ _)),
      ih fun x hx => h x (List.mem_cons_of_mem _ hx)]
    rfl

theorem char_ofNat_toNat (c : Char) : Char.ofNat c.toNat = c := Char.ofNat_toNat c

theorem utf8DecodeF_map_toNat : ∀ (s : PyStr), (∀ c ∈ s, c.toNat < 128) →
    utf8DecodeF (s.length + 1) (s.map Char.toNat) = some s := by
  intro s
  induction s with
  | nil => intro _; rfl
  | cons c t ih =>
    intro h
    simp only [List.map_cons, List.length_cons, utf8DecodeF,
      if_pos (h c (List.mem_cons_self _ _)),
      ih fun x hx => h x (List.mem_cons_of_mem _ hx)]
    simp [char_ofNat_toNat]

theorem utf8Decode_map_toNat {s : PyStr} (h : ∀ c ∈ s, c.toNat < 128) :
    utf8Decode (s.map Char.toNat) = some s := by
  unfold utf8Decode
  rw [List.length_map]
  exact utf8DecodeF_map_toNat s h

theorem utf8Decode_utf8Encode_ascii {s : PyStr} (h : ∀ c ∈ s, c.toNat < 128) :
    utf8Decode (utf8Encode s) = some s := by
  rw [utf8Encode_ascii h]
  exact utf8Decode_map_toNat h

theorem ten_not_mem_utf8Encode_ascii {s : PyStr} (hascii : ∀ c ∈ s, c.toNat < 128)
    (h : '\n' ∉ s) : 10 ∉ utf8Encode s := by
  rw [utf8Encode_ascii hascii]
  intro hmem
  obtain ⟨c, hc, hce⟩ := List.mem_map.1 hmem
  apply h
  have hc10 : c = '\n' := by
    have h2 := char_ofNat_toNat c
    rw [hce] at h2
    rw [← h2]
  exact hc10 ▸ hc

/-! ### Stream splitting facts -/

theorem readline_append {l : List Nat} (h : (10 : Nat) ∉ l) (rest : List Nat) :
    readline (l ++ 10 :: rest) = (l ++ [10], rest) := by
  induction l with
  | nil => simp [readline]
  | cons b t ih =>
    have hb : b ≠ 10 := fun hEq => h (hEq ▸ List.mem_cons_self _ _)
    simp only [List.cons_append, readline, if_neg hb, List.append_eq,
      ih fun hm => h (List.mem_cons_of_mem _ hm)]

theorem readChunks_flatten : ∀ (chunks : List (List Nat)) (w : Nat) (rest : List Nat),
    (∀ c ∈ chunks, c.length = w) →
    readChunks chunks.length w (chunks.flatten ++ rest) = (chunks, rest) := by
  intro chunks
  induction chunks with
  | nil => intro w rest _; rfl
  | cons c t ih =>
    intro w rest h
    have hc : c.length = w := h c (List.mem_cons_self _ _)
    simp only [List.length_cons, List.flatten_cons, readChunks, List.append_assoc]
    rw [List.take_left' hc, List.drop_left' hc,
      ih w rest fun x hx => h x (List.mem_cons_of_mem _ hx)]

theorem packBytes_exact {n : Nat} {bs : List Nat} (h : bs.length = n) :
    packBytes n bs = bs := by
  unfold packBytes
  rw [← h]
  simp

/-! ### Text splitting and joining facts -/

theorem intercalate_cons_cons (sep x y : PyStr) (t : List PyStr) :
    List.intercalate sep (x :: y :: t) = x ++ sep ++ List.intercalate sep (y :: t) := by
  simp [List.intercalate, List.intersperse_cons_cons]

theorem intercalate_single (sep x : PyStr) : List.intercalate sep [x] = x := by
  simp [List.intercalate]

theorem pySplitCharAux_append_noSep (sep : Char) :
    ∀ (a : List Char), (∀ c ∈ a, c ≠ sep) → ∀ (bs : List Char) (acc : List Char),
    pySplitCharAux sep (a ++ bs) acc = pySplitCharAux sep bs (a.reverse ++ acc) := by
  intro a
  induction a with
  | nil => intro _ bs acc; simp
  | cons c a' ih =>
    intro h bs acc
    rw [List.cons_append, pySplitCharAux, if_neg (h c (List.mem_cons_self _ _)),
      ih (fun x hx => h x (List.mem_cons_of_mem _ hx)) bs (c :: acc)]
    simp

theorem pySplitCharAux_acc (sep : Char) :
    ∀ (bs : List Char) (acc : List Char),
    ∃ h t, pySplitCharAux sep bs [] = h :: t ∧
      pySplitCharAux sep bs acc = (acc.reverse ++ h) :: t := by
  intro bs
  induction bs with
  | nil => intro acc; exact ⟨[], [], rfl, by simp [pySplitCharAux]⟩
  | cons c bs' ih =>
    intro acc
    by_cases hc : c = sep
    · subst hc
      refine ⟨[], pySplitCharAux c bs' [], ?_, ?_⟩ <;>
        simp [pySplitCharAux]
    · obtain ⟨h, t, h1, h2⟩ := ih (c :: acc)
      obtain ⟨h', t', h1', h2'⟩ := ih [c]
      have hht : h = h' ∧ t = t' := by
        rw [h1] at h1'
        cases h1'
        exact ⟨rfl, rfl⟩
      obtain ⟨rfl, rfl⟩ := hht
      refine ⟨c :: h, t, ?_, ?_⟩
      · rw [pySplitCharAux, if_neg hc, h2']
        simp
      · rw [pySplitCharAux, if_neg hc, h2]
        simp

theorem pySplitChar_single (sep : Char) (v : PyStr) (hv : ∀ c ∈ v, c ≠ sep) :
    pySplitCharAux sep v [] = [v] := by
  rw [← List.append_nil v, pySplitCharAux_append_noSep sep v hv]
  simp [pySplitCharAux]

theorem pySplitChar_two (sep : Char) (k v : PyStr)
    (hk : ∀ c ∈ k, c ≠ sep) (hv : ∀ c ∈ v, c ≠ sep) :
    pySplitChar sep (k ++ sep :: v) = [k, v] := by
  unfold pySplitChar
  rw [pySplitCharAux_append_noSep sep k hk, pySplitCharAux, if_pos rfl,
    pySplitChar_single sep v hv]
  simp

theorem pySplitChar_intercalate (items : List PyStr)
    (h : ∀ i ∈ items, ∀ c ∈ i, c ≠ ',') :
    ∀ (i₀ : PyStr), (∀ c ∈ i₀, c ≠ ',') →
    pySplitChar ',' (List.intercalate (tstr ", ") (i₀ :: items)) =
      i₀ :: items.map (fun i => ' ' :: i) := by
  induction items with
  | nil =>
    intro i₀ h₀
    rw [intercalate_single]
    unfold pySplitChar
    rw [pySplitChar_single ',' i₀ h₀]
    rfl
  | cons j rest ih =>
    intro i₀ h₀
    rw [intercalate_cons_cons]
    unfold pySplitChar
    rw [List.append_assoc, pySplitCharAux_append_noSep ',' i₀ h₀]
    rw [show (tstr ", ") ++ List.intercalate (tstr ", ") (j :: rest) =
      ',' :: (' ' :: List.intercalate (tstr ", ") (j :: rest)) from rfl]
    rw [pySplitCharAux, if_pos rfl]
    have ihj := ih (fun i hi => h i (List.mem_cons_of_mem _ hi)) j
      (h j (List.mem_cons_self _ _))
    unfold pySplitChar at ihj
    obtain ⟨hh, tt, e1, e2⟩ := pySplitCharAux_acc ','
      (List.intercalate (tstr ", ") (j :: rest)) [' ']
    rw [e1] at ihj
    rw [show (' ' :: List.intercalate (tstr ", ") (j :: rest)) =
      [' '] ++ List.intercalate (tstr ", ") (j :: rest) from rfl,
      pySplitCharAux_append_noSep ',' [' ']
        (by intro c hc; simp at hc; subst hc; decide)]
    simp only [List.reverse_cons, List.reverse_nil, List.nil_append, List.append_nil]
    rw [e2]
    injection ihj with e3 e4
    subst e3
    subst e4
    simp

theorem splitWSAux_append_noWS :
    ∀ (w : List Char), (∀ c ∈ w, isPySpace c = false) → ∀ (bs acc : List Char),
    splitWSAux (w ++ bs) acc = splitWSAux bs (w.reverse ++ acc) := by
  intro w
  induction w with
  | nil => intro _ bs acc; simp
  | cons c w' ih =>
    intro h bs acc
    rw [List.cons_append, splitWSAux]
    rw [if_neg (by rw [h c (List.mem_cons_self _ _)]; simp)]
    rw [ih (fun x hx => h x (List.mem_cons_of_mem _ hx)) bs (c :: acc)]
    simp

theorem splitWSAux_single (w : PyStr) (hw : w ≠ [])
    (hwc : ∀ c ∈ w, isPySpace c = false) : splitWSAux w [] = [w] := by
  rw [← List.append_nil w, splitWSAux_append_noWS w hwc]
  have hne : (w.reverse ++ ([] : List Char)).isEmpty = false := by
    cases hw' : w.reverse with
    | nil => exact absurd (List.reverse_eq_nil_iff.1 hw') hw
    | cons _ _ => rfl
  simp only [splitWSAux, hne, Bool.false_eq_true, if_false]
  simp

theorem splitWS_intercalate :
    ∀ (ws : List PyStr), (∀ w ∈ ws, w ≠ [] ∧ ∀ c ∈ w, isPySpace c = false) →
    splitWS (List.intercalate (tstr " ") ws) = ws := by
  intro ws
  induction ws with
  | nil => intro _; rfl
  | cons w rest ih =>
    intro h
    obtain ⟨hw, hwc⟩ := h w (List.mem_cons_self _ _)
    cases rest with
    | nil =>
      rw [intercalate_single]
      unfold splitWS
      exact splitWSAux_single w hw hwc
    | cons w' rest' =>
      rw [intercalate_cons_cons]
      unfold splitWS
      rw [List.append_assoc, splitWSAux_append_noWS w hwc]
      rw [show (tstr " ") ++ List.intercalate (tstr " ") (w' :: rest') =
        ' ' :: List.intercalate (tstr " ") (w' :: rest') from rfl]
      rw [splitWSAux, if_pos (by decide)]
      have hne : (w.reverse ++ ([] : List Char)).isEmpty = false := by
        cases hw' : w.reverse with
        | nil => exact absurd (List.reverse_eq_nil_iff.1 hw') hw
        | cons _ _ => rfl
      rw [if_neg (by rw [hne]; simp)]
      have ihr := ih (fun x hx => h x (List.mem_cons_of_mem _ hx))
      unfold splitWS at ihr
      rw [ihr]
      simp

/-! ### Stripping facts -/

theorem pyStrip_noWS {s : PyStr} (h : ∀ c ∈ s, isPySpace c = false) :
    pyStrip s = s := by
  unfold pyStrip
  have h1 : s.dropWhile isPySpace = s := by
    cases s with
    | nil => rfl
    | cons c t =>
      exact List.dropWhile_cons_of_neg (by rw [h c (List.mem_cons_self _ _)]; simp)
  rw [h1]
  have h2 : s.reverse.dropWhile isPySpace = s.reverse := by
    cases hs : s.reverse with
    | nil => rfl
    | cons c t =>
      refine List.dropWhile_cons_of_neg ?_
      have hc : c ∈ s := by
        rw [← List.mem_reverse, hs]
        exact List.mem_cons_self _ _
      rw [h c hc]
      simp
  rw [h2, List.reverse_reverse]

theorem pyStrip_space_cons (k : PyStr) (h : ∀ c ∈ k, isPySpace c = false) :
    pyStrip (' ' :: k) = k := by
  unfold pyStrip
  rw [List.dropWhile_cons_of_pos (by decide)]
  have h1 : k.dropWhile isPySpace = k := by
    cases k with
    | nil => rfl
    | cons c t =>
      exact List.dropWhile_cons_of_neg (by rw [h c (List.mem_cons_self _ _)]; simp)
  rw [h1]
  have h2 : k.reverse.dropWhile isPySpace = k.reverse := by
    cases hs : k.reverse with
    | nil => rfl
    | cons c t =>
      refine List.dropWhile_cons_of_neg ?_
      have hc : c ∈ k := by
        rw [← List.mem_reverse, hs]
        exact List.mem_cons_self _ _
      rw [h c hc]
      simp
  rw [h2, List.reverse_reverse]

theorem pyStrip_amp_line (body : PyStr) :
    pyStrip (('&' :: body) ++ (tstr " &end" ++ ['\n'])) = ('&' :: body) ++ tstr " &end" := by
  unfold pyStrip
  rw [show ('&' :: body) ++ (tstr " &end" ++ ['\n']) =
    '&' :: (body ++ (tstr " &end" ++ ['\n'])) from rfl]
  rw [List.dropWhile_cons_of_neg (by decide)]
  have hrev : ('&' :: (body ++ (tstr " &end" ++ ['\n']))).reverse =
      '\n' :: ('d' :: 'n' :: 'e' :: '&' :: ' ' :: ('&' :: body).reverse) := by
    simp [tstr]
  rw [hrev, List.dropWhile_cons_of_pos (by decide),
    List.dropWhile_cons_of_neg (by decide)]
  simp [tstr]

/-! ### Decimal rendering and parsing -/

theorem digitsToNat_append_one (l : List Char) (c : Char) :
    digitsToNat (l ++ [c]) = digitsToNat l * 10 + (c.toNat - 48) := by
  unfold digitsToNat
  rw [List.foldl_append]
  rfl

theorem natToDecAux_spec : ∀ (fuel n : Nat), n < fuel →
    natToDecAux fuel n ≠ [] ∧ (∀ c ∈ natToDecAux fuel n, isDigitB c = true) ∧
    digitsToNat (natToDecAux fuel n) = n := by
  intro fuel
  induction fuel with
  | zero => intro n h; omega
  | succ f ih =>
    intro n h
    by_cases h10 : n < 10
    · simp only [natToDecAux, if_pos h10]
      refine ⟨by simp, ?_, ?_⟩
      · intro c hc
        simp only [List.mem_singleton] at hc
        subst hc
        interval_cases n <;> decide
      · interval_cases n <;> decide
    · simp only [natToDecAux, if_neg h10]
      have hn0 : 0 < n := by omega
      have hdivlt : n / 10 < n := Nat.div_lt_self hn0 (by norm_num)
      obtain ⟨hne, hdig, hval⟩ := ih (n / 10) (by omega)
      have hm : n % 10 < 10 := Nat.mod_lt n (by norm_num)
      have hchar : (Char.ofNat (48 + n % 10)).toNat = 48 + n % 10 ∧
          isDigitB (Char.ofNat (48 + n % 10)) = true := by
        generalize n % 10 = m at hm
        interval_cases m <;> exact ⟨by decide, by decide⟩
      refine ⟨by simp, ?_, ?_⟩
      · intro c hc
        rcases List.mem_append.1 hc with hc | hc
        · exact hdig c hc
        · simp only [List.mem_singleton] at hc
          subst hc
          exact hchar.2
      · rw [digitsToNat_append_one, hval, hchar.1]
        omega

theorem natToDec_spec (n : Nat) :
    natToDec n ≠ [] ∧ (∀ c ∈ natToDec n, isDigitB c = true) ∧
    digitsToNat (natToDec n) = n :=
  natToDecAux_spec (n + 1) n (by omega)

theorem digit_not_space {c : Char} (h : isDigitB c = true) : isPySpace c = false := by
  unfold isDigitB at h
  unfold isPySpace
  simp only [Bool.and_eq_true, decide_eq_true_eq] at h
  simp only [Bool.or_eq_false_iff, decide_eq_false_iff_not]
  omega

theorem digit_ne_minus {c : Char} (h : isDigitB c = true) : c ≠ '-' := by
  intro hEq
  subst hEq
  exact absurd h (by decide)

theorem digit_ne_plus {c : Char} (h : isDigitB c = true) : c ≠ '+' := by
  intro hEq
  subst hEq
  exact absurd h (by decide)

theorem pyIntParse_intToDec (i : Int) : pyIntParse (intToDec i) = some i := by
  unfold intToDec pyIntParse
  by_cases hi : i < 0
  · rw [if_pos hi]
    obtain ⟨hne, hdig, hval⟩ := natToDec_spec i.natAbs
    rw [pyStrip_noWS (by
      intro c hc
      rcases List.mem_cons.1 hc with rfl | hc
      · decide
      · exact digit_not_space (hdig c hc))]
    have hstep : pyIntParseCore ('-' :: natToDec i.natAbs) =
        if natToDec i.natAbs ≠ [] ∧ (natToDec i.natAbs).all isDigitB then
          some (-(digitsToNat (natToDec i.natAbs) : Int)) else none := by
      simp [pyIntParseCore]
    rw [hstep, if_pos ⟨hne, List.all_eq_true.2 hdig⟩, hval]
    have h2 : -((i.natAbs : Nat) : Int) = i := by omega
    rw [h2]
  · rw [if_neg hi]
    obtain ⟨hne, hdig, hval⟩ := natToDec_spec i.toNat
    rw [pyStrip_noWS (fun c hc => digit_not_space (hdig c hc))]
    cases hd : natToDec i.toNat with
    | nil => exact absurd hd hne
    | cons c rest =>
      rw [hd] at hdig hval
      have hc : isDigitB c = true := hdig c (List.mem_cons_self _ _)
      simp only [pyIntParseCore, if_neg (digit_ne_minus hc), if_neg (digit_ne_plus hc)]
      rw [if_pos (List.all_eq_true.2 hdig), hval]
      have h2 : ((i.toNat : Nat) : Int) = i := by omega
      rw [h2]

theorem pyLower_digit_head {c : Char} (h : isDigitB c = true ∨ c = '-') :
    (if 65 ≤ c.toNat ∧ c.toNat ≤ 90 then Char.ofNat (c.toNat + 32) else c) = c := by
  rw [if_neg]
  rcases h with h | rfl
  · unfold isDigitB at h
    simp only [Bool.and_eq_true, decide_eq_true_eq] at h
    omega
  · decide

theorem pyLower_intToDec_ne_none (i : Int) : pyLower (intToDec i) ≠ tstr "none" := by
  unfold intToDec
  by_cases hi : i < 0
  · rw [if_pos hi]
    unfold pyLower
    rw [List.map_cons]
    intro hEq
    have hhead : (if 65 ≤ '-'.toNat ∧ '-'.toNat ≤ 90 then Char.ofNat ('-'.toNat + 32)
        else '-') = 'n' := by
      exact (List.cons.injEq _ _ _ _ ▸ hEq : _ ∧ _).1
    revert hhead
    decide
  · rw [if_neg hi]
    obtain ⟨hne, hdig, _⟩ := natToDec_spec i.toNat
    cases hd : natToDec i.toNat with
    | nil => exact absurd hd hne
    | cons c rest =>
      rw [hd] at hdig
      have hc := hdig c (List.mem_cons_self _ _)
      unfold pyLower
      rw [List.map_cons, pyLower_digit_head (Or.inl hc)]
      intro hEq
      have hhead : c = 'n' := (List.cons.injEq _ _ _ _ ▸ hEq : _ ∧ _).1
      subst hhead
      exact absurd hc (by decide)

/-! ### Header command-line shape facts -/

theorem utf8Encode_append (a b : PyStr) :
    utf8Encode (a ++ b) = utf8Encode a ++ utf8Encode b := by
  simp [utf8Encode]

theorem commaWords_cons_cons (i j : PyStr) (t : List PyStr) :
    commaWords (i :: j :: t) = (i ++ [',']) :: commaWords (j :: t) := rfl

theorem commaWords_ne_nil {items : List PyStr} (h : items ≠ []) :
    commaWords items ≠ [] := by
  cases items with
  | nil => exact absurd rfl h
  | cons i rest =>
    cases rest with
    | nil => simp [commaWords]
    | cons j t => rw [commaWords_cons_cons]; simp

theorem intercalate_append_of_ne_nil (sep : PyStr) :
    ∀ (xs ys : List PyStr), xs ≠ [] → ys ≠ [] →
    List.intercalate sep (xs ++ ys) =
      List.intercalate sep xs ++ sep ++ List.intercalate sep ys := by
  intro xs
  induction xs with
  | nil => intro ys h _; exact absurd rfl h
  | cons x xs' ih =>
    intro ys _ hy
    cases xs' with
    | nil =>
      cases ys with
      | nil => exact absurd rfl hy
      | cons y t =>
        rw [List.singleton_append, intercalate_cons_cons, intercalate_single]
    | cons x' t =>
      rw [List.cons_append, List.cons_append, intercalate_cons_cons, ← List.cons_append,
        ih ys (by simp) hy, intercalate_cons_cons]
      simp [List.append_assoc]

theorem intercalate_comma_space : ∀ (items : List PyStr),
    List.intercalate (tstr ", ") items =
      List.intercalate (tstr " ") (commaWords items) := by
  intro items
  induction items with
  | nil => rfl
  | cons i rest ih =>
    cases rest with
    | nil => rfl
    | cons j t =>
      rw [intercalate_cons_cons, commaWords_cons_cons]
      cases hcw : commaWords (j :: t) with
      | nil => exact absurd hcw (commaWords_ne_nil (by simp))
      | cons z zs =>
        rw [intercalate_cons_cons, ← hcw, ← ih,
          show tstr ", " = [','] ++ tstr " " from rfl]
        simp [List.append_assoc]

theorem cmdLineContent_intercalate (tag : PyStr) (pairs : List (PyStr × PyStr))
    (h : pairs ≠ []) :
    cmdLineContent tag pairs =
      List.intercalate (tstr " ")
        (tag :: (commaWords (kvItems pairs) ++ [tstr "&end"])) := by
  have hkv : kvItems pairs ≠ [] := by
    cases pairs with
    | nil => exact absurd rfl h
    | cons p t => simp [kvItems]
  have hcw := commaWords_ne_nil hkv
  have h1 : renderPairs pairs = List.intercalate (tstr " ") (commaWords (kvItems pairs)) := by
    rw [← intercalate_comma_space]; rfl
  rw [show (tag :: (commaWords (kvItems pairs) ++ [tstr "&end"])) =
      [tag] ++ (commaWords (kvItems pairs) ++ [tstr "&end"]) from rfl,
    intercalate_append_of_ne_nil _ _ _ (by simp) (by simp),
    intercalate_append_of_ne_nil _ _ _ hcw (by simp),
    intercalate_single, intercalate_single, ← h1]
  unfold cmdLineContent
  rw [show tstr " &end" = [' '] ++ tstr "&end" from rfl,
    show tstr " " = [' '] from rfl]
  simp [List.append_assoc]

theorem mem_intercalate_space {c : Char} : ∀ {ws : List PyStr},
    c ∈ List.intercalate (tstr " ") ws → c = ' ' ∨ ∃ w ∈ ws, c ∈ w := by
  intro ws
  induction ws with
  | nil => intro h; simp [List.intercalate] at h
  | cons w rest ih =>
    cases rest with
    | nil =>
      intro h
      rw [intercalate_single] at h
      exact Or.inr ⟨w, by simp, h⟩
    | cons w' t =>
      intro h
      rw [intercalate_cons_cons] at h
      rcases List.mem_append.1 h with h | h
      · rcases List.mem_append.1 h with h | h
        · exact Or.inr ⟨w, by simp, h⟩
        · rw [show tstr " " = [' '] from rfl] at h
          simp only [List.mem_singleton] at h
          exact Or.inl h
      · rcases ih h with h | ⟨x, hx, hcx⟩
        · exact Or.inl h
        · exact Or.inr ⟨x, List.mem_cons_of_mem _ hx, hcx⟩

theorem mem_commaWords {w : PyStr} : ∀ {items : List PyStr}, w ∈ commaWords items →
    ∃ i ∈ items, w = i ∨ w = i ++ [','] := by
  intro items
  induction items with
  | nil => intro h; simp [commaWords] at h
  | cons i rest ih =>
    cases rest with
    | nil =>
      intro h
      simp only [commaWords, List.mem_singleton] at h
      exact ⟨i, by simp, Or.inl h⟩
    | cons j t =>
      intro h
      rw [commaWords_cons_cons] at h
      rcases List.mem_cons.1 h with h | h
      · exact ⟨i, by simp, Or.inr h⟩
      · obtain ⟨x, hx, hw⟩ := ih h
        exact ⟨x, List.mem_cons_of_mem _ hx, hw⟩

/-! ### Token character facts -/

theorem tokenChar_parts {c : Char} (h : tokenCharB c = true) :
    c.toNat < 128 ∧ isPySpace c = false ∧ c ≠ ',' ∧ c ≠ '=' := by
  unfold tokenCharB at h
  simp only [Bool.and_eq_true, Bool.not_eq_true', decide_eq_true_eq,
    decide_eq_false_iff_not] at h
  exact ⟨h.1.1.1, h.1.1.2, h.1.2, h.2⟩

theorem tokenChar_of_digit {c : Char} (h : isDigitB c = true) : tokenCharB c = true := by
  have hs := digit_not_space h
  unfold isDigitB at h
  simp only [Bool.and_eq_true, decide_eq_true_eq] at h
  have h1 : c ≠ ',' := fun hEq => by subst hEq; revert h; decide
  have h2 : c ≠ '=' := fun hEq => by subst hEq; revert h; decide
  unfold tokenCharB
  simp [hs, h1, h2]
  omega

theorem tokenSafe_chars {s : PyStr} (h : tokenSafeB s = true) :
    s ≠ [] ∧ ∀ c ∈ s, tokenCharB c = true := by
  unfold tokenSafeB at h
  simp only [Bool.and_eq_true, Bool.not_eq_true', List.isEmpty_eq_false,
    List.all_eq_true] at h
  exact h

theorem optField_chars {o : Option PyStr} (h : optFieldSafeB o = true) :
    ∀ c ∈ pyReprOptStr o, tokenCharB c = true := by
  cases o with
  | none =>
    have hall : (tstr "None").all tokenCharB = true := by decide
    exact fun c hc => List.all_eq_true.1 hall c hc
  | some s =>
    unfold optFieldSafeB at h
    simp only [Bool.and_eq_true] at h
    exact (tokenSafe_chars h.1).2

theorem intToDec_chars (i : Int) : ∀ c ∈ intToDec i, tokenCharB c = true := by
  unfold intToDec
  by_cases hi : i < 0
  · rw [if_pos hi]
    intro c hc
    rcases List.mem_cons.1 hc with rfl | hc
    · decide
    · exact tokenChar_of_digit ((natToDec_spec i.natAbs).2.1 c hc)
  · rw [if_neg hi]
    intro c hc
    exact tokenChar_of_digit ((natToDec_spec i.toNat).2.1 c hc)

theorem pyReprOptInt_chars (o : Option Int) : ∀ c ∈ pyReprOptInt o, tokenCharB c = true := by
  cases o with
  | none =>
    have hall : (tstr "None").all tokenCharB = true := by decide
    exact fun c hc => List.all_eq_true.1 hall c hc
  | some i => exact intToDec_chars i

/-! ### Pair safety of the printed definition dicts -/

theorem pairTokenSafe_mk {k v : PyStr} (hk1 : k ≠ [])
    (hk2 : ∀ c ∈ k, tokenCharB c = true) (hv : ∀ c ∈ v, tokenCharB c = true) :
    pairTokenSafe (k, v) := ⟨hk1, hk2, hv⟩

theorem defDictPairs_safe (d : Definition) (v : PyVal) (hwf : wfDefValB d v = true) :
    ∀ p ∈ defDictPairs d, pairTokenSafe p := by
  cases d with
  | param c fv =>
    unfold wfDefValB at hwf
    simp only [Bool.and_eq_true] at hwf
    obtain ⟨⟨hc, hfv⟩, -⟩ := hwf
    unfold wfCommonB at hc
    simp only [Bool.and_eq_true] at hc
    obtain ⟨⟨⟨⟨⟨hn, ht⟩, hsym⟩, hun⟩, hdesc⟩, hfmt⟩ := hc
    have hfvn : fv = none := by
      cases fv with
      | none => rfl
      | some s => exact absurd hfv (by simp)
    subst hfvn
    intro p hp
    simp only [defDictPairs, defDictPairs.commonPairs, List.mem_append,
      List.mem_cons, List.mem_singleton, List.not_mem_nil, or_false] at hp
    rcases hp with (rfl | rfl | rfl | rfl | rfl | rfl) | rfl
    · exact pairTokenSafe_mk (by decide) (by decide) ((tokenSafe_chars hn).2)
    · exact pairTokenSafe_mk (by decide) (by decide) ((tokenSafe_chars ht).2)
    · exact pairTokenSafe_mk (by decide) (by decide) (optField_chars hsym)
    · exact pairTokenSafe_mk (by decide) (by decide) (optField_chars hun)
    · exact pairTokenSafe_mk (by decide) (by decide) (optField_chars hdesc)
    · exact pairTokenSafe_mk (by decide) (by decide) (optField_chars hfmt)
    · exact pairTokenSafe_mk (by decide) (by decide)
        (optField_chars (show optFieldSafeB none = true from rfl))
  | arr c fl gn dims =>
    unfold wfDefValB at hwf
    simp only [Bool.and_eq_true] at hwf
    obtain ⟨⟨hc, hgn⟩, -⟩ := hwf
    unfold wfCommonB at hc
    simp only [Bool.and_eq_true] at hc
    obtain ⟨⟨⟨⟨⟨hn, ht⟩, hsym⟩, hun⟩, hdesc⟩, hfmt⟩ := hc
    intro p hp
    simp only [defDictPairs, defDictPairs.commonPairs, List.mem_append,
      List.mem_cons, List.mem_singleton, List.not_mem_nil, or_false] at hp
    rcases hp with (rfl | rfl | rfl | rfl | rfl | rfl) | rfl | rfl | rfl
    · exact pairTokenSafe_mk (by decide) (by decide) ((tokenSafe_chars hn).2)
    · exact pairTokenSafe_mk (by decide) (by decide) ((tokenSafe_chars ht).2)
    · exact pairTokenSafe_mk (by decide) (by decide) (optField_chars hsym)
    · exact pairTokenSafe_mk (by decide) (by decide) (optField_chars hun)
    · exact pairTokenSafe_mk (by decide) (by decide) (optField_chars hdesc)
    · exact pairTokenSafe_mk (by decide) (by decide) (optField_chars hfmt)
    · exact pairTokenSafe_mk (by decide) (by decide) (pyReprOptInt_chars fl)
    · exact pairTokenSafe_mk (by decide) (by decide) (optField_chars hgn)
    · exact pairTokenSafe_mk (by decide) (by decide) (pyReprOptInt_chars dims)
  | col c => exact absurd hwf (by simp [wfDefValB])

theorem kvItem_char_facts {p : PyStr × PyStr} (hp : pairTokenSafe p) :
    ∀ c ∈ p.1 ++ '=' :: p.2, isPySpace c = false ∧ c.toNat < 128 ∧ c ≠ ',' := by
  obtain ⟨-, hk, hv⟩ := hp
  intro c hc
  rcases List.mem_append.1 hc with hc | hc
  · obtain ⟨h1, h2, h3, -⟩ := tokenChar_parts (hk c hc)
    exact ⟨h2, h1, h3⟩
  · rcases List.mem_cons.1 hc with rfl | hc
    · exact ⟨by decide, by decide, by decide⟩
    · obtain ⟨h1, h2, h3, -⟩ := tokenChar_parts (hv c hc)
      exact ⟨h2, h1, h3⟩

theorem commaWords_word_facts {pairs : List (PyStr × PyStr)}
    (hs : ∀ p ∈ pairs, pairTokenSafe p) :
    ∀ w ∈ commaWords (kvItems pairs),
      (w ≠ [] ∧ ∀ c ∈ w, isPySpace c = false ∧ c.toNat < 128) ∧ w ≠ tstr "&end" := by
  intro w hw
  obtain ⟨i, hi, hwi⟩ := mem_commaWords hw
  obtain ⟨p, hp, rfl⟩ := List.mem_map.1 hi
  have hfacts := kvItem_char_facts (hs p hp)
  have heqmem : '=' ∈ p.1 ++ '=' :: p.2 :=
    List.mem_append.2 (Or.inr (List.mem_cons_self _ _))
  rcases hwi with rfl | rfl
  · refine ⟨⟨by simp, fun c hc => ⟨(hfacts c hc).1, (hfacts c hc).2.1⟩⟩, ?_⟩
    intro hEq
    rw [hEq] at heqmem
    revert heqmem
    decide
  · refine ⟨⟨by simp, ?_⟩, ?_⟩
    · intro c hc
      rcases List.mem_append.1 hc with hc | hc
      · exact ⟨(hfacts c hc).1, (hfacts c hc).2.1⟩
      · simp only [List.mem_singleton] at hc
        subst hc
        exact ⟨by decide, by decide⟩
    · intro hEq
      have heqmem2 : '=' ∈ (p.1 ++ '=' :: p.2) ++ [','] :=
        List.mem_append.2 (Or.inl heqmem)
      rw [hEq] at heqmem2
      revert heqmem2
      decide

/-! ### Word generator on writer-produced lines -/

theorem nextWord_sdds1 (fuel : Nat) (rest : List Nat) :
    nextWord (fuel + 1) ⟨utf8Encode (tstr "SDDS1\n") ++ rest, []⟩ =
      .ok (some (tstr "SDDS1", ⟨rest, []⟩)) := rfl

theorem nextWord_marker (fuel : Nat) (rest : List Nat) :
    nextWord (fuel + 1) ⟨utf8Encode (tstr "!# big-endian\n") ++ rest, []⟩ =
      nextWord fuel ⟨rest, []⟩ := rfl

theorem nextWord_dataLine (fuel : Nat) (rest : List Nat) :
    nextWord (fuel + 1) ⟨utf8Encode (tstr "&data mode=binary, &end\n") ++ rest, []⟩ =
      .ok (some (tstr "&data", ⟨rest, [tstr "mode=binary,", tstr "&end"]⟩)) := rfl

theorem getDefAsDict_dataDict (rest : List Nat) :
    getDefAsDict ⟨rest, [tstr "mode=binary,", tstr "&end"]⟩ =
      .ok ([(tstr "mode", tstr "binary")], ⟨rest, []⟩) := rfl

theorem nextWord_cmdLine (fuel : Nat) (ttail : PyStr) (pairs : List (PyStr × PyStr))
    (rest : List Nat) (hpairs : pairs ≠ [])
    (hwords : ∀ w ∈ ('&' :: ttail) :: (commaWords (kvItems pairs) ++ [tstr "&end"]),
      w ≠ [] ∧ ∀ c ∈ w, isPySpace c = false ∧ c.toNat < 128) :
    nextWord (fuel + 1)
        ⟨utf8Encode (cmdLineContent ('&' :: ttail) pairs ++ ['\n']) ++ rest, []⟩ =
      .ok (some ('&' :: ttail,
        ⟨rest, commaWords (kvItems pairs) ++ [tstr "&end"]⟩)) := by
  have hint := cmdLineContent_intercalate ('&' :: ttail) pairs hpairs
  have hcc : ∀ c ∈ cmdLineContent ('&' :: ttail) pairs, c.toNat < 128 ∧ c ≠ '\n' := by
    intro c hc
    rw [hint] at hc
    rcases mem_intercalate_space hc with rfl | ⟨w, hw, hcw⟩
    · exact ⟨by decide, by decide⟩
    · obtain ⟨-, hwc⟩ := hwords w hw
      obtain ⟨h1, h2⟩ := hwc c hcw
      refine ⟨h2, ?_⟩
      intro hEq
      subst hEq
      revert h1
      decide
  have hascii : ∀ c ∈ cmdLineContent ('&' :: ttail) pairs, c.toNat < 128 :=
    fun c hc => (hcc c hc).1
  have hnl : '\n' ∉ cmdLineContent ('&' :: ttail) pairs := fun hmem => (hcc _ hmem).2 rfl
  have henc : utf8Encode (cmdLineContent ('&' :: ttail) pairs ++ ['\n']) ++ rest =
      utf8Encode (cmdLineContent ('&' :: ttail) pairs) ++ (10 :: rest) := by
    rw [utf8Encode_append, show utf8Encode ['\n'] = [10] from rfl]
    simp
  have h10 : (10 : Nat) ∉ utf8Encode (cmdLineContent ('&' :: ttail) pairs) :=
    ten_not_mem_utf8Encode_ascii hascii hnl
  have hrl := readline_append h10 rest
  have hcontent2 : cmdLineContent ('&' :: ttail) pairs =
      '&' :: (ttail ++ ' ' :: renderPairs pairs ++ tstr " &end") := rfl
  have hdec : utf8Decode (utf8Encode (cmdLineContent ('&' :: ttail) pairs) ++ [10]) =
      some (cmdLineContent ('&' :: ttail) pairs ++ ['\n']) := by
    rw [show (10 : Nat) :: [] = utf8Encode ['\n'] from rfl, ← utf8Encode_append]
    refine utf8Decode_utf8Encode_ascii ?_
    intro c hc
    rcases List.mem_append.1 hc with hc | hc
    · exact hascii c hc
    · simp only [List.mem_singleton] at hc
      subst hc
      decide
  have hnnl : ¬(cmdLineContent ('&' :: ttail) pairs ++ ['\n'] = tstr "\n") := by
    intro hEq
    rw [hcontent2, List.cons_append, show tstr "\n" = ['\n'] from rfl] at hEq
    injection hEq with h1 _
    exact absurd h1 (by decide)
  have hstrip : pyStrip (cmdLineContent ('&' :: ttail) pairs ++ ['\n']) =
      cmdLineContent ('&' :: ttail) pairs := by
    have hline : cmdLineContent ('&' :: ttail) pairs ++ ['\n'] =
        ('&' :: (ttail ++ ' ' :: renderPairs pairs)) ++ (tstr " &end" ++ ['\n']) := by
      rw [hcontent2]
      simp [List.append_assoc]
    rw [hline, pyStrip_amp_line, hcontent2]
    simp [List.append_assoc]
  have hpre : (tstr "!").isPrefixOf (cmdLineContent ('&' :: ttail) pairs) = false := by
    rw [hcontent2]
    rfl
  have hsplit : splitWS (cmdLineContent ('&' :: ttail) pairs) =
      ('&' :: ttail) :: (commaWords (kvItems pairs) ++ [tstr "&end"]) := by
    rw [hint]
    refine splitWS_intercalate _ ?_
    intro w hw
    obtain ⟨hne, hchars⟩ := hwords w hw
    exact ⟨hne, fun c hc => (hchars c hc).1⟩
  rw [henc]
  simp only [nextWord]
  rw [hrl]
  simp only [List.isEmpty_eq_true, hdec, if_neg hnnl, hstrip, hpre,
    Bool.false_eq_true, if_false, hsplit]
  rw [if_neg (by simp)]

/-! ### Collecting a definition dict from buffered words -/

theorem exc_bind_ok {α β : Type} (a : α) (f : α → Except String β) :
    (Except.ok a >>= f) = f a := rfl

theorem mapM_ok_of_forall {α β : Type} (f : α → Except String β) (g : α → β) :
    ∀ (l : List α), (∀ x ∈ l, f x = .ok (g x)) → l.mapM f = .ok (l.map g) := by
  intro l
  induction l with
  | nil => intro _; rfl
  | cons x t ih =>
    intro h
    rw [List.mapM_cons, h x (List.mem_cons_self _ _),
      ih (fun y hy => h y (List.mem_cons_of_mem _ hy))]
    rfl

theorem optMapM_some_of_forall {α β : Type} (f : α → Option β) (g : α → β) :
    ∀ (l : List α), (∀ x ∈ l, f x = some (g x)) → l.mapM f = some (l.map g) := by
  intro l
  induction l with
  | nil => intro _; rfl
  | cons x t ih =>
    intro h
    rw [List.mapM_cons, h x (List.mem_cons_self _ _),
      ih (fun y hy => h y (List.mem_cons_of_mem _ hy))]
    rfl

theorem splitAssign_kv {p : PyStr × PyStr} (hp : pairTokenSafe p) :
    splitAssign (p.1 ++ '=' :: p.2) = .ok p := by
  obtain ⟨hne, hk, hv⟩ := hp
  have h2 := pySplitChar_two '=' p.1 p.2
    (fun c hc => (tokenChar_parts (hk c hc)).2.2.2)
    (fun c hc => (tokenChar_parts (hv c hc)).2.2.2)
  simp only [splitAssign, h2]
  rw [pyStrip_noWS (fun c hc => (tokenChar_parts (hk c hc)).2.1),
    pyStrip_noWS (fun c hc => (tokenChar_parts (hv c hc)).2.1)]

theorem splitAssign_space_kv {p : PyStr × PyStr} (hp : pairTokenSafe p) :
    splitAssign (' ' :: (p.1 ++ '=' :: p.2)) = .ok p := by
  obtain ⟨hne, hk, hv⟩ := hp
  have h2 : pySplitChar '=' (' ' :: (p.1 ++ '=' :: p.2)) = [' ' :: p.1, p.2] := by
    rw [show ' ' :: (p.1 ++ '=' :: p.2) = (' ' :: p.1) ++ '=' :: p.2 from rfl]
    refine pySplitChar_two '=' (' ' :: p.1) p.2 ?_
      (fun c hc => (tokenChar_parts (hv c hc)).2.2.2)
    intro c hc
    rcases List.mem_cons.1 hc with rfl | hc
    · decide
    · exact (tokenChar_parts (hk c hc)).2.2.2
  simp only [splitAssign, h2]
  rw [pyStrip_space_cons p.1 (fun c hc => (tokenChar_parts (hk c hc)).2.1),
    pyStrip_noWS (fun c hc => (tokenChar_parts (hv c hc)).2.1)]

theorem getDefAsDictLoop_words :
    ∀ (ws : List PyStr) (raw : List PyStr) (pairs : List (PyStr × PyStr))
      (rest : List Nat) (fuel : Nat),
    ws.length < fuel →
    (∀ w ∈ ws, (∀ c ∈ w, isPySpace c = false) ∧ w ≠ tstr "&end") →
    ((pySplitChar ',' (List.intercalate (tstr " ") (raw.reverse ++ ws))).filter
        (fun a => ¬a.isEmpty)).mapM splitAssign = .ok pairs →
    getDefAsDictLoop fuel ⟨rest, ws ++ [tstr "&end"]⟩ raw =
      .ok (dictOfPairs pairs, ⟨rest, []⟩) := by
  intro ws
  induction ws with
  | nil =>
    intro raw pairs rest fuel hfuel hsafe hmap
    cases fuel with
    | zero => omega
    | succ f =>
      simp only [List.append_nil] at hmap
      show (((pySplitChar ',' (List.intercalate (tstr " ") raw.reverse)).filter
          (fun a => ¬a.isEmpty)).mapM splitAssign) >>= (fun pairs =>
            Except.ok (dictOfPairs pairs, (⟨rest, []⟩ : WordState))) =
        Except.ok (dictOfPairs pairs, (⟨rest, []⟩ : WordState))
      rw [hmap, exc_bind_ok]
  | cons w ws' ih =>
    intro raw pairs rest fuel hfuel hsafe hmap
    cases fuel with
    | zero => omega
    | succ f =>
      obtain ⟨hwc, hwe⟩ := hsafe w (List.mem_cons_self _ _)
      have hnw : nextWordF ⟨rest, (w :: ws') ++ [tstr "&end"]⟩ =
          .ok (some (w, ⟨rest, ws' ++ [tstr "&end"]⟩)) := rfl
      have hstrip : pyStrip w = w := pyStrip_noWS hwc
      simp only [getDefAsDictLoop, hnw, exc_bind_ok, hstrip, if_neg hwe]
      refine ih (w :: raw) pairs rest f (by simp at hfuel; omega)
        (fun x hx => hsafe x (List.mem_cons_of_mem _ hx)) ?_
      rw [show (w :: raw).reverse ++ ws' = raw.reverse ++ w :: ws' by simp]
      exact hmap

theorem mapM_splitAssign_space :
    ∀ (ps : List (PyStr × PyStr)), (∀ q ∈ ps, pairTokenSafe q) →
    (ps.map (fun q => ' ' :: (q.1 ++ '=' :: q.2))).mapM splitAssign = .ok ps := by
  intro ps
  induction ps with
  | nil => intro _; rfl
  | cons q t ih =>
    intro h
    rw [List.map_cons, List.mapM_cons, splitAssign_space_kv (h q (List.mem_cons_self _ _)),
      ih (fun x hx => h x (List.mem_cons_of_mem _ hx))]
    rfl

theorem getDefAsDict_kv (pairs : List (PyStr × PyStr)) (rest : List Nat)
    (hpairs : pairs ≠ []) (hs : ∀ p ∈ pairs, pairTokenSafe p) :
    getDefAsDict ⟨rest, commaWords (kvItems pairs) ++ [tstr "&end"]⟩ =
      .ok (dictOfPairs pairs, ⟨rest, []⟩) := by
  have hwf := commaWords_word_facts hs
  have hsafe : ∀ w ∈ commaWords (kvItems pairs),
      (∀ c ∈ w, isPySpace c = false) ∧ w ≠ tstr "&end" := by
    intro w hw
    obtain ⟨⟨-, hc⟩, hne⟩ := hwf w hw
    exact ⟨fun c hcc => (hc c hcc).1, hne⟩
  cases hp : pairs with
  | nil => exact absurd hp hpairs
  | cons p ps =>
    have hitems : kvItems pairs = (p.1 ++ '=' :: p.2) :: kvItems ps := by
      rw [hp]; rfl
    have hresplit : pySplitChar ',' (List.intercalate (tstr " ")
        (([] : List PyStr).reverse ++ commaWords (kvItems pairs))) =
        (p.1 ++ '=' :: p.2) :: (kvItems ps).map (fun i => ' ' :: i) := by
      rw [List.reverse_nil, List.nil_append, ← intercalate_comma_space, hitems]
      refine pySplitChar_intercalate (kvItems ps) ?_ (p.1 ++ '=' :: p.2) ?_
      · intro i hi c hc
        obtain ⟨q, hq, rfl⟩ := List.mem_map.1 hi
        exact (kvItem_char_facts (hs q (hp ▸ List.mem_cons_of_mem _ hq)) c hc).2.2
      · intro c hc
        exact (kvItem_char_facts (hs p (hp ▸ List.mem_cons_self _ _)) c hc).2.2
    have hfilter : (((p.1 ++ '=' :: p.2) :: (kvItems ps).map (fun i => ' ' :: i)).filter
        (fun a => ¬a.isEmpty)) =
        (p.1 ++ '=' :: p.2) :: (kvItems ps).map (fun i => ' ' :: i) := by
      refine List.filter_eq_self.2 ?_
      intro a ha
      rcases List.mem_cons.1 ha with rfl | ha
      · cases hq : p.1 ++ '=' :: p.2 with
        | nil => exact absurd hq (by simp)
        | cons x t => simp
      · obtain ⟨i, hi, rfl⟩ := List.mem_map.1 ha
        simp
    have hmapq : ((p.1 ++ '=' :: p.2) :: (kvItems ps).map (fun i => ' ' :: i)).mapM
        splitAssign = .ok pairs := by
      rw [List.mapM_cons, splitAssign_kv (hs p (hp ▸ List.mem_cons_self _ _))]
      have htail : ((kvItems ps).map (fun i => ' ' :: i)).mapM splitAssign =
          .ok ps := by
        have hcomp : (kvItems ps).map (fun i => ' ' :: i) =
            ps.map (fun q => ' ' :: (q.1 ++ '=' :: q.2)) := by
          simp [kvItems]
        rw [hcomp]
        exact mapM_splitAssign_space ps
          (fun q hq => hs q (hp ▸ List.mem_cons_of_mem _ hq))
      rw [htail]
      rw [hp]
      rfl
    rw [hp] at hresplit hmapq
    unfold getDefAsDict
    refine getDefAsDictLoop_words _ [] (p :: ps) rest _
      (by simp only [List.length_append, List.length_cons, List.length_nil]; omega) ?_ ?_
    · intro w hw
      exact hsafe w (hp ▸ hw)
    · rw [hresplit, hfilter, hmapq]

/-! ### Rebuilding a definition from its printed dict -/

theorem strFieldOfDict_pyRepr (dict : List (PyStr × PyStr)) (k : PyStr) (o : Option PyStr)
    (hl : assocLookup k dict = some (pyReprOptStr o)) (h : optFieldSafeB o = true) :
    strFieldOfDict dict k = o := by
  unfold strFieldOfDict
  rw [hl]
  cases o with
  | none => rfl
  | some s =>
    unfold optFieldSafeB at h
    simp only [Bool.and_eq_true, Bool.not_eq_true', decide_eq_false_iff_not] at h
    show (if pyLower s = tstr "none" then none else some s) = some s
    rw [if_neg h.2]

theorem intFieldOfDict_pyRepr (dict : List (PyStr × PyStr)) (k : PyStr) (o : Option Int)
    (hl : assocLookup k dict = some (pyReprOptInt o)) :
    intFieldOfDict dict k = .ok o := by
  unfold intFieldOfDict
  rw [hl]
  cases o with
  | none => rfl
  | some i =>
    show (if pyLower (intToDec i) = tstr "none" then Except.ok none
      else match pyIntParse (intToDec i) with
        | some j => Except.ok (some j)
        | none => Except.error "ValueError: invalid literal for int()") = Except.ok (some i)
    rw [if_neg (pyLower_intToDec_ne_none i), pyIntParse_intToDec i]

theorem buildDef_roundtrip (d : Definition) (v : PyVal) (hwf : wfDefValB d v = true) :
    buildDef (defTag d) (dictOfPairs (defDictPairs d)) = .ok d := by
  cases d with
  | param c fv =>
    unfold wfDefValB at hwf
    simp only [Bool.and_eq_true] at hwf
    obtain ⟨⟨hc, hfv⟩, -⟩ := hwf
    have hfvn : fv = none := by
      cases fv with
      | none => rfl
      | some s => exact absurd hfv (by simp)
    subst hfvn
    unfold wfCommonB at hc
    simp only [Bool.and_eq_true] at hc
    obtain ⟨⟨⟨⟨⟨hn, ht⟩, hsym⟩, hun⟩, hdesc⟩, hfmt⟩ := hc
    have hnd : dictOfPairs (defDictPairs (.param c none)) = defDictPairs (.param c none) := by
      refine dictOfPairs_eq_self _ ?_
      rw [show (defDictPairs (.param c none)).map Prod.fst =
        [tstr "name", tstr "type", tstr "symbol", tstr "units", tstr "description",
          tstr "format", tstr "fixed_value"] from rfl]
      decide
    rw [hnd]
    have hred : buildDef (defTag (.param c none)) (defDictPairs (.param c none)) =
        .ok (.param ⟨c.name, c.type,
          strFieldOfDict (defDictPairs (.param c none)) (tstr "symbol"),
          strFieldOfDict (defDictPairs (.param c none)) (tstr "units"),
          strFieldOfDict (defDictPairs (.param c none)) (tstr "description"),
          strFieldOfDict (defDictPairs (.param c none)) (tstr "format")⟩
          (strFieldOfDict (defDictPairs (.param c none)) (tstr "fixed_value"))) := rfl
    rw [hred,
      strFieldOfDict_pyRepr (defDictPairs (.param c none)) (tstr "symbol") c.symbol rfl hsym,
      strFieldOfDict_pyRepr (defDictPairs (.param c none)) (tstr "units") c.units rfl hun,
      strFieldOfDict_pyRepr (defDictPairs (.param c none)) (tstr "description")
        c.description rfl hdesc,
      strFieldOfDict_pyRepr (defDictPairs (.param c none)) (tstr "format") c.format rfl hfmt,
      strFieldOfDict_pyRepr (defDictPairs (.param c none)) (tstr "fixed_value") none rfl rfl]
  | arr c fl gn dims =>
    unfold wfDefValB at hwf
    simp only [Bool.and_eq_true] at hwf
    obtain ⟨⟨hc, hgn⟩, -⟩ := hwf
    unfold wfCommonB at hc
    simp only [Bool.and_eq_true] at hc
    obtain ⟨⟨⟨⟨⟨hn, ht⟩, hsym⟩, hun⟩, hdesc⟩, hfmt⟩ := hc
    have hnd : dictOfPairs (defDictPairs (.arr c fl gn dims)) =
        defDictPairs (.arr c fl gn dims) := by
      refine dictOfPairs_eq_self _ ?_
      rw [show (defDictPairs (.arr c fl gn dims)).map Prod.fst =
        [tstr "name", tstr "type", tstr "symbol", tstr "units", tstr "description",
          tstr "format", tstr "field_length", tstr "group_name", tstr "dimensions"] from rfl]
      decide
    rw [hnd]
    have hred : buildDef (defTag (.arr c fl gn dims)) (defDictPairs (.arr c fl gn dims)) =
        (intFieldOfDict (defDictPairs (.arr c fl gn dims)) (tstr "field_length") >>=
          fun flv => intFieldOfDict (defDictPairs (.arr c fl gn dims)) (tstr "dimensions") >>=
            fun dimsv => .ok (.arr ⟨c.name, c.type,
              strFieldOfDict (defDictPairs (.arr c fl gn dims)) (tstr "symbol"),
              strFieldOfDict (defDictPairs (.arr c fl gn dims)) (tstr "units"),
              strFieldOfDict (defDictPairs (.arr c fl gn dims)) (tstr "description"),
              strFieldOfDict (defDictPairs (.arr c fl gn dims)) (tstr "format")⟩ flv
              (strFieldOfDict (defDictPairs (.arr c fl gn dims)) (tstr "group_name"))
              dimsv)) := rfl
    rw [hred,
      intFieldOfDict_pyRepr (defDictPairs (.arr c fl gn dims)) (tstr "field_length") fl rfl,
      exc_bind_ok,
      intFieldOfDict_pyRepr (defDictPairs (.arr c fl gn dims)) (tstr "dimensions") dims rfl,
      exc_bind_ok,
      strFieldOfDict_pyRepr (defDictPairs (.arr c fl gn dims)) (tstr "symbol") c.symbol rfl hsym,
      strFieldOfDict_pyRepr (defDictPairs (.arr c fl gn dims)) (tstr "units") c.units rfl hun,
      strFieldOfDict_pyRepr (defDictPairs (.arr c fl gn dims)) (tstr "description")
        c.description rfl hdesc,
      strFieldOfDict_pyRepr (defDictPairs (.arr c fl gn dims)) (tstr "format") c.format rfl hfmt,
      strFieldOfDict_pyRepr (defDictPairs (.arr c fl gn dims)) (tstr "group_name") gn rfl hgn]
  | col c => exact absurd hwf (by simp [wfDefValB])

/-! ### The header loop on writer-produced streams -/

theorem nextWord_congr : ∀ (f1 : Nat) (st : WordState) (f2 : Nat),
    st.rest.length < f1 → st.rest.length < f2 →
    nextWord f1 st = nextWord f2 st := by
  intro f1
  induction f1 with
  | zero => intro st f2 h1 h2; omega
  | succ a ih =>
    intro st f2 h1 h2
    cases f2 with
    | zero => omega
    | succ b =>
      obtain ⟨rest, buf⟩ := st
      simp only [WordState.rest, List.length_cons] at h1 h2
      cases buf with
      | cons w more => rfl
      | nil =>
        simp only [nextWord]
        by_cases hemp : rest.isEmpty = true
        · rw [if_pos hemp, if_pos hemp]
        · rw [if_neg hemp, if_neg hemp]
          have hrne : rest ≠ [] := by
            cases rest with
            | nil => exact absurd rfl hemp
            | cons x t => simp
          have hlen : (readline rest).2.length < rest.length := by
            have hsum := readline_length rest
            have hne := readline_ne_nil hrne
            have hpos : 0 < (readline rest).1.length := List.length_pos.2 hne
            omega
          cases hdec : utf8Decode (readline rest).1 with
          | none => simp only [hdec]
          | some line =>
            simp only [hdec]
            by_cases hln : line = tstr "\n"
            · rw [if_pos hln, if_pos hln]
              exact ih ⟨(readline rest).2, []⟩ b (by simp only [WordState.rest]; omega)
                (by simp only [WordState.rest]; omega)
            · rw [if_neg hln, if_neg hln]
              by_cases hbang : (tstr "!").isPrefixOf (pyStrip line) = true
              · rw [if_pos hbang, if_pos hbang]
                exact ih ⟨(readline rest).2, []⟩ b (by simp only [WordState.rest]; omega)
                  (by simp only [WordState.rest]; omega)
              · rw [if_neg hbang, if_neg hbang]
                cases hsp : splitWS (pyStrip line) with
                | nil =>
                  simp only [hsp]
                  exact ih ⟨(readline rest).2, []⟩ b (by simp only [WordState.rest]; omega)
                    (by simp only [WordState.rest]; omega)
                | cons w more => simp only [hsp]

theorem nextWordF_marker (R : List Nat) :
    nextWordF ⟨utf8Encode (tstr "!# big-endian\n") ++ R, []⟩ = nextWordF ⟨R, []⟩ := by
  show nextWord ((utf8Encode (tstr "!# big-endian\n") ++ R).length + 1) _ = _
  have hlen : (utf8Encode (tstr "!# big-endian\n") ++ R).length + 1 = (R.length + 14) + 1 := by
    rw [List.length_append, show (utf8Encode (tstr "!# big-endian\n")).length = 14 from rfl]
    omega
  rw [hlen, nextWord_marker (R.length + 14) R]
  exact nextWord_congr (R.length + 14) ⟨R, []⟩ (R.length + 1)
    (by show R.length < R.length + 14; omega) (by show R.length < R.length + 1; omega)

theorem readHeaderLoop_markerSkip (f : Nat) (R : List Nat) (accDefs : List Definition)
    (desc : Option SddsDescription) :
    readHeaderLoop (f + 1) ⟨utf8Encode (tstr "!# big-endian\n") ++ R, []⟩ accDefs desc =
      readHeaderLoop (f + 1) ⟨R, []⟩ accDefs desc := by
  simp only [readHeaderLoop, nextWordF_marker]

theorem readHeaderLoop_dataLine (fuel : Nat) (rest : List Nat) (accDefs : List Definition)
    (desc : Option SddsDescription) :
    readHeaderLoop (fuel + 1) ⟨utf8Encode (tstr "&data mode=binary, &end\n") ++ rest, []⟩
      accDefs desc = .ok (accDefs, desc, ⟨tstr "binary"⟩, ⟨rest, []⟩) := rfl

theorem readHeaderLoop_defLine (fuel : Nat) (d : Definition) (v : PyVal)
    (hwf : wfDefValB d v = true) (rest : List Nat) (accDefs : List Definition)
    (desc : Option SddsDescription) :
    readHeaderLoop (fuel + 1) ⟨utf8Encode (sddsDefAsStr d) ++ rest, []⟩ accDefs desc =
      readHeaderLoop fuel ⟨rest, []⟩ (accDefs ++ [d]) desc := by
  have hs := defDictPairs_safe d v hwf
  have hpairs : defDictPairs d ≠ [] := by
    cases d <;> simp [defDictPairs, defDictPairs.commonPairs]
  obtain ⟨ttail, htag⟩ : ∃ t, defTag d = '&' :: t := by
    cases d with
    | param c fv => exact ⟨_, rfl⟩
    | arr c fl gn dims => exact ⟨_, rfl⟩
    | col c => exact ⟨_, rfl⟩
  have htagfacts : defTag d ≠ [] ∧ ∀ c ∈ defTag d, isPySpace c = false ∧ c.toNat < 128 := by
    cases d with
    | param c fv =>
      exact ⟨show tstr "&parameter" ≠ [] by decide,
        show ∀ ch ∈ tstr "&parameter", isPySpace ch = false ∧ ch.toNat < 128 by decide⟩
    | arr c fl gn dims =>
      exact ⟨show tstr "&array" ≠ [] by decide,
        show ∀ ch ∈ tstr "&array", isPySpace ch = false ∧ ch.toNat < 128 by decide⟩
    | col c =>
      exact ⟨show tstr "&column" ≠ [] by decide,
        show ∀ ch ∈ tstr "&column", isPySpace ch = false ∧ ch.toNat < 128 by decide⟩
  have hwords : ∀ w ∈ ('&' :: ttail) :: (commaWords (kvItems (defDictPairs d)) ++ [tstr "&end"]),
      w ≠ [] ∧ ∀ c ∈ w, isPySpace c = false ∧ c.toNat < 128 := by
    intro w hw
    rcases List.mem_cons.1 hw with rfl | hw
    · rw [← htag]
      exact htagfacts
    · rcases List.mem_append.1 hw with hw | hw
      · exact (commaWords_word_facts hs w hw).1
      · simp only [List.mem_singleton] at hw
        subst hw
        exact ⟨by decide, by decide⟩
  have hline : sddsDefAsStr d = cmdLineContent (defTag d) (defDictPairs d) ++ ['\n'] := by
    unfold sddsDefAsStr cmdLineContent
    rw [show tstr " &end\n" = tstr " &end" ++ ['\n'] from rfl]
    simp [List.append_assoc]
  have hnw : nextWordF ⟨utf8Encode (sddsDefAsStr d) ++ rest, []⟩ =
      .ok (some (defTag d,
        ⟨rest, commaWords (kvItems (defDictPairs d)) ++ [tstr "&end"]⟩)) := by
    show nextWord ((utf8Encode (sddsDefAsStr d) ++ rest).length + 1) _ = _
    rw [hline, htag]
    exact nextWord_cmdLine _ ttail (defDictPairs d) rest hpairs hwords
  have hdict := getDefAsDict_kv (defDictPairs d) rest hpairs hs
  have hcond : defTag d = tstr "&column" ∨ defTag d = tstr "&parameter" ∨
      defTag d = tstr "&array" := by
    cases d with
    | param c fv => exact Or.inr (Or.inl rfl)
    | arr c fl gn dims => exact Or.inr (Or.inr rfl)
    | col c => exact Or.inl rfl
  simp only [readHeaderLoop, hnw, exc_bind_ok, hdict, if_pos hcond,
    buildDef_roundtrip d v hwf]

theorem readHeaderLoop_descLine (fuel : Nat) (dd : SddsDescription)
    (hwfd : wfDescB (some dd) = true) (rest : List Nat) (accDefs : List Definition) :
    readHeaderLoop (fuel + 1) ⟨utf8Encode (descAsStr dd) ++ rest, []⟩ accDefs none =
      readHeaderLoop fuel ⟨rest, []⟩ accDefs (descRead (some dd)) := by
  have hwfd2 : (match dd.text with | none => true | some s => tokenSafeB s) = true ∧
      (match dd.contents with | none => true | some s => tokenSafeB s) = true := by
    unfold wfDescB at hwfd
    simp only [Bool.and_eq_true] at hwfd
    exact hwfd
  obtain ⟨htext, hcont⟩ := hwfd2
  have htv : ∀ c ∈ pyReprOptStr dd.text, tokenCharB c = true := by
    cases hdt : dd.text with
    | none =>
      exact fun c hc => List.all_eq_true.1
        (show (tstr "None").all tokenCharB = true by decide) c hc
    | some s =>
      rw [hdt] at htext
      exact (tokenSafe_chars (by simpa using htext)).2
  have hcv : ∀ c ∈ pyReprOptStr dd.contents, tokenCharB c = true := by
    cases hdt : dd.contents with
    | none =>
      exact fun c hc => List.all_eq_true.1
        (show (tstr "None").all tokenCharB = true by decide) c hc
    | some s =>
      rw [hdt] at hcont
      exact (tokenSafe_chars (by simpa using hcont)).2
  have hs : ∀ p ∈ [(tstr "text", pyReprOptStr dd.text),
      (tstr "contents", pyReprOptStr dd.contents)], pairTokenSafe p := by
    intro p hp
    rcases List.mem_cons.1 hp with rfl | hp
    · exact pairTokenSafe_mk (by decide) (by decide) htv
    · simp only [List.mem_singleton] at hp
      subst hp
      exact pairTokenSafe_mk (by decide) (by decide) hcv
  have hline : descAsStr dd = cmdLineContent (tstr "&description")
      [(tstr "text", pyReprOptStr dd.text), (tstr "contents", pyReprOptStr dd.contents)]
      ++ ['\n'] := by
    unfold descAsStr cmdLineContent
    rw [show tstr "&description " = tstr "&description" ++ [' '] from rfl,
      show tstr " &end\n" = tstr " &end" ++ ['\n'] from rfl]
    simp [List.append_assoc]
  have hwords : ∀ w ∈ ('&' :: tstr "description") ::
      (commaWords (kvItems [(tstr "text", pyReprOptStr dd.text),
        (tstr "contents", pyReprOptStr dd.contents)]) ++ [tstr "&end"]),
      w ≠ [] ∧ ∀ c ∈ w, isPySpace c = false ∧ c.toNat < 128 := by
    intro w hw
    rcases List.mem_cons.1 hw with rfl | hw
    · exact ⟨by decide, by decide⟩
    · rcases List.mem_append.1 hw with hw | hw
      · exact (commaWords_word_facts hs w hw).1
      · simp only [List.mem_singleton] at hw
        subst hw
        exact ⟨by decide, by decide⟩
  have hnw : nextWordF ⟨utf8Encode (descAsStr dd) ++ rest, []⟩ =
      .ok (some (tstr "&description",
        ⟨rest, commaWords (kvItems [(tstr "text", pyReprOptStr dd.text),
          (tstr "contents", pyReprOptStr dd.contents)]) ++ [tstr "&end"]⟩)) := by
    show nextWord ((utf8Encode (descAsStr dd) ++ rest).length + 1) _ = _
    rw [hline, show tstr "&description" = '&' :: tstr "description" from rfl]
    exact nextWord_cmdLine _ (tstr "description") _ rest (by simp) hwords
  have hdict := getDefAsDict_kv [(tstr "text", pyReprOptStr dd.text),
    (tstr "contents", pyReprOptStr dd.contents)] rest (by simp) hs
  have hnd : dictOfPairs [(tstr "text", pyReprOptStr dd.text),
      (tstr "contents", pyReprOptStr dd.contents)] =
      [(tstr "text", pyReprOptStr dd.text), (tstr "contents", pyReprOptStr dd.contents)] := by
    refine dictOfPairs_eq_self _ ?_
    rw [show ([(tstr "text", pyReprOptStr dd.text),
      (tstr "contents", pyReprOptStr dd.contents)]).map Prod.fst =
      [tstr "text", tstr "contents"] from rfl]
    decide
  rw [hnd] at hdict
  simp only [readHeaderLoop, hnw, exc_bind_ok, hdict]
  rw [if_neg (show ¬(tstr "&description" = tstr "&column" ∨
      tstr "&description" = tstr "&parameter" ∨ tstr "&description" = tstr "&array")
    by decide)]
  rw [if_pos trivial]
  rw [if_neg (show ¬((none : Option SddsDescription).isSome = true) by decide)]
  have hfilt : (List.filter (fun p => decide (p.1 ≠ tstr "text" ∧ p.1 ≠ tstr "contents"))
      [(tstr "text", pyReprOptStr dd.text),
        (tstr "contents", pyReprOptStr dd.contents)]).isEmpty = true := rfl
  rw [if_pos hfilt]
  rfl

theorem flatten_length_ge {α : Type} :
    ∀ (ls : List (List α)), (∀ l ∈ ls, l ≠ []) → ls.length ≤ ls.flatten.length := by
  intro ls
  induction ls with
  | nil => intro _; simp
  | cons l t ih =>
    intro h
    have hl : l ≠ [] := h l (List.mem_cons_self _ _)
    have hpos : 0 < l.length := List.length_pos.2 hl
    have := ih (fun x hx => h x (List.mem_cons_of_mem _ hx))
    simp only [List.flatten_cons, List.length_append, List.length_cons]
    omega

theorem utf8EncodeChar_ne_nil (c : Char) : utf8EncodeChar c ≠ [] := by
  unfold utf8EncodeChar
  by_cases h1 : c.toNat < 128
  · simp [h1]
  · by_cases h2 : c.toNat < 2048
    · simp [h1, h2]
    · by_cases h3 : c.toNat < 65536
      · simp [h1, h2, h3]
      · simp [h1, h2, h3]

theorem utf8Encode_ne_nil {s : PyStr} (h : s ≠ []) : utf8Encode s ≠ [] := by
  cases s with
  | nil => exact absurd rfl h
  | cons c t =>
    unfold utf8Encode
    simp only [List.map_cons, List.flatten_cons]
    intro hEq
    exact utf8EncodeChar_ne_nil c (List.append_eq_nil.1 hEq).1

theorem sddsDefAsStr_ne_nil (d : Definition) : sddsDefAsStr d ≠ [] := by
  cases d <;> simp [sddsDefAsStr, defTag, tstr]

theorem readHeaderLoop_defsRun :
    ∀ (ds : List Definition) (fuel : Nat) (accDefs : List Definition)
      (desc : Option SddsDescription) (tail : List Nat),
    (∀ d ∈ ds, ∃ v, wfDefValB d v = true) →
    ds.length < fuel →
    readHeaderLoop fuel
        ⟨(ds.map (fun d => utf8Encode (sddsDefAsStr d))).flatten ++
          (utf8Encode (tstr "&data mode=binary, &end\n") ++ tail), []⟩ accDefs desc =
      .ok (accDefs ++ ds, desc, ⟨tstr "binary"⟩, ⟨tail, []⟩) := by
  intro ds
  induction ds with
  | nil =>
    intro fuel accDefs desc tail _ hfuel
    cases fuel with
    | zero => omega
    | succ f =>
      simp only [List.map_nil, List.flatten_nil, List.nil_append]
      rw [readHeaderLoop_dataLine]
      simp
  | cons d t ih =>
    intro fuel accDefs desc tail hwf hfuel
    cases fuel with
    | zero => omega
    | succ f =>
      obtain ⟨v, hv⟩ := hwf d (List.mem_cons_self _ _)
      simp only [List.map_cons, List.flatten_cons, List.append_assoc]
      rw [readHeaderLoop_defLine f d v hv _ accDefs desc,
        ih f (accDefs ++ [d]) desc tail (fun q hq => hwf q (List.mem_cons_of_mem _ hq))
          (by simp only [List.length_cons] at hfuel; omega)]
      simp

theorem readHeader_write (ds : List Definition) (desc : Option SddsDescription)
    (tail : List Nat)
    (hwf : ∀ d ∈ ds, ∃ v, wfDefValB d v = true)
    (hdesc : wfDescB desc = true) :
    readHeader (utf8Encode (tstr "SDDS1\n") ++
        (utf8Encode (tstr "!# big-endian\n") ++
          ((match desc with
            | some dd => utf8Encode (descAsStr dd)
            | none => []) ++
            ((ds.map (fun d => utf8Encode (sddsDefAsStr d))).flatten ++
              (utf8Encode (tstr "&data mode=binary, &end\n") ++ tail))))) =
      .ok (tstr "SDDS1", sortDefinitions ds, descRead desc, ⟨tstr "binary"⟩, tail) := by
  have hdb : ds.length ≤ (ds.map (fun d => utf8Encode (sddsDefAsStr d))).flatten.length := by
    have h := flatten_length_ge (ds.map (fun d => utf8Encode (sddsDefAsStr d))) ?_
    · simpa using h
    · intro l hl
      obtain ⟨d, hd, rfl⟩ := List.mem_map.1 hl
      exact utf8Encode_ne_nil (sddsDefAsStr_ne_nil d)
  cases desc with
  | none =>
    simp only [List.nil_append]
    have hnw : nextWordF ⟨utf8Encode (tstr "SDDS1\n") ++
        (utf8Encode (tstr "!# big-endian\n") ++
          ((ds.map (fun d => utf8Encode (sddsDefAsStr d))).flatten ++
            (utf8Encode (tstr "&data mode=binary, &end\n") ++ tail))), []⟩ =
        .ok (some (tstr "SDDS1", ⟨utf8Encode (tstr "!# big-endian\n") ++
          ((ds.map (fun d => utf8Encode (sddsDefAsStr d))).flatten ++
            (utf8Encode (tstr "&data mode=binary, &end\n") ++ tail)), []⟩)) :=
      nextWord_sdds1 _ _
    simp only [readHeader, hnw, exc_bind_ok]
    rw [if_pos (by trivial)]
    rw [readHeaderLoop_markerSkip]
    rw [readHeaderLoop_defsRun ds]
    · rfl
    · exact hwf
    · dsimp only
      simp only [List.length_append, List.length_nil]
      omega
  | some dd =>
    have hnw : nextWordF ⟨utf8Encode (tstr "SDDS1\n") ++
        (utf8Encode (tstr "!# big-endian\n") ++
          (utf8Encode (descAsStr dd) ++
          ((ds.map (fun d => utf8Encode (sddsDefAsStr d))).flatten ++
            (utf8Encode (tstr "&data mode=binary, &end\n") ++ tail)))), []⟩ =
        .ok (some (tstr "SDDS1", ⟨utf8Encode (tstr "!# big-endian\n") ++
          (utf8Encode (descAsStr dd) ++
          ((ds.map (fun d => utf8Encode (sddsDefAsStr d))).flatten ++
            (utf8Encode (tstr "&data mode=binary, &end\n") ++ tail))), []⟩)) :=
      nextWord_sdds1 _ _
    simp only [readHeader, hnw, exc_bind_ok]
    rw [if_pos (by trivial)]
    rw [readHeaderLoop_markerSkip]
    rw [readHeaderLoop_descLine]
    · rw [readHeaderLoop_defsRun ds]
      · rfl
      · exact hwf
      · dsimp only
        simp only [List.length_append, List.length_nil]
        have h14 : (utf8Encode (tstr "!# big-endian\n")).length = 14 := rfl
        omega
    · exact hdesc

/-! ### Binary scalar round trips -/

theorem readBinInts_one (i : Int) (hfit : intFits 4 i) (rest : List Nat) :
    readBinInts (tstr "long") 1 (tstr "big") (natToBEBytes 4 (toTwos 4 i) ++ rest) =
      .ok ([i], rest) := by
  obtain ⟨hok, hlen, hval⟩ := npIntBytes_spec 4 i (by norm_num) hfit
  have hlen2 : (natToBEBytes 4 (toTwos 4 i) ++ rest).length = 4 + rest.length := by
    rw [List.length_append, natToBEBytes_length]
  show (if 1 * 4 ≤ (natToBEBytes 4 (toTwos 4 i) ++ rest).length then
      Except.ok (((readChunks 1 4 (natToBEBytes 4 (toTwos 4 i) ++ rest)).1.map
        (fun ch => fromTwos 4 (beNat (endianBytes (tstr "big") ch)))),
        (readChunks 1 4 (natToBEBytes 4 (toTwos 4 i) ++ rest)).2)
    else Except.error "ValueError: buffer size must be a multiple of element size") =
    .ok ([i], rest)
  rw [if_pos (by rw [hlen2]; omega)]
  show Except.ok ([fromTwos 4 (beNat (endianBytes (tstr "big")
      ((natToBEBytes 4 (toTwos 4 i) ++ rest).take 4)))],
      (natToBEBytes 4 (toTwos 4 i) ++ rest).drop 4) = Except.ok ([i], rest)
  rw [List.take_left' hlen, List.drop_left' hlen,
    show endianBytes (tstr "big") (natToBEBytes 4 (toTwos 4 i)) =
      natToBEBytes 4 (toTwos 4 i) from rfl, hval]

theorem readBinInt_roundtrip (i : Int) (hfit : intFits 4 i) (rest : List Nat) :
    readBinInt (tstr "big") (natToBEBytes 4 (toTwos 4 i) ++ rest) = .ok (i, rest) := by
  simp only [readBinInt, readBinInts_one i hfit rest, exc_bind_ok]

theorem intFits_len {n : Nat} (h : n < 2 ^ 31) : intFits 4 ((n : Nat) : Int) := by
  constructor
  · have h1 : (0 : Int) ≤ ((n : Nat) : Int) := Int.ofNat_nonneg _
    have h2 : (0 : Int) ≤ ((2 ^ (8 * 4 - 1) : Nat) : Int) := Int.ofNat_nonneg _
    omega
  · have h3 : ((2 ^ (8 * 4 - 1) : Nat) : Int) = ((2 ^ 31 : Nat) : Int) := by norm_num
    rw [h3]
    exact_mod_cast h

theorem asciiStrB_chars {s : PyStr} (h : asciiStrB s = true) : ∀ ch ∈ s, ch.toNat < 128 := by
  unfold asciiStrB at h
  simp only [List.all_eq_true, decide_eq_true_eq] at h
  exact h

theorem utf8Encode_length_ascii {s : PyStr} (h : ∀ ch ∈ s, ch.toNat < 128) :
    (utf8Encode s).length = s.length := by
  rw [utf8Encode_ascii h, List.length_map]

theorem writeStringVal_ok (s : PyStr) (ha : asciiStrB s = true) (hl : s.length < 2 ^ 31) :
    writeStringVal (.str s) =
      .ok (natToBEBytes 4 (toTwos 4 ((s.length : Nat) : Int)) ++ utf8Encode s) := by
  have hfit := intFits_len hl
  simp only [writeStringVal, (npIntBytes_spec 4 ((s.length : Nat) : Int)
    (by norm_num) hfit).1, exc_bind_ok]
  rw [packBytes_exact (utf8Encode_length_ascii (asciiStrB_chars ha))]

theorem readString_ascii (s : PyStr) (ha : asciiStrB s = true) (rest : List Nat) :
    readString ((s.length : Nat) : Int) (utf8Encode s ++ rest) = .ok (s, rest) := by
  have hasc := asciiStrB_chars ha
  have hulen := utf8Encode_length_ascii hasc
  unfold readString
  rw [if_neg (by omega : ¬((s.length : Nat) : Int) < 0)]
  rw [show (((s.length : Nat) : Int)).toNat = s.length from Int.toNat_natCast _]
  rw [List.take_left' hulen]
  dsimp only
  rw [if_pos hulen]
  simp only [utf8Decode_utf8Encode_ascii hasc, List.drop_left' hulen]

theorem cell_roundtrip_str (c : DefCommon) (s : PyStr) (ht : c.type = tstr "string")
    (ha : asciiStrB s = true) (hl : s.length < 2 ^ 31) :
    writeCell c.type (.str s) =
      .ok (natToBEBytes 4 (toTwos 4 ((s.length : Nat) : Int)) ++ utf8Encode s) ∧
    ∀ rest, readBinParam c none (tstr "big")
        ((natToBEBytes 4 (toTwos 4 ((s.length : Nat) : Int)) ++ utf8Encode s) ++ rest) =
      .ok (.str s, rest) := by
  have hfit := intFits_len hl
  constructor
  · rw [ht]
    exact writeStringVal_ok s ha hl
  · intro rest
    simp only [readBinParam, ht, List.append_assoc,
      readBinInt_roundtrip ((s.length : Nat) : Int) hfit (utf8Encode s ++ rest), exc_bind_ok,
      readString_ascii s ha rest]
    rfl

theorem exc_pure_bind {α β : Type} (a : α) (f : α → Except String β) :
    ((pure a : Except String α) >>= f) = f a := rfl

theorem cell_roundtrip_int (c : DefCommon) (i : Int) (w : Nat) (hw : 0 < w)
    (hfit : intFits w i)
    (hns : c.type ≠ tstr "string")
    (hsz : NUMTYPES_SIZES c.type = some w)
    (hcast : NUMTYPES_CAST c.type = some .toInt)
    (hsc : npScalarBytes c.type (.int i) = npIntBytes w i) :
    writeCell c.type (.int i) = .ok (natToBEBytes w (toTwos w i)) ∧
    ∀ rest, readBinParam c none (tstr "big")
        (natToBEBytes w (toTwos w i) ++ rest) = .ok (.int i, rest) := by
  obtain ⟨hok, hlen, hval⟩ := npIntBytes_spec w i hw hfit
  have hnc : ¬(c.type = tstr "char" ∨ c.type = tstr "character") := by
    rintro (h | h) <;> rw [h] at hcast <;> exact absurd hcast (by decide)
  constructor
  · unfold writeCell
    rw [if_neg hns, if_neg hnc, hsc, hok]
  · intro rest
    have hbound : w ≤ (natToBEBytes w (toTwos w i) ++ rest).length := by
      rw [List.length_append, hlen]
      omega
    simp only [readBinParam, if_neg hns, hsz, hcast, exc_pure_bind, exc_bind_ok]
    rw [if_pos (show (True ∨ tstr "big" = tstr "little") from Or.inl trivial)]
    rw [if_pos hbound]
    rw [List.take_left' hlen, List.drop_left' hlen,
      show endianBytes (tstr "big") (natToBEBytes w (toTwos w i)) =
        natToBEBytes w (toTwos w i) from rfl, hval]

theorem cell_roundtrip_f32 (c : DefCommon) (b : Nat) (ht : c.type = tstr "float")
    (hb : b < 2 ^ 32) :
    writeCell c.type (.f32 b) = .ok (natToBEBytes 4 b) ∧
    ∀ rest, readBinParam c none (tstr "big") (natToBEBytes 4 b ++ rest) =
      .ok (.f32 b, rest) := by
  have hlen : (natToBEBytes 4 b).length = 4 := natToBEBytes_length 4 b
  have hbe : beNat (natToBEBytes 4 b) = b := by
    refine beNat_natToBEBytes 4 b ?_
    rw [pow_256_eq]
    exact hb
  constructor
  · rw [ht]
    show (if b < 2 ^ 32 then Except.ok (natToBEBytes 4 b)
      else Except.error "invalid float bits") = _
    rw [if_pos hb]
  · intro rest
    have hbound : 4 ≤ (natToBEBytes 4 b ++ rest).length := by
      rw [List.length_append, hlen]
      omega
    simp only [readBinParam, ht]
    show (if 4 ≤ (natToBEBytes 4 b ++ rest).length then
        Except.ok (PyVal.f32 (beNat (endianBytes (tstr "big")
          ((natToBEBytes 4 b ++ rest).take 4))), (natToBEBytes 4 b ++ rest).drop 4)
      else Except.error "ValueError: buffer size must be a multiple of element size") =
      Except.ok (.f32 b, rest)
    rw [if_pos hbound, List.take_left' hlen, List.drop_left' hlen,
      show endianBytes (tstr "big") (natToBEBytes 4 b) = natToBEBytes 4 b from rfl, hbe]

theorem cell_roundtrip_f64 (c : DefCommon) (b : Nat) (ht : c.type = tstr "double")
    (hb : b < 2 ^ 64) :
    writeCell c.type (.f64 b) = .ok (natToBEBytes 8 b) ∧
    ∀ rest, readBinParam c none (tstr "big") (natToBEBytes 8 b ++ rest) =
      .ok (.f64 b, rest) := by
  have hlen : (natToBEBytes 8 b).length = 8 := natToBEBytes_length 8 b
  have hbe : beNat (natToBEBytes 8 b) = b := by
    refine beNat_natToBEBytes 8 b ?_
    rw [pow_256_eq]
    exact hb
  constructor
  · rw [ht]
    show (if b < 2 ^ 64 then Except.ok (natToBEBytes 8 b)
      else Except.error "invalid float bits") = _
    rw [if_pos hb]
  · intro rest
    have hbound : 8 ≤ (natToBEBytes 8 b ++ rest).length := by
      rw [List.length_append, hlen]
      omega
    simp only [readBinParam, ht]
    show (if 8 ≤ (natToBEBytes 8 b ++ rest).length then
        Except.ok (PyVal.f64 (beNat (endianBytes (tstr "big")
          ((natToBEBytes 8 b ++ rest).take 8))), (natToBEBytes 8 b ++ rest).drop 8)
      else Except.error "ValueError: buffer size must be a multiple of element size") =
      Except.ok (.f64 b, rest)
    rw [if_pos hbound, List.take_left' hlen, List.drop_left' hlen,
      show endianBytes (tstr "big") (natToBEBytes 8 b) = natToBEBytes 8 b from rfl, hbe]

theorem writeCell_readBinParam (c : DefCommon) (v : PyVal)
    (hwf : wfParamValB c.type v = true) :
    ∃ bytes, writeCell c.type v = .ok bytes ∧
      ∀ rest, readBinParam c none (tstr "big") (bytes ++ rest) = .ok (v, rest) := by
  unfold wfParamValB at hwf
  by_cases hs : c.type = tstr "string"
  · rw [if_pos hs] at hwf
    cases v with
    | str s =>
      simp only [Bool.and_eq_true, decide_eq_true_eq] at hwf
      obtain ⟨h1, h2⟩ := hwf
      exact ⟨_, (cell_roundtrip_str c s hs h1 h2).1, (cell_roundtrip_str c s hs h1 h2).2⟩
    | int i => exact absurd hwf (by simp)
    | f32 b => exact absurd hwf (by simp)
    | f64 b => exact absurd hwf (by simp)
    | floatText t => exact absurd hwf (by simp)
    | vlist xs => exact absurd hwf (by simp)
  · rw [if_neg hs] at hwf
    by_cases hc1 : c.type = tstr "char"
    · rw [if_pos hc1] at hwf
      exact absurd hwf (by simp)
    · rw [if_neg hc1] at hwf
      by_cases hc2 : c.type = tstr "character"
      · rw [if_pos hc2] at hwf
        exact absurd hwf (by simp)
      · rw [if_neg hc2] at hwf
        unfold wfElemB at hwf
        by_cases hf : c.type = tstr "float"
        · rw [if_pos hf] at hwf
          cases v with
          | f32 b =>
            simp only [decide_eq_true_eq] at hwf
            exact ⟨_, (cell_roundtrip_f32 c b hf hwf).1, (cell_roundtrip_f32 c b hf hwf).2⟩
          | int i => exact absurd hwf (by simp)
          | f64 b => exact absurd hwf (by simp)
          | str s => exact absurd hwf (by simp)
          | floatText t => exact absurd hwf (by simp)
          | vlist xs => exact absurd hwf (by simp)
        · rw [if_neg hf] at hwf
          by_cases hd : c.type = tstr "double"
          · rw [if_pos hd] at hwf
            cases v with
            | f64 b =>
              simp only [decide_eq_true_eq] at hwf
              exact ⟨_, (cell_roundtrip_f64 c b hd hwf).1, (cell_roundtrip_f64 c b hd hwf).2⟩
            | int i => exact absurd hwf (by simp)
            | f32 b => exact absurd hwf (by simp)
            | str s => exact absurd hwf (by simp)
            | floatText t => exact absurd hwf (by simp)
            | vlist xs => exact absurd hwf (by simp)
          · rw [if_neg hd] at hwf
            cases hwdef : intWidthOf c.type with
            | none =>
              rw [hwdef] at hwf
              cases v <;> exact absurd hwf (by simp)
            | some w =>
              rw [hwdef] at hwf
              cases v with
              | int i =>
                simp only [decide_eq_true_eq] at hwf
                unfold intWidthOf at hwdef
                by_cases hsh : c.type = tstr "short"
                · rw [if_pos hsh] at hwdef
                  injection hwdef with hww
                  subst hww
                  refine ⟨_, (cell_roundtrip_int c i 2 (by norm_num) hwf hs ?_ ?_ ?_).1,
                    (cell_roundtrip_int c i 2 (by norm_num) hwf hs ?_ ?_ ?_).2⟩ <;>
                    rw [hsh] <;> rfl
                · rw [if_neg hsh] at hwdef
                  by_cases hlo : c.type = tstr "long"
                  · rw [if_pos hlo] at hwdef
                    injection hwdef with hww
                    subst hww
                    refine ⟨_, (cell_roundtrip_int c i 4 (by norm_num) hwf hs ?_ ?_ ?_).1,
                      (cell_roundtrip_int c i 4 (by norm_num) hwf hs ?_ ?_ ?_).2⟩ <;>
                      rw [hlo] <;> rfl
                  · rw [if_neg hlo] at hwdef
                    by_cases hll : c.type = tstr "llong"
                    · rw [if_pos hll] at hwdef
                      injection hwdef with hww
                      subst hww
                      refine ⟨_, (cell_roundtrip_int c i 8 (by norm_num) hwf hs ?_ ?_ ?_).1,
                        (cell_roundtrip_int c i 8 (by norm_num) hwf hs ?_ ?_ ?_).2⟩ <;>
                        rw [hll] <;> rfl
                    · rw [if_neg hll] at hwdef
                      rw [if_neg hc1] at hwdef
                      by_cases hbo : c.type = tstr "boolean"
                      · rw [if_pos hbo] at hwdef
                        injection hwdef with hww
                        subst hww
                        refine ⟨_, (cell_roundtrip_int c i 1 (by norm_num) hwf hs ?_ ?_ ?_).1,
                          (cell_roundtrip_int c i 1 (by norm_num) hwf hs ?_ ?_ ?_).2⟩ <;>
                          rw [hbo] <;> rfl
                      · rw [if_neg hbo] at hwdef
                        cases hwdef
              | f32 b => exact absurd hwf (by simp)
              | f64 b => exact absurd hwf (by simp)
              | str s => exact absurd hwf (by simp)
              | floatText t => exact absurd hwf (by simp)
              | vlist xs => exact absurd hwf (by simp)

/-! ### Shape, flattening and reshaping -/

theorem mapM_congr_exc {α β : Type} (f g : α → Except String β) :
    ∀ (l : List α), (∀ x ∈ l, f x = g x) → l.mapM f = l.mapM g := by
  intro l
  induction l with
  | nil => intro _; rfl
  | cons x t ih =>
    intro h
    rw [List.mapM_cons, List.mapM_cons, h x (List.mem_cons_self _ _),
      ih (fun y hy => h y (List.mem_cons_of_mem _ hy))]

theorem mapM_ok_forall2 {α β : Type} (f : α → Except String β) :
    ∀ (l : List α) (ys : List β), l.mapM f = .ok ys →
      List.Forall₂ (fun x y => f x = .ok y) l ys := by
  intro l
  induction l with
  | nil =>
    intro ys h
    rw [show ([] : List α).mapM f = Except.ok [] from rfl] at h
    injection h with h
    subst h
    exact List.Forall₂.nil
  | cons x t ih =>
    intro ys h
    rw [List.mapM_cons] at h
    cases hx : f x with
    | error e =>
      rw [hx] at h
      rw [show ((Except.error e : Except String β) >>= fun y =>
        t.mapM f >>= fun ys2 => pure (y :: ys2)) = Except.error e from rfl] at h
      exact Except.noConfusion h
    | ok y =>
      rw [hx, exc_bind_ok] at h
      cases hts : t.mapM f with
      | error e =>
        rw [hts] at h
        rw [show ((Except.error e : Except String (List β)) >>= fun ys2 =>
          pure (y :: ys2)) = Except.error e from rfl] at h
        exact Except.noConfusion h
      | ok ts =>
        rw [hts, exc_bind_ok] at h
        rw [show (pure (y :: ts) : Except String (List β)) = Except.ok (y :: ts) from rfl] at h
        injection h with h
        subst h
        exact List.Forall₂.cons hx (ih ts hts)

theorem forall2_right_mem {α β : Type} {R : α → β → Prop} :
    ∀ {l : List α} {ys : List β}, List.Forall₂ R l ys → ∀ y ∈ ys, ∃ x, R x y := by
  intro l ys h
  induction h with
  | nil => intro y hy; cases hy
  | cons hr ht ih =>
    intro y hy
    rcases List.mem_cons.1 hy with rfl | hy
    · exact ⟨_, hr⟩
    · exact ih y hy

theorem mapM_some_of_forall2 {α β : Type} (f : α → Option β) :
    ∀ {l : List α} {ys : List β}, List.Forall₂ (fun x y => f x = some y) l ys →
      l.mapM f = some ys := by
  intro l ys h
  induction h with
  | nil => rfl
  | cons hr ht ih =>
    rw [List.mapM_cons, hr, ih]
    rfl

theorem flatten_length_const {α : Type} :
    ∀ (ls : List (List α)) (k : Nat), (∀ l ∈ ls, l.length = k) →
      ls.flatten.length = ls.length * k := by
  intro ls
  induction ls with
  | nil => intro k _; simp
  | cons l t ih =>
    intro k h
    simp only [List.flatten_cons, List.length_append, List.length_cons,
      h l (List.mem_cons_self _ _), ih k (fun x hx => h x (List.mem_cons_of_mem _ hx))]
    ring

theorem chunkList_flatten :
    ∀ (parts : List (List PyVal)) (k : Nat), (∀ p ∈ parts, p.length = k) →
      chunkList parts.length k parts.flatten = parts := by
  intro parts
  induction parts with
  | nil => intro k _; rfl
  | cons p t ih =>
    intro k h
    have hp := h p (List.mem_cons_self _ _)
    simp only [List.length_cons, List.flatten_cons, chunkList]
    rw [List.take_left' hp, List.drop_left' hp,
      ih k (fun x hx => h x (List.mem_cons_of_mem _ hx))]

theorem foldl_mul_nat : ∀ (l : List Nat) (a : Nat), l.foldl (· * ·) a = a * listProd l := by
  intro l
  induction l with
  | nil => intro a; simp [listProd]
  | cons n t ih =>
    intro a
    show t.foldl (· * ·) (a * n) = a * listProd (n :: t)
    rw [ih (a * n), show listProd (n :: t) = t.foldl (· * ·) (1 * n) from rfl, ih (1 * n)]
    ring

theorem listProd_cons (n : Nat) (l : List Nat) : listProd (n :: l) = n * listProd l := by
  show l.foldl (· * ·) (1 * n) = n * listProd l
  rw [foldl_mul_nat]
  ring

theorem foldl_mul_int : ∀ (l : List Int) (a : Int), l.foldl (· * ·) a = a * listProdInt l := by
  intro l
  induction l with
  | nil => intro a; simp [listProdInt]
  | cons n t ih =>
    intro a
    show t.foldl (· * ·) (a * n) = a * listProdInt (n :: t)
    rw [ih (a * n), show listProdInt (n :: t) = t.foldl (· * ·) (1 * n) from rfl, ih (1 * n)]
    ring

theorem listProdInt_cast : ∀ (l : List Nat),
    listProdInt (l.map fun n => ((n : Nat) : Int)) = ((listProd l : Nat) : Int) := by
  intro l
  induction l with
  | nil => rfl
  | cons n t ih =>
    rw [List.map_cons,
      show listProdInt ((n : Int) :: t.map (fun n => ((n : Nat) : Int))) =
        (t.map (fun n => ((n : Nat) : Int))).foldl (· * ·) (1 * (n : Int)) from rfl,
      foldl_mul_int, ih, listProd_cons]
    push_cast
    ring

theorem flattenRectF_congr : ∀ (shape : List Nat) (f1 f2 : Nat) (v : PyVal),
    shape.length < f1 → shape.length < f2 →
    flattenRectF f1 shape v = flattenRectF f2 shape v := by
  intro shape
  induction shape with
  | nil =>
    intro f1 f2 v h1 h2
    cases f1 with
    | zero => omega
    | succ a =>
      cases f2 with
      | zero => omega
      | succ b => rfl
  | cons n rst ih =>
    intro f1 f2 v h1 h2
    cases f1 with
    | zero => omega
    | succ a =>
      cases f2 with
      | zero => omega
      | succ b =>
        cases v with
        | vlist xs =>
          simp only [flattenRectF]
          by_cases hxl : xs.length = n
          · rw [if_pos hxl, if_pos hxl,
              mapM_congr_exc (flattenRectF a rst) (flattenRectF b rst) xs
                (fun x _ => ih a b x (by simp only [List.length_cons] at h1; omega)
                  (by simp only [List.length_cons] at h2; omega))]
          · rw [if_neg hxl, if_neg hxl]
        | int i => rfl
        | f32 b2 => rfl
        | f64 b2 => rfl
        | floatText t => rfl
        | str s => rfl

theorem flattenRectF_length : ∀ (shape : List Nat) (fuel : Nat) (v : PyVal)
    (flat : List PyVal), shape.length < fuel → flattenRectF fuel shape v = .ok flat →
    flat.length = listProd shape := by
  intro shape
  induction shape with
  | nil =>
    intro fuel v flat h1 h2
    cases fuel with
    | zero => omega
    | succ a =>
      rw [show flattenRectF (a + 1) [] v = .ok [v] from rfl] at h2
      injection h2 with h2
      subst h2
      rfl
  | cons n rst ih =>
    intro fuel v flat h1 h2
    cases fuel with
    | zero => omega
    | succ a =>
      cases v with
      | vlist xs =>
        simp only [flattenRectF] at h2
        by_cases hxl : xs.length = n
        · rw [if_pos hxl] at h2
          cases hm : xs.mapM (flattenRectF a rst) with
          | error e =>
            rw [hm] at h2
            exact Except.noConfusion h2
          | ok parts =>
            rw [hm, exc_bind_ok] at h2
            injection h2 with h2
            subst h2
            have hf2 := mapM_ok_forall2 _ _ _ hm
            have hall : ∀ p ∈ parts, p.length = listProd rst := by
              intro p hp
              obtain ⟨x, hx⟩ := forall2_right_mem hf2 p hp
              exact ih a x p (by simp only [List.length_cons] at h1; omega) hx
            rw [flatten_length_const parts (listProd rst) hall,
              ← hf2.length_eq, hxl, listProd_cons]
        · rw [if_neg hxl] at h2
          exact Except.noConfusion h2
      | int i => exact Except.noConfusion h2
      | f32 b2 => exact Except.noConfusion h2
      | f64 b2 => exact Except.noConfusion h2
      | floatText t => exact Except.noConfusion h2
      | str s => exact Except.noConfusion h2

theorem flatten_map_singleton {α : Type} : ∀ (l : List α),
    (l.map (fun x => [x])).flatten = l := by
  intro l
  induction l with
  | nil => rfl
  | cons x t ih => simp only [List.map_cons, List.flatten_cons, ih, List.singleton_append]

theorem reshapeValF_flattenRectF : ∀ (shape : List Nat) (f g : Nat) (v : PyVal)
    (flat : List PyVal), shape.length < f → shape.length < g →
    flattenRectF f shape v = .ok flat →
    reshapeValF g shape flat = some v := by
  intro shape
  induction shape with
  | nil =>
    intro f g v flat h1 h2 h3
    cases f with
    | zero => omega
    | succ a =>
      cases g with
      | zero => omega
      | succ b =>
        rw [show flattenRectF (a + 1) [] v = .ok [v] from rfl] at h3
        injection h3 with h3
        subst h3
        rfl
  | cons n rst ih =>
    intro f g v flat h1 h2 h3
    cases f with
    | zero => omega
    | succ a =>
      cases g with
      | zero => omega
      | succ b =>
        cases v with
        | vlist xs =>
          simp only [flattenRectF] at h3
          by_cases hxl : xs.length = n
          · rw [if_pos hxl] at h3
            cases hm : xs.mapM (flattenRectF a rst) with
            | error e =>
              rw [hm] at h3
              exact Except.noConfusion h3
            | ok parts =>
              rw [hm, exc_bind_ok] at h3
              injection h3 with h3
              subst h3
              have hf2 := mapM_ok_forall2 _ _ _ hm
              cases rst with
              | nil =>
                have ha : 0 < a := by
                  simp only [List.length_cons, List.length_nil] at h1
                  omega
                have hparts : xs.mapM (flattenRectF a []) =
                    .ok (xs.map (fun x => [x])) := by
                  refine mapM_ok_of_forall _ _ xs (fun x _ => ?_)
                  cases a with
                  | zero => omega
                  | succ a2 => rfl
                rw [hparts] at hm
                injection hm with hm
                subst hm
                rw [flatten_map_singleton]
                show (if xs.length = n then some (PyVal.vlist xs) else none) = _
                rw [if_pos hxl]
              | cons m t =>
                have hall : ∀ p ∈ parts, p.length = listProd (m :: t) := by
                  intro p hp
                  obtain ⟨x, hx⟩ := forall2_right_mem hf2 p hp
                  exact flattenRectF_length (m :: t) a x p
                    (by simp only [List.length_cons] at h1 ⊢; omega) hx
                have hflen : parts.flatten.length = n * listProd (m :: t) := by
                  rw [flatten_length_const parts (listProd (m :: t)) hall,
                    ← hf2.length_eq, hxl]
                simp only [reshapeValF]
                rw [if_pos hflen]
                have hpn : parts.length = n := by rw [← hf2.length_eq, hxl]
                rw [← hpn, chunkList_flatten parts (listProd (m :: t)) hall]
                have hresh : parts.mapM (reshapeValF b (m :: t)) = some xs := by
                  refine mapM_some_of_forall2 _ (List.Forall₂.flip ?_)
                  refine List.Forall₂.imp ?_ hf2
                  intro x p hxp
                  exact ih a b x p (by simp only [List.length_cons] at h1 ⊢; omega)
                    (by simp only [List.length_cons] at h2 ⊢; omega) hxp
                rw [hresh]
                rfl
          · rw [if_neg hxl] at h3
            exact Except.noConfusion h3
        | int i => exact Except.noConfusion h3
        | f32 b2 => exact Except.noConfusion h3
        | f64 b2 => exact Except.noConfusion h3
        | floatText t2 => exact Except.noConfusion h3
        | str s => exact Except.noConfusion h3

/-! ### Array element and extent round trips -/

theorem npScalar_elem_int (t : PyStr) (i : Int) (w : Nat) (hwpos : 0 < w)
    (hfit : intFits w i) (hsz : NUMTYPES_SIZES t = some w)
    (hsc : npScalarBytes t (.int i) = npIntBytes w i)
    (hnf : t ≠ tstr "float") (hnd : t ≠ tstr "double") :
    ∃ w2 bytes, NUMTYPES_SIZES t = some w2 ∧ 0 < w2 ∧
      npScalarBytes t (PyVal.int i) = .ok bytes ∧ bytes.length = w2 ∧
      (if t = tstr "float" then PyVal.f32 (beNat bytes)
       else if t = tstr "double" then PyVal.f64 (beNat bytes)
       else PyVal.int (fromTwos w2 (beNat bytes))) = PyVal.int i := by
  obtain ⟨hok, hlen, hval⟩ := npIntBytes_spec w i hwpos hfit
  exact ⟨w, natToBEBytes w (toTwos w i), hsz, hwpos, by rw [hsc, hok], hlen,
    by rw [if_neg hnf, if_neg hnd, hval]⟩

theorem npScalar_elem (t : PyStr) (v : PyVal) (hwf : wfElemB t v = true) :
    ∃ w bytes, NUMTYPES_SIZES t = some w ∧ 0 < w ∧
      npScalarBytes t v = .ok bytes ∧ bytes.length = w ∧
      (if t = tstr "float" then PyVal.f32 (beNat bytes)
       else if t = tstr "double" then PyVal.f64 (beNat bytes)
       else PyVal.int (fromTwos w (beNat bytes))) = v := by
  unfold wfElemB at hwf
  by_cases hf : t = tstr "float"
  · rw [if_pos hf] at hwf
    cases v with
    | f32 b =>
      simp only [decide_eq_true_eq] at hwf
      refine ⟨4, natToBEBytes 4 b, by rw [hf]; rfl, by norm_num, ?_,
        natToBEBytes_length 4 b, ?_⟩
      · rw [hf]
        show (if b < 2 ^ 32 then Except.ok (natToBEBytes 4 b)
          else Except.error "invalid float bits") = _
        rw [if_pos hwf]
      · rw [if_pos hf, beNat_natToBEBytes 4 b (by rw [pow_256_eq]; exact hwf)]
    | int i => exact absurd hwf (by simp)
    | f64 b => exact absurd hwf (by simp)
    | str s2 => exact absurd hwf (by simp)
    | floatText t2 => exact absurd hwf (by simp)
    | vlist xs => exact absurd hwf (by simp)
  · rw [if_neg hf] at hwf
    by_cases hd : t = tstr "double"
    · rw [if_pos hd] at hwf
      cases v with
      | f64 b =>
        simp only [decide_eq_true_eq] at hwf
        refine ⟨8, natToBEBytes 8 b, by rw [hd]; rfl, by norm_num, ?_,
          natToBEBytes_length 8 b, ?_⟩
        · rw [hd]
          show (if b < 2 ^ 64 then Except.ok (natToBEBytes 8 b)
            else Except.error "invalid float bits") = _
          rw [if_pos hwf]
        · rw [if_neg hf, if_pos hd, beNat_natToBEBytes 8 b (by rw [pow_256_eq]; exact hwf)]
      | int i => exact absurd hwf (by simp)
      | f32 b => exact absurd hwf (by simp)
      | str s2 => exact absurd hwf (by simp)
      | floatText t2 => exact absurd hwf (by simp)
      | vlist xs => exact absurd hwf (by simp)
    · rw [if_neg hd] at hwf
      cases hwdef : intWidthOf t with
      | none =>
        rw [hwdef] at hwf
        cases v <;> exact absurd hwf (by simp)
      | some w =>
        rw [hwdef] at hwf
        cases v with
        | int i =>
          simp only [decide_eq_true_eq] at hwf
          unfold intWidthOf at hwdef
          by_cases hsh : t = tstr "short"
          · rw [if_pos hsh] at hwdef
            injection hwdef with hww
            subst hww
            exact npScalar_elem_int t i 2 (by norm_num) hwf (by rw [hsh]; rfl)
              (by rw [hsh]; rfl) hf hd
          · rw [if_neg hsh] at hwdef
            by_cases hlo : t = tstr "long"
            · rw [if_pos hlo] at hwdef
              injection hwdef with hww
              subst hww
              exact npScalar_elem_int t i 4 (by norm_num) hwf (by rw [hlo]; rfl)
                (by rw [hlo]; rfl) hf hd
            · rw [if_neg hlo] at hwdef
              by_cases hll : t = tstr "llong"
              · rw [if_pos hll] at hwdef
                injection hwdef with hww
                subst hww
                exact npScalar_elem_int t i 8 (by norm_num) hwf (by rw [hll]; rfl)
                  (by rw [hll]; rfl) hf hd
              · rw [if_neg hll] at hwdef
                by_cases hch : t = tstr "char"
                · rw [if_pos hch] at hwdef
                  injection hwdef with hww
                  subst hww
                  exact npScalar_elem_int t i 1 (by norm_num) hwf (by rw [hch]; rfl)
                    (by rw [hch]; rfl) hf hd
                · rw [if_neg hch] at hwdef
                  by_cases hbo : t = tstr "boolean"
                  · rw [if_pos hbo] at hwdef
                    injection hwdef with hww
                    subst hww
                    exact npScalar_elem_int t i 1 (by norm_num) hwf (by rw [hbo]; rfl)
                      (by rw [hbo]; rfl) hf hd
                  · rw [if_neg hbo] at hwdef
                    cases hwdef
        | f32 b => exact absurd hwf (by simp)
        | f64 b => exact absurd hwf (by simp)
        | str s2 => exact absurd hwf (by simp)
        | floatText t2 => exact absurd hwf (by simp)
        | vlist xs => exact absurd hwf (by simp)

theorem elems_write (t : PyStr) (w : Nat) (hsz : NUMTYPES_SIZES t = some w) :
    ∀ (flat : List PyVal), (∀ x ∈ flat, wfElemB t x = true) →
    ∃ parts, flat.mapM (npScalarBytes t) = .ok parts ∧ (∀ p ∈ parts, p.length = w) ∧
      parts.map (fun chunk => if t = tstr "float" then PyVal.f32 (beNat chunk)
        else if t = tstr "double" then PyVal.f64 (beNat chunk)
        else PyVal.int (fromTwos w (beNat chunk))) = flat := by
  intro flat
  induction flat with
  | nil => intro _; exact ⟨[], rfl, fun p hp => absurd hp (List.not_mem_nil p), rfl⟩
  | cons x fl ih =>
    intro h
    obtain ⟨w2, bytes, hsz2, hwpos, hok, hblen, hmk⟩ :=
      npScalar_elem t x (h x (List.mem_cons_self _ _))
    rw [hsz] at hsz2
    injection hsz2 with hsz2
    subst hsz2
    obtain ⟨parts, hps, hplen, hpmk⟩ := ih (fun y hy => h y (List.mem_cons_of_mem _ hy))
    refine ⟨bytes :: parts, ?_, ?_, ?_⟩
    · rw [List.mapM_cons, hok, hps]
      rfl
    · intro p hp
      rcases List.mem_cons.1 hp with rfl | hp
      · exact hblen
      · exact hplen p hp
    · rw [List.map_cons, hmk, hpmk]

theorem readBinElems_roundtrip (t : PyStr) (w : Nat) (hsz : NUMTYPES_SIZES t = some w)
    (parts : List (List Nat)) (flat : List PyVal)
    (hplen : ∀ p ∈ parts, p.length = w)
    (hmk : parts.map (fun chunk => if t = tstr "float" then PyVal.f32 (beNat chunk)
      else if t = tstr "double" then PyVal.f64 (beNat chunk)
      else PyVal.int (fromTwos w (beNat chunk))) = flat) (rest : List Nat) :
    readBinArray.readBinElems t parts.length (tstr "big") (parts.flatten ++ rest) =
      .ok (flat, rest) := by
  have hflen : parts.flatten.length = parts.length * w := flatten_length_const parts w hplen
  simp only [readBinArray.readBinElems, hsz, exc_pure_bind]
  rw [if_pos (show (True ∨ tstr "big" = tstr "little") from Or.inl trivial)]
  rw [if_pos (show parts.length * w ≤ (parts.flatten ++ rest).length by
    rw [List.length_append, hflen]; omega)]
  rw [readChunks_flatten parts w rest hplen]
  show Except.ok (parts.map (fun chunk => if t = tstr "float" then PyVal.f32 (beNat chunk)
      else if t = tstr "double" then PyVal.f64 (beNat chunk)
      else PyVal.int (fromTwos w (beNat chunk))), rest) = Except.ok (flat, rest)
  rw [hmk]

theorem readDims_roundtrip : ∀ (shape : List Nat), (∀ n ∈ shape, n < 2 ^ 31) →
    ∀ rest : List Nat,
    readBinArrayLen.readDims shape.length (tstr "big")
      ((shape.map (fun n => natToBEBytes 4 (toTwos 4 ((n : Nat) : Int)))).flatten ++ rest) =
      .ok (shape.map (fun n => ((n : Nat) : Int)), rest) := by
  intro shape
  induction shape with
  | nil => intro _ rest; rfl
  | cons n t ih =>
    intro h rest
    simp only [List.map_cons, List.flatten_cons, List.length_cons, List.append_assoc]
    simp only [readBinArrayLen.readDims,
      readBinInt_roundtrip ((n : Nat) : Int) (intFits_len (h n (List.mem_cons_self _ _)))
        ((t.map (fun n => natToBEBytes 4 (toTwos 4 ((n : Nat) : Int)))).flatten ++ rest),
      exc_bind_ok, ih (fun m hm => h m (List.mem_cons_of_mem _ hm)) rest]

theorem readBinArrayLen_roundtrip (shape : List Nat) (dims : Option Int)
    (hd : dims.getD 1 = ((shape.length : Nat) : Int)) (hb : ∀ n ∈ shape, n < 2 ^ 31)
    (rest : List Nat) :
    readBinArrayLen dims (tstr "big")
      ((shape.map (fun n => natToBEBytes 4 (toTwos 4 ((n : Nat) : Int)))).flatten ++ rest) =
      .ok (shape.map (fun n => ((n : Nat) : Int)),
        ((listProd shape : Nat) : Int), rest) := by
  simp only [readBinArrayLen, hd, Int.toNat_natCast, readDims_roundtrip shape hb rest,
    exc_bind_ok, listProdInt_cast]

theorem listProd_pos : ∀ (shape : List Nat), (∀ n ∈ shape, 0 < n) → 0 < listProd shape := by
  intro shape
  induction shape with
  | nil => intro _; norm_num [listProd]
  | cons n t ih =>
    intro h
    rw [listProd_cons]
    exact Nat.mul_pos (h n (List.mem_cons_self _ _))
      (ih (fun m hm => h m (List.mem_cons_of_mem _ hm)))

theorem writeStrings_readBinStrings :
    ∀ (xs : List PyVal),
    (∀ x ∈ xs, ∃ s, x = .str s ∧ asciiStrB s = true ∧ s.length < 2 ^ 31) →
    ∃ parts, xs.mapM writeStringVal = .ok parts ∧
      ∀ rest, readBinStrings xs.length (tstr "big") (parts.flatten ++ rest) =
        .ok (xs, rest) := by
  intro xs
  induction xs with
  | nil => exact fun _ => ⟨[], rfl, fun rest => rfl⟩
  | cons x t ih =>
    intro h
    obtain ⟨s, rfl, ha, hl⟩ := h x (List.mem_cons_self _ _)
    obtain ⟨tparts, htp, htread⟩ := ih (fun y hy => h y (List.mem_cons_of_mem _ hy))
    refine ⟨(natToBEBytes 4 (toTwos 4 ((s.length : Nat) : Int)) ++ utf8Encode s) :: tparts,
      ?_, ?_⟩
    · rw [List.mapM_cons, writeStringVal_ok s ha hl, exc_bind_ok, htp]
      rfl
    · intro rest
      simp only [List.length_cons, List.flatten_cons, List.append_assoc]
      simp only [readBinStrings,
        readBinInt_roundtrip ((s.length : Nat) : Int) (intFits_len hl)
          (utf8Encode s ++ (tparts.flatten ++ rest)), exc_bind_ok,
        readString_ascii s ha (tparts.flatten ++ rest), htread rest]

theorem arrayPair_roundtrip (c : DefCommon) (fl : Option Int) (gn : Option PyStr)
    (dims : Option Int) (v : PyVal) (hwf : wfArrayValB c.type dims v = true) :
    ∃ bytes, writeArrayPair (.arr c fl gn dims) v = .ok bytes ∧
      ∀ rest, readBinArray c dims (tstr "big") (bytes ++ rest) = .ok (v, rest) := by
  by_cases hs : c.type = tstr "string"
  · unfold wfArrayValB at hwf
    rw [if_pos hs] at hwf
    cases v with
    | vlist xs =>
      simp only [Bool.and_eq_true, decide_eq_true_eq, Bool.not_eq_true',
        List.isEmpty_eq_false, List.all_eq_true] at hwf
      obtain ⟨⟨⟨hd1, hne⟩, hxl⟩, hall⟩ := hwf
      have hstrs : ∀ x ∈ xs, ∃ s, x = .str s ∧ asciiStrB s = true ∧ s.length < 2 ^ 31 := by
        intro x hx
        have hx2 := hall x hx
        cases x with
        | str s =>
          simp only [Bool.and_eq_true, decide_eq_true_eq] at hx2
          exact ⟨s, rfl, hx2.1, hx2.2⟩
        | int i => exact absurd hx2 (by simp)
        | f32 b => exact absurd hx2 (by simp)
        | f64 b => exact absurd hx2 (by simp)
        | floatText t2 => exact absurd hx2 (by simp)
        | vlist ys => exact absurd hx2 (by simp)
      cases xs with
      | nil => exact absurd rfl hne
      | cons x0 xs' =>
        obtain ⟨s0, hx0, -, -⟩ := hstrs x0 (List.mem_cons_self _ _)
        subst hx0
        have hgd : getDimensionsFromArray (.vlist (.str s0 :: xs')) =
            .ok [xs'.length + 1] := by
          simp only [getDimensionsFromArray, exc_bind_ok]
        obtain ⟨parts, hps, hread⟩ := writeStrings_readBinStrings (.str s0 :: xs') hstrs
        have hlen1 : (PyVal.str s0 :: xs').length = xs'.length + 1 := rfl
        have hfits := intFits_len (show xs'.length + 1 < 2 ^ 31 from hlen1 ▸ hxl)
        have hok4 := (npIntBytes_spec 4 ((xs'.length + 1 : Nat) : Int) (by norm_num) hfits).1
        refine ⟨natToBEBytes 4 (toTwos 4 ((xs'.length + 1 : Nat) : Int)) ++ parts.flatten,
          ?_, ?_⟩
        · have hdm1 : [xs'.length + 1].mapM (fun n => npIntBytes 4 ((n : Nat) : Int)) =
              .ok [natToBEBytes 4 (toTwos 4 ((xs'.length + 1 : Nat) : Int))] := by
            rw [List.mapM_cons, hok4]
            rfl
          unfold writeArrayPair
          simp only [Definition.type, Definition.common]
          rw [hgd]
          rw [exc_bind_ok]
          rw [hdm1, exc_bind_ok]
          rw [if_pos hs]
          rw [show iterStrings (.vlist (.str s0 :: xs')) = .ok (.str s0 :: xs') from rfl,
            exc_bind_ok]
          rw [hps, exc_bind_ok]
          simp
        · intro rest
          simp only [readBinArray, List.append_assoc]
          have hlenr := readBinArrayLen_roundtrip [xs'.length + 1] dims
            (by simpa using hd1) (fun n hn => by
              simp only [List.mem_singleton] at hn
              subst hn
              exact hlen1 ▸ hxl) (parts.flatten ++ rest)
          simp only [List.map_cons, List.map_nil, List.flatten_cons, List.flatten_nil,
            List.append_nil, List.append_assoc] at hlenr
          rw [hlenr, exc_bind_ok]
          rw [if_pos hs]
          have hprod : listProd [xs'.length + 1] = xs'.length + 1 := by
            rw [listProd_cons]
            show (xs'.length + 1) * listProd [] = xs'.length + 1
            norm_num [listProd]
          rw [hprod, Int.toNat_natCast]
          rw [show readBinStrings (xs'.length + 1) (tstr "big") (parts.flatten ++ rest) =
            .ok (PyVal.str s0 :: xs', rest) from hread rest, exc_bind_ok]
    | int i => exact absurd hwf (by simp [wfArrayValB, hs])
    | f32 b => exact absurd hwf (by simp [wfArrayValB, hs])
    | f64 b => exact absurd hwf (by simp [wfArrayValB, hs])
    | floatText t2 => exact absurd hwf (by simp [wfArrayValB, hs])
    | str s2 => exact absurd hwf (by simp [wfArrayValB, hs])
  · unfold wfArrayValB at hwf
    rw [if_neg hs] at hwf
    cases hgd : getDimensionsFromArray v with
    | error e =>
      rw [hgd] at hwf
      exact absurd hwf (by simp)
    | ok shape =>
      rw [hgd] at hwf
      simp only [Bool.and_eq_true, decide_eq_true_eq, List.all_eq_true] at hwf
      obtain ⟨⟨hdg, hext⟩, hflat⟩ := hwf
      have hpos : ∀ n ∈ shape, 0 < n := fun n hn => by
        have := hext n hn
        simp only [Bool.and_eq_true, decide_eq_true_eq] at this
        exact this.1
      have hbnd : ∀ n ∈ shape, n < 2 ^ 31 := fun n hn => by
        have := hext n hn
        simp only [Bool.and_eq_true, decide_eq_true_eq] at this
        exact this.2
      cases hfr : flattenRect shape v with
      | error e =>
        rw [hfr] at hflat
        exact absurd hflat (by simp)
      | ok flat =>
        rw [hfr] at hflat
        simp only [List.all_eq_true] at hflat
        have hfl : flat.length = listProd shape :=
          flattenRectF_length shape (shape.length + 1) v flat (by omega) hfr
        have hfne : flat ≠ [] := by
          have hp := listProd_pos shape hpos
          intro hEq
          rw [hEq] at hfl
          simp only [List.length_nil] at hfl
          omega
        obtain ⟨x0, hx0⟩ : ∃ x0, x0 ∈ flat := by
          cases flat with
          | nil => exact absurd rfl hfne
          | cons a t => exact ⟨a, List.mem_cons_self _ _⟩
        obtain ⟨w, b0, hsz, hwpos, -, -, -⟩ := npScalar_elem c.type x0 (hflat x0 hx0)
        obtain ⟨parts, hps, hplen, hpmk⟩ := elems_write c.type w hsz flat hflat
        have hdm : shape.mapM (fun n => npIntBytes 4 ((n : Nat) : Int)) =
            .ok (shape.map (fun n => natToBEBytes 4 (toTwos 4 ((n : Nat) : Int)))) :=
          mapM_ok_of_forall _ _ shape (fun n hn =>
            (npIntBytes_spec 4 _ (by norm_num) (intFits_len (hbnd n hn))).1)
        refine ⟨(shape.map (fun n => natToBEBytes 4 (toTwos 4 ((n : Nat) : Int)))).flatten ++
          parts.flatten, ?_, ?_⟩
        · simp only [writeArrayPair, Definition.type, Definition.common, hgd, exc_bind_ok,
            hdm, hfr, hps]
          rw [if_neg hs]
        · intro rest
          simp only [readBinArray, List.append_assoc]
          rw [readBinArrayLen_roundtrip shape dims hdg hbnd (parts.flatten ++ rest),
            exc_bind_ok]
          rw [if_neg hs]
          rw [if_pos (show (shape.map (fun n => ((n : Nat) : Int))).all (0 ≤ ·) = true by
            simp only [List.all_eq_true, List.mem_map]
            rintro y ⟨n, hn, rfl⟩
            simpa using Int.ofNat_nonneg n)]
          have hcnt : (((listProd shape : Nat) : Int)).toNat = parts.length := by
            rw [Int.toNat_natCast, ← hfl, ← hpmk, List.length_map]
          rw [hcnt]
          rw [readBinElems_roundtrip c.type w hsz parts flat hplen hpmk rest, exc_bind_ok]
          have hmaps : (shape.map (fun n => ((n : Nat) : Int))).map Int.toNat = shape := by
            rw [List.map_map]
            have : (Int.toNat ∘ fun n : Nat => ((n : Nat) : Int)) = id := by
              funext n
              exact Int.toNat_natCast n
            rw [this, List.map_id]
          rw [show reshapeVal ((shape.map (fun n => ((n : Nat) : Int))).map Int.toNat) flat =
            some v from by
              rw [hmaps]
              exact reshapeValF_flattenRectF shape (shape.length + 1) (shape.length + 1)
                v flat (by omega) (by omega) hfr]

/-! ### The binary data section as a whole -/

theorem go_params_then :
    ∀ (ps : List (Definition × PyVal)),
    (∀ p ∈ ps, p.1.isParam = true ∧ wfDefValB p.1 p.2 = true) →
    ∃ pb, writeParameters ps = .ok pb ∧
      ∀ (restDefs : List Definition) (restBytes : List Nat) (res : List PyVal × List Nat),
        readDataBinary.go (tstr "big") restDefs restBytes = .ok res →
        readDataBinary.go (tstr "big") (ps.map (·.1) ++ restDefs) (pb ++ restBytes) =
          .ok (ps.map (·.2) ++ res.1, res.2) := by
  intro ps
  induction ps with
  | nil =>
    intro _
    refine ⟨[], rfl, ?_⟩
    intro restDefs restBytes res hres
    simpa using hres
  | cons p t ih =>
    intro h
    obtain ⟨hp, hwfp⟩ := h p (List.mem_cons_self _ _)
    obtain ⟨c, fv, hpc⟩ : ∃ c fv, p.1 = .param c fv := by
      cases hp1 : p.1 with
      | param c fv => exact ⟨c, fv, rfl⟩
      | arr c a b d2 => rw [hp1] at hp; exact absurd hp (by simp [Definition.isParam])
      | col c => rw [hp1] at hp; exact absurd hp (by simp [Definition.isParam])
    have hfv : fv = none := by
      rw [hpc] at hwfp
      unfold wfDefValB at hwfp
      simp only [Bool.and_eq_true] at hwfp
      cases fv with
      | none => rfl
      | some s => exact absurd hwfp.1.2 (by simp)
    subst hfv
    have hwfv : wfParamValB c.type p.2 = true := by
      rw [hpc] at hwfp
      unfold wfDefValB at hwfp
      simp only [Bool.and_eq_true] at hwfp
      exact hwfp.2
    obtain ⟨cb, hcw, hcr⟩ := writeCell_readBinParam c p.2 hwfv
    obtain ⟨tb, htw, htr⟩ := ih (fun q hq => h q (List.mem_cons_of_mem _ hq))
    refine ⟨cb ++ tb, ?_, ?_⟩
    · show (do
        let b ← writeCell p.1.type p.2
        let bs ← writeParameters t
        Except.ok (b ++ bs)) = Except.ok (cb ++ tb)
      rw [show p.1.type = c.type from by rw [hpc]; rfl, hcw, exc_bind_ok, htw, exc_bind_ok]
    · intro restDefs restBytes res hres
      rw [List.map_cons, List.map_cons, List.cons_append, List.cons_append,
        List.append_assoc]
      rw [hpc]
      simp only [readDataBinary.go]
      rw [hcr (tb ++ restBytes)]
      rw [exc_bind_ok]
      dsimp only
      rw [htr restDefs restBytes res hres]
      rw [exc_bind_ok]

theorem go_arrays_then :
    ∀ (ps : List (Definition × PyVal)),
    (∀ p ∈ ps, p.1.isArr = true ∧ wfDefValB p.1 p.2 = true) →
    ∃ ab, writeArrays ps = .ok ab ∧
      ∀ (restDefs : List Definition) (restBytes : List Nat) (res : List PyVal × List Nat),
        readDataBinary.go (tstr "big") restDefs restBytes = .ok res →
        readDataBinary.go (tstr "big") (ps.map (·.1) ++ restDefs) (ab ++ restBytes) =
          .ok (ps.map (·.2) ++ res.1, res.2) := by
  intro ps
  induction ps with
  | nil =>
    intro _
    refine ⟨[], rfl, ?_⟩
    intro restDefs restBytes res hres
    simpa using hres
  | cons p t ih =>
    intro h
    obtain ⟨hp, hwfp⟩ := h p (List.mem_cons_self _ _)
    obtain ⟨c, fl, gn, dims, hpc⟩ : ∃ c fl gn dims, p.1 = .arr c fl gn dims := by
      cases hp1 : p.1 with
      | arr c fl gn dims => exact ⟨c, fl, gn, dims, rfl⟩
      | param c fv => rw [hp1] at hp; exact absurd hp (by simp [Definition.isArr])
      | col c => rw [hp1] at hp; exact absurd hp (by simp [Definition.isArr])
    have hwfv : wfArrayValB c.type dims p.2 = true := by
      rw [hpc] at hwfp
      unfold wfDefValB at hwfp
      simp only [Bool.and_eq_true] at hwfp
      exact hwfp.2
    obtain ⟨cb, hcw, hcr⟩ := arrayPair_roundtrip c fl gn dims p.2 hwfv
    obtain ⟨tb, htw, htr⟩ := ih (fun q hq => h q (List.mem_cons_of_mem _ hq))
    refine ⟨cb ++ tb, ?_, ?_⟩
    · show (do
        let b ← writeArrayPair p.1 p.2
        let bs ← writeArrays t
        Except.ok (b ++ bs)) = Except.ok (cb ++ tb)
      rw [hpc, hcw, exc_bind_ok, htw, exc_bind_ok]
    · intro restDefs restBytes res hres
      rw [List.map_cons, List.map_cons, List.cons_append, List.cons_append,
        List.append_assoc]
      rw [hpc]
      simp only [readDataBinary.go]
      rw [hcr (tb ++ restBytes)]
      rw [exc_bind_ok]
      dsimp only
      rw [htr restDefs restBytes res hres]
      rw [exc_bind_ok]

/-! ### Document lookups and endianness detection -/

theorem lookup_pairs_map {α : Type} (g : Definition × PyVal → α) :
    ∀ (l : List (Definition × PyVal)), ((l.map (fun q => q.1.name)).Nodup) →
    ∀ p ∈ l, assocLookup p.1.name (l.map (fun q => (q.1.name, g q))) = some (g p) := by
  intro l
  induction l with
  | nil => intro _ p hp; cases hp
  | cons q t ih =>
    intro hnd p hp
    simp only [List.map_cons, List.nodup_cons] at hnd
    rcases List.mem_cons.1 hp with rfl | hp
    · rw [List.map_cons, assocLookup_cons, if_pos rfl]
    · have hne : q.1.name ≠ p.1.name := by
        intro hEq
        exact hnd.1 (hEq ▸ List.mem_map_of_mem (fun r => r.1.name) hp)
      rw [List.map_cons, assocLookup_cons, if_neg hne]
      exact ih hnd.2 p hp

theorem exists_zip_of_mem : ∀ (defs : List Definition) (vals : List PyVal),
    defs.length = vals.length → ∀ d ∈ defs, ∃ v, (d, v) ∈ defs.zip vals := by
  intro defs
  induction defs with
  | nil => intro vals _ d hd; cases hd
  | cons a t ih =>
    intro vals hlen d hd
    cases vals with
    | nil => simp at hlen
    | cons v vt =>
      rcases List.mem_cons.1 hd with rfl | hd
      · exact ⟨v, by rw [List.zip_cons_cons]; exact List.mem_cons_self _ _⟩
      · obtain ⟨w, hw⟩ := ih vt (by simpa using hlen) d hd
        exact ⟨w, by rw [List.zip_cons_cons]; exact List.mem_cons_of_mem _ hw⟩

theorem zip_map_name_eq (defs : List Definition) (vals : List PyVal)
    (hlen : defs.length = vals.length) :
    (defs.zip vals).map (fun p => p.1.name) = defs.map Definition.name := by
  have h1 : (defs.zip vals).map (fun p => p.1.name) =
      ((defs.zip vals).map Prod.fst).map Definition.name := by
    rw [List.map_map]
    rfl
  rw [h1, map_fst_zip_eq_take, ← hlen, List.take_length]

theorem wf_not_col {d : Definition} {v : PyVal} (h : wfDefValB d v = true) :
    d.isCol = false := by
  cases d with
  | param c fv => rfl
  | arr c fl gn dims => rfl
  | col c => exact absurd h (by simp [wfDefValB])

theorem wf_param_or_arr {d : Definition} {v : PyVal} (h : wfDefValB d v = true) :
    d.isParam = true ∨ d.isArr = true := by
  cases d with
  | param c fv => exact Or.inl rfl
  | arr c fl gn dims => exact Or.inr rfl
  | col c => exact absurd h (by simp [wfDefValB])

theorem doc_pair_facts (defs : List Definition) (vals : List PyVal) (f : SddsFile)
    (hdef : f.definitions = defs.map (fun d => (d.name, d)))
    (hval : f.values = (defs.zip vals).map (fun p => (p.1.name, p.2)))
    (hlen : defs.length = vals.length)
    (hnd : (defs.map Definition.name).Nodup) :
    ∀ p ∈ defs.zip vals, assocLookup p.1.name f.definitions = some p.1 ∧
      sddsGetItem f p.1.name = .ok p := by
  intro p hp
  have hmem : p.1 ∈ defs := by
    have hp2 : (p.1, p.2) ∈ defs.zip vals := hp
    exact (List.of_mem_zip hp2).1
  have hzn : ((defs.zip vals).map (fun q => q.1.name)).Nodup := by
    rw [zip_map_name_eq defs vals hlen]
    exact hnd
  have h1 : assocLookup p.1.name f.definitions = some p.1 := by
    rw [hdef]
    exact lookup_map_name defs p.1 hnd hmem
  have h2 : assocLookup p.1.name f.values = some p.2 := by
    rw [hval]
    exact lookup_pairs_map (fun q => q.2) (defs.zip vals) hzn p hp
  refine ⟨h1, ?_⟩
  unfold sddsGetItem
  rw [h1, h2]

theorem pairsFor_run (f : SddsFile) (pred : Definition → Bool) :
    ∀ (l : List (Definition × PyVal)),
    (∀ p ∈ l, assocLookup p.1.name f.definitions = some p.1 ∧
      sddsGetItem f p.1.name = .ok p) →
    pairsFor f (l.map (fun p => p.1.name)) pred none =
      .ok (l.filter (fun p => pred p.1)) := by
  intro l
  induction l with
  | nil => intro _; rfl
  | cons p t ih =>
    intro h
    obtain ⟨hl, hg⟩ := h p (List.mem_cons_self _ _)
    rw [List.map_cons]
    simp only [pairsFor, hl]
    by_cases hp : pred p.1 = true
    · rw [if_pos hp]
      rw [hg]
      rw [exc_bind_ok]
      rw [ih (fun q hq => h q (List.mem_cons_of_mem _ hq))]
      rw [exc_bind_ok, List.filter_cons]
      rw [if_pos hp]
      rfl
    · rw [if_neg hp]
      rw [ih (fun q hq => h q (List.mem_cons_of_mem _ hq)), List.filter_cons]
      rw [if_neg hp]

theorem getEndiannessLoop_sdds1 (fuel : Nat) (m : PyStr) (R : List Nat) :
    getEndiannessLoop (fuel + 1) m (utf8Encode (tstr "SDDS1\n") ++ R) =
      getEndiannessLoop fuel m R := rfl

theorem getEndiannessLoop_marker (fuel : Nat) (m : PyStr) (R : List Nat) :
    getEndiannessLoop (fuel + 1) m (utf8Encode (tstr "!# big-endian\n") ++ R) =
      .ok (tstr "big") := rfl

theorem getEndianness_write (machine : PyStr) (R : List Nat) :
    getEndianness machine (utf8Encode (tstr "SDDS1\n") ++
      (utf8Encode (tstr "!# big-endian\n") ++ R)) = .ok (tstr "big", 0) := by
  unfold getEndianness
  rw [getEndiannessLoop_sdds1]
  rw [show (utf8Encode (tstr "SDDS1\n") ++ (utf8Encode (tstr "!# big-endian\n") ++ R)).length
    = (19 + R.length) + 1 from by
      rw [List.length_append, List.length_append,
        show (utf8Encode (tstr "SDDS1\n")).length = 6 from rfl,
        show (utf8Encode (tstr "!# big-endian\n")).length = 14 from rfl]
      omega]
  rw [getEndiannessLoop_marker]
  rfl

/-! ### Sorted definition/value pairs -/

theorem map_fst_filter_comm (q : Definition → Bool) :
    ∀ (l : List (Definition × PyVal)),
    (l.filter (fun p => q p.1)).map Prod.fst = (l.map Prod.fst).filter q := by
  intro l
  induction l with
  | nil => rfl
  | cons p t ih =>
    by_cases hq : q p.1 = true
    · rw [List.filter_cons, if_pos hq, List.map_cons, List.map_cons, List.filter_cons,
        if_pos hq, ih]
    · rw [List.filter_cons, if_neg hq, List.map_cons, List.filter_cons, if_neg hq, ih]

theorem sortedPairs_perm (l : List (Definition × PyVal))
    (h : ∀ p ∈ l, wfDefValB p.1 p.2 = true) :
    (l.filter (fun p => p.1.isParam) ++ l.filter (fun p => p.1.isArr)).Perm l := by
  have hcongr : l.filter (fun p => p.1.isArr) =
      l.filter (fun p => !p.1.isParam) := by
    apply List.filter_congr
    intro p hp
    rcases wf_param_or_arr (h p hp) with hP | hA
    · rw [param_not_arr hP, hP]
      rfl
    · rw [hA, arr_not_param hA]
      rfl
  rw [hcongr]
  exact List.filter_append_perm _ l

theorem sortDefs_eq (defs : List Definition) (vals : List PyVal)
    (hlen : defs.length = vals.length)
    (hwf : ∀ p ∈ defs.zip vals, wfDefValB p.1 p.2 = true) :
    sortDefinitions defs =
      ((defs.zip vals).filter (fun p => p.1.isParam)).map Prod.fst ++
        ((defs.zip vals).filter (fun p => p.1.isArr)).map Prod.fst := by
  have hfst : (defs.zip vals).map Prod.fst = defs := by
    rw [map_fst_zip_eq_take, ← hlen, List.take_length]
  have hcol : defs.filter Definition.isCol = [] := by
    rw [List.filter_eq_nil]
    intro d hd
    obtain ⟨v, hv⟩ := exists_zip_of_mem defs vals hlen d hd
    rw [wf_not_col (hwf (d, v) hv)]
    simp
  unfold sortDefinitions
  rw [hcol, List.append_nil, map_fst_filter_comm, map_fst_filter_comm, hfst]

theorem sddsFileInit_ok (ver : PyStr) (dsc : Option SddsDescription)
    (ds : List Definition) (vs : List PyVal)
    (hnd : (ds.map Definition.name).Nodup) :
    sddsFileInit ver dsc ds vs =
      .ok ⟨ver, dsc, dictOfPairs (ds.map fun d => (d.name, d)),
        dictOfPairs ((ds.zip vs).map fun p => (p.1.name, p.2)), none, 1⟩ := by
  unfold sddsFileInit
  rw [if_neg]
  intro hne
  rw [List.dedup_eq_self.2 hnd] at hne
  exact hne rfl

theorem zip_map_fst_snd_pairs (l : List (Definition × PyVal)) :
    (l.map Prod.fst).zip (l.map Prod.snd) = l := by
  rw [List.zip_map']
  simp

/-! ### C1: assembly of the amended binary round trip -/

theorem writeHeaderBytes_binary (desc : Option SddsDescription)
    (dl : List (PyStr × Definition)) (vl : List (PyStr × PyVal)) :
    writeHeaderBytes ⟨tstr "SDDS1", desc, dl, vl, some (tstr "binary"), 1⟩ =
      utf8Encode (tstr "SDDS1\n") ++
        (utf8Encode (tstr "!# big-endian\n") ++
          (descBytes desc ++
            ((dl.map (fun p => utf8Encode (sddsDefAsStr p.2))).flatten ++
              utf8Encode (tstr "&data mode=binary, &end\n")))) := by
  cases desc with
  | none =>
    calc writeHeaderBytes ⟨tstr "SDDS1", none, dl, vl, some (tstr "binary"), 1⟩
        = utf8Encode (tstr "SDDS1\n") ++ utf8Encode (tstr "!# big-endian\n") ++
            ([] : List Nat) ++ (dl.map (fun p => utf8Encode (sddsDefAsStr p.2))).flatten ++
            utf8Encode (tstr "&data mode=binary, &end\n") := rfl
      _ = _ := by
          simp only [descBytes, List.append_assoc, List.nil_append]
  | some dd =>
    calc writeHeaderBytes ⟨tstr "SDDS1", some dd, dl, vl, some (tstr "binary"), 1⟩
        = utf8Encode (tstr "SDDS1\n") ++ utf8Encode (tstr "!# big-endian\n") ++
            utf8Encode (descAsStr dd) ++
            (dl.map (fun p => utf8Encode (sddsDefAsStr p.2))).flatten ++
            utf8Encode (tstr "&data mode=binary, &end\n") := rfl
      _ = _ := by
          simp only [descBytes, List.append_assoc]

theorem readHeader_write_db (ds : List Definition) (desc : Option SddsDescription)
    (tail : List Nat)
    (hwf : ∀ d ∈ ds, ∃ v, wfDefValB d v = true)
    (hdesc : wfDescB desc = true) :
    readHeader (utf8Encode (tstr "SDDS1\n") ++
        (utf8Encode (tstr "!# big-endian\n") ++
          (descBytes desc ++
            ((ds.map (fun d => utf8Encode (sddsDefAsStr d))).flatten ++
              (utf8Encode (tstr "&data mode=binary, &end\n") ++ tail))))) =
      .ok (tstr "SDDS1", sortDefinitions ds, descRead desc, ⟨tstr "binary"⟩, tail) := by
  cases desc with
  | none => exact readHeader_write ds none tail hwf hdesc
  | some dd => exact readHeader_write ds (some dd) tail hwf hdesc

theorem readSdds_none_eq (machine : PyStr) (bs : List Nat)
    (version : PyStr) (ds : List Definition) (dsc : Option SddsDescription)
    (data : SddsData) (rest : List Nat) (vs : List PyVal)
    (hend : getEndianness machine bs = .ok (tstr "big", 0))
    (hrh : readHeader bs = .ok (version, ds, dsc, data, rest))
    (hrd : readData data ds rest (tstr "big") = .ok vs) :
    readSdds machine none bs = sddsFileInit version dsc ds vs := by
  unfold readSdds
  rw [hend]
  dsimp only [exc_bind_ok, exc_pure_bind]
  rw [hrh]
  dsimp only [exc_bind_ok]
  rw [hrd]
  dsimp only [exc_bind_ok]

set_option maxHeartbeats 1000000 in
/-- **C1** (amended).  For a canonical single-page document whose
definitions are only `Parameter`s without `fixed_value` and `Array`s (no
`Column`s), with pairwise distinct names, header-safe texts and
codec-exact values (`wfDefValB`) and a header-safe description
(`wfDescB`), writing in binary mode produces bytes that read back to a
document returning the original (definition, value) pair for every
name.  (The unamended claim is refuted by
`C1_binary_roundtrip_counterexample`.) -/
theorem C1_binary_roundtrip_amended (machine : PyStr) (defs : List Definition)
    (vals : List PyVal) (desc : Option SddsDescription)
    (hlen : defs.length = vals.length)
    (hnd : (defs.map Definition.name).Nodup)
    (hwf : ∀ p ∈ defs.zip vals, wfDefValB p.1 p.2 = true)
    (hdesc : wfDescB desc = true) :
    ∃ bs f,
      (writeSdds ⟨tstr "SDDS1", desc, defs.map (fun d => (d.name, d)), (defs.zip vals).map (fun p => (p.1.name, p.2)), none, 1⟩ (some (tstr "binary"))).2 = .ok bs ∧
      readSdds machine none bs = .ok f ∧
      ∀ p ∈ defs.zip vals, sddsGetItem f p.1.name = .ok p := by
  have hfacts : ∀ p ∈ defs.zip vals,
      assocLookup p.1.name ((⟨tstr "SDDS1", desc, defs.map (fun d => (d.name, d)), (defs.zip vals).map (fun p => (p.1.name, p.2)), some (tstr "binary"), 1⟩ : SddsFile)).definitions = some p.1 ∧
      sddsGetItem (⟨tstr "SDDS1", desc, defs.map (fun d => (d.name, d)), (defs.zip vals).map (fun p => (p.1.name, p.2)), some (tstr "binary"), 1⟩ : SddsFile) p.1.name = .ok p :=
    doc_pair_facts defs vals (⟨tstr "SDDS1", desc, defs.map (fun d => (d.name, d)), (defs.zip vals).map (fun p => (p.1.name, p.2)), some (tstr "binary"), 1⟩ : SddsFile) rfl rfl hlen hnd
  have hpp : pairsFor (⟨tstr "SDDS1", desc, defs.map (fun d => (d.name, d)), (defs.zip vals).map (fun p => (p.1.name, p.2)), some (tstr "binary"), 1⟩ : SddsFile) ((defs.zip vals).map (fun p => p.1.name)) Definition.isParam none = .ok ((defs.zip vals).filter (fun p => p.1.isParam)) :=
    pairsFor_run (⟨tstr "SDDS1", desc, defs.map (fun d => (d.name, d)), (defs.zip vals).map (fun p => (p.1.name, p.2)), some (tstr "binary"), 1⟩ : SddsFile) Definition.isParam (defs.zip vals) hfacts
  have hpa : pairsFor (⟨tstr "SDDS1", desc, defs.map (fun d => (d.name, d)), (defs.zip vals).map (fun p => (p.1.name, p.2)), some (tstr "binary"), 1⟩ : SddsFile) ((defs.zip vals).map (fun p => p.1.name)) Definition.isArr none = .ok ((defs.zip vals).filter (fun p => p.1.isArr)) :=
    pairsFor_run (⟨tstr "SDDS1", desc, defs.map (fun d => (d.name, d)), (defs.zip vals).map (fun p => (p.1.name, p.2)), some (tstr "binary"), 1⟩ : SddsFile) Definition.isArr (defs.zip vals) hfacts
  have hpc : pairsFor (⟨tstr "SDDS1", desc, defs.map (fun d => (d.name, d)), (defs.zip vals).map (fun p => (p.1.name, p.2)), some (tstr "binary"), 1⟩ : SddsFile) ((defs.zip vals).map (fun p => p.1.name)) Definition.isCol none = .ok ((defs.zip vals).filter (fun p => p.1.isCol)) :=
    pairsFor_run (⟨tstr "SDDS1", desc, defs.map (fun d => (d.name, d)), (defs.zip vals).map (fun p => (p.1.name, p.2)), some (tstr "binary"), 1⟩ : SddsFile) Definition.isCol (defs.zip vals) hfacts
  have hcolnil : ((defs.zip vals).filter (fun p => p.1.isCol)) = [] := by
    rw [List.filter_eq_nil]
    intro p hp
    rw [wf_not_col (hwf p hp)]
    simp
  have hmemp : ∀ p ∈ ((defs.zip vals).filter (fun p => p.1.isParam)), p.1.isParam = true ∧ wfDefValB p.1 p.2 = true := by
    intro p hp
    have h := List.mem_filter.1 hp
    exact ⟨h.2, hwf p h.1⟩
  have hmema : ∀ p ∈ ((defs.zip vals).filter (fun p => p.1.isArr)), p.1.isArr = true ∧ wfDefValB p.1 p.2 = true := by
    intro p hp
    have h := List.mem_filter.1 hp
    exact ⟨h.2, hwf p h.1⟩
  obtain ⟨pb, hpw, hpread⟩ := go_params_then ((defs.zip vals).filter (fun p => p.1.isParam)) hmemp
  obtain ⟨ab, haw, haread⟩ := go_arrays_then ((defs.zip vals).filter (fun p => p.1.isArr)) hmema
  have hfit0 : intFits 4 (0 : Int) := intFits_len (by norm_num)
  have hnz0 : npIntBytes 4 (0 : Int) = .ok (natToBEBytes 4 (toTwos 4 0)) :=
    (npIntBytes_spec 4 0 (by norm_num) hfit0).1
  have hrc : getRowCount (⟨tstr "SDDS1", desc, defs.map (fun d => (d.name, d)), (defs.zip vals).map (fun p => (p.1.name, p.2)), some (tstr "binary"), 1⟩ : SddsFile) ((defs.zip vals).map (fun p => p.1.name)) = .ok 0 := by
    calc getRowCount (⟨tstr "SDDS1", desc, defs.map (fun d => (d.name, d)), (defs.zip vals).map (fun p => (p.1.name, p.2)), some (tstr "binary"), 1⟩ : SddsFile) ((defs.zip vals).map (fun p => p.1.name))
        = (pairsFor (⟨tstr "SDDS1", desc, defs.map (fun d => (d.name, d)), (defs.zip vals).map (fun p => (p.1.name, p.2)), some (tstr "binary"), 1⟩ : SddsFile) ((defs.zip vals).map (fun p => p.1.name)) Definition.isCol none >>= fun colData =>
            match colData with
            | [] => Except.ok (0 : Int)
            | (_, v) :: _ => pyLen v >>= fun n => Except.ok (n : Int)) := rfl
      _ = (Except.ok ([] : List (Definition × PyVal)) >>= fun colData =>
            match colData with
            | [] => Except.ok (0 : Int)
            | (_, v) :: _ => pyLen v >>= fun n => Except.ok (n : Int)) := by
          rw [hpc, hcolnil]
      _ = .ok 0 := rfl
  have hwbp : writeBinaryPage (⟨tstr "SDDS1", desc, defs.map (fun d => (d.name, d)), (defs.zip vals).map (fun p => (p.1.name, p.2)), some (tstr "binary"), 1⟩ : SddsFile) ((defs.zip vals).map (fun p => p.1.name)) 0 none = .ok (natToBEBytes 4 (toTwos 4 0) ++ pb ++ ab) := by
    calc writeBinaryPage (⟨tstr "SDDS1", desc, defs.map (fun d => (d.name, d)), (defs.zip vals).map (fun p => (p.1.name, p.2)), some (tstr "binary"), 1⟩ : SddsFile) ((defs.zip vals).map (fun p => p.1.name)) 0 none
        = (npIntBytes 4 0 >>= fun rc =>
           pairsFor (⟨tstr "SDDS1", desc, defs.map (fun d => (d.name, d)), (defs.zip vals).map (fun p => (p.1.name, p.2)), some (tstr "binary"), 1⟩ : SddsFile) ((defs.zip vals).map (fun p => p.1.name)) Definition.isParam none >>= fun params =>
           writeParameters params >>= fun pb2 =>
           pairsFor (⟨tstr "SDDS1", desc, defs.map (fun d => (d.name, d)), (defs.zip vals).map (fun p => (p.1.name, p.2)), some (tstr "binary"), 1⟩ : SddsFile) ((defs.zip vals).map (fun p => p.1.name)) Definition.isArr none >>= fun arrays =>
           writeArrays arrays >>= fun ab2 =>
           pairsFor (⟨tstr "SDDS1", desc, defs.map (fun d => (d.name, d)), (defs.zip vals).map (fun p => (p.1.name, p.2)), some (tstr "binary"), 1⟩ : SddsFile) ((defs.zip vals).map (fun p => p.1.name)) Definition.isCol none >>= fun cols =>
           Except.ok (rc ++ pb2 ++ ab2 ++ writeColumns cols)) := rfl
      _ = .ok (natToBEBytes 4 (toTwos 4 0) ++ pb ++ ab ++ writeColumns []) := by
          rw [hnz0]
          dsimp only [exc_bind_ok]
          rw [hpp]
          dsimp only [exc_bind_ok]
          rw [hpw]
          dsimp only [exc_bind_ok]
          rw [hpa]
          dsimp only [exc_bind_ok]
          rw [haw]
          dsimp only [exc_bind_ok]
          rw [hpc, hcolnil]
          dsimp only [exc_bind_ok]
      _ = .ok (natToBEBytes 4 (toTwos 4 0) ++ pb ++ ab) := by
          rw [show writeColumns [] = ([] : List Nat) from rfl, List.append_nil]
  have hwd : writeData (⟨tstr "SDDS1", desc, defs.map (fun d => (d.name, d)), (defs.zip vals).map (fun p => (p.1.name, p.2)), some (tstr "binary"), 1⟩ : SddsFile) ((defs.zip vals).map (fun p => p.1.name)) = .ok (natToBEBytes 4 (toTwos 4 0) ++ pb ++ ab) := by
    calc writeData (⟨tstr "SDDS1", desc, defs.map (fun d => (d.name, d)), (defs.zip vals).map (fun p => (p.1.name, p.2)), some (tstr "binary"), 1⟩ : SddsFile) ((defs.zip vals).map (fun p => p.1.name))
        = (getRowCount (⟨tstr "SDDS1", desc, defs.map (fun d => (d.name, d)), (defs.zip vals).map (fun p => (p.1.name, p.2)), some (tstr "binary"), 1⟩ : SddsFile) ((defs.zip vals).map (fun p => p.1.name)) >>= fun nrow =>
            if ((⟨tstr "SDDS1", desc, defs.map (fun d => (d.name, d)), (defs.zip vals).map (fun p => (p.1.name, p.2)), some (tstr "binary"), 1⟩ : SddsFile)).npages > 1 then
              (List.range ((⟨tstr "SDDS1", desc, defs.map (fun d => (d.name, d)), (defs.zip vals).map (fun p => (p.1.name, p.2)), some (tstr "binary"), 1⟩ : SddsFile)).npages).mapM
                  (fun p => writeBinaryPage (⟨tstr "SDDS1", desc, defs.map (fun d => (d.name, d)), (defs.zip vals).map (fun p => (p.1.name, p.2)), some (tstr "binary"), 1⟩ : SddsFile) ((defs.zip vals).map (fun p => p.1.name)) nrow (some p)) >>= fun pages =>
                Except.ok pages.flatten
            else writeBinaryPage (⟨tstr "SDDS1", desc, defs.map (fun d => (d.name, d)), (defs.zip vals).map (fun p => (p.1.name, p.2)), some (tstr "binary"), 1⟩ : SddsFile) ((defs.zip vals).map (fun p => p.1.name)) nrow none) := rfl
      _ = .ok (natToBEBytes 4 (toTwos 4 0) ++ pb ++ ab) := by
          rw [hrc]
          dsimp only [exc_bind_ok]
          exact hwbp
  have hnames : (defs.map (fun d => (d.name, d))).map (fun p => p.1) = ((defs.zip vals).map (fun p => p.1.name)) := by
    rw [List.map_map]
    rw [zip_map_name_eq defs vals hlen]
    rfl
  have hhb : writeHeaderBytes (⟨tstr "SDDS1", desc, defs.map (fun d => (d.name, d)), (defs.zip vals).map (fun p => (p.1.name, p.2)), some (tstr "binary"), 1⟩ : SddsFile) = (utf8Encode (tstr "SDDS1\n") ++ (utf8Encode (tstr "!# big-endian\n") ++ ((descBytes desc) ++ (((defs.map (fun d => utf8Encode (sddsDefAsStr d))).flatten) ++ utf8Encode (tstr "&data mode=binary, &end\n"))))) := by
    rw [writeHeaderBytes_binary desc (defs.map (fun d => (d.name, d)))
      ((defs.zip vals).map (fun p => (p.1.name, p.2)))]
    rw [List.map_map,
      show ((fun p : PyStr × Definition => utf8Encode (sddsDefAsStr p.2)) ∘
          (fun d : Definition => (d.name, d)))
        = (fun d : Definition => utf8Encode (sddsDefAsStr d)) from rfl]
  have hwrite : (writeSdds ⟨tstr "SDDS1", desc, defs.map (fun d => (d.name, d)), (defs.zip vals).map (fun p => (p.1.name, p.2)), none, 1⟩ (some (tstr "binary"))).2 = .ok (utf8Encode (tstr "SDDS1\n") ++ (utf8Encode (tstr "!# big-endian\n") ++ ((descBytes desc) ++ (((defs.map (fun d => utf8Encode (sddsDefAsStr d))).flatten) ++ (utf8Encode (tstr "&data mode=binary, &end\n") ++ (natToBEBytes 4 (toTwos 4 0) ++ (pb ++ ab))))))) := by
    calc (writeSdds ⟨tstr "SDDS1", desc, defs.map (fun d => (d.name, d)), (defs.zip vals).map (fun p => (p.1.name, p.2)), none, 1⟩ (some (tstr "binary"))).2
        = (writeData (⟨tstr "SDDS1", desc, defs.map (fun d => (d.name, d)), (defs.zip vals).map (fun p => (p.1.name, p.2)), some (tstr "binary"), 1⟩ : SddsFile) ((defs.map (fun d => (d.name, d))).map (fun p => p.1))).map
            (fun b => writeHeaderBytes (⟨tstr "SDDS1", desc, defs.map (fun d => (d.name, d)), (defs.zip vals).map (fun p => (p.1.name, p.2)), some (tstr "binary"), 1⟩ : SddsFile) ++ b) := rfl
      _ = (Except.ok (natToBEBytes 4 (toTwos 4 0) ++ pb ++ ab)).map (fun b => writeHeaderBytes (⟨tstr "SDDS1", desc, defs.map (fun d => (d.name, d)), (defs.zip vals).map (fun p => (p.1.name, p.2)), some (tstr "binary"), 1⟩ : SddsFile) ++ b) := by
          rw [hnames, hwd]
      _ = .ok (utf8Encode (tstr "SDDS1\n") ++ (utf8Encode (tstr "!# big-endian\n") ++ ((descBytes desc) ++ (((defs.map (fun d => utf8Encode (sddsDefAsStr d))).flatten) ++ (utf8Encode (tstr "&data mode=binary, &end\n") ++ (natToBEBytes 4 (toTwos 4 0) ++ (pb ++ ab))))))) := by
          rw [show (Except.ok (natToBEBytes 4 (toTwos 4 0) ++ pb ++ ab)).map
              (fun b => writeHeaderBytes (⟨tstr "SDDS1", desc, defs.map (fun d => (d.name, d)), (defs.zip vals).map (fun p => (p.1.name, p.2)), some (tstr "binary"), 1⟩ : SddsFile) ++ b)
            = Except.ok (writeHeaderBytes (⟨tstr "SDDS1", desc, defs.map (fun d => (d.name, d)), (defs.zip vals).map (fun p => (p.1.name, p.2)), some (tstr "binary"), 1⟩ : SddsFile) ++ (natToBEBytes 4 (toTwos 4 0) ++ pb ++ ab)) from rfl]
          rw [hhb]
          simp only [List.append_assoc]
  have hwf2 : ∀ d ∈ defs, ∃ v, wfDefValB d v = true := fun d hd =>
    (exists_zip_of_mem defs vals hlen d hd).imp fun v hv => hwf (d, v) hv
  have hend : getEndianness machine (utf8Encode (tstr "SDDS1\n") ++ (utf8Encode (tstr "!# big-endian\n") ++ ((descBytes desc) ++ (((defs.map (fun d => utf8Encode (sddsDefAsStr d))).flatten) ++ (utf8Encode (tstr "&data mode=binary, &end\n") ++ (natToBEBytes 4 (toTwos 4 0) ++ (pb ++ ab))))))) = .ok (tstr "big", 0) :=
    getEndianness_write machine
      ((descBytes desc) ++ (((defs.map (fun d => utf8Encode (sddsDefAsStr d))).flatten) ++ (utf8Encode (tstr "&data mode=binary, &end\n") ++ (natToBEBytes 4 (toTwos 4 0) ++ (pb ++ ab)))))
  have hrh : readHeader (utf8Encode (tstr "SDDS1\n") ++ (utf8Encode (tstr "!# big-endian\n") ++ ((descBytes desc) ++ (((defs.map (fun d => utf8Encode (sddsDefAsStr d))).flatten) ++ (utf8Encode (tstr "&data mode=binary, &end\n") ++ (natToBEBytes 4 (toTwos 4 0) ++ (pb ++ ab)))))))
      = .ok (tstr "SDDS1", sortDefinitions defs, descRead desc, ⟨tstr "binary"⟩, (natToBEBytes 4 (toTwos 4 0) ++ (pb ++ ab))) :=
    readHeader_write_db defs desc (natToBEBytes 4 (toTwos 4 0) ++ (pb ++ ab)) hwf2 hdesc
  have hgo0 : readDataBinary.go (tstr "big") ([] : List Definition) ([] : List Nat)
      = .ok (([] : List PyVal), ([] : List Nat)) := rfl
  have hgoa : readDataBinary.go (tstr "big") (((defs.zip vals).filter (fun p => p.1.isArr)).map Prod.fst) ab
      = .ok (((defs.zip vals).filter (fun p => p.1.isArr)).map Prod.snd, ([] : List Nat)) := by
    simpa using haread [] [] (([] : List PyVal), ([] : List Nat)) hgo0
  have hgo2 : readDataBinary.go (tstr "big")
      (((defs.zip vals).filter (fun p => p.1.isParam)).map Prod.fst ++ ((defs.zip vals).filter (fun p => p.1.isArr)).map Prod.fst) (pb ++ ab)
      = .ok (((defs.zip vals).filter (fun p => p.1.isParam)).map Prod.snd ++ ((defs.zip vals).filter (fun p => p.1.isArr)).map Prod.snd, ([] : List Nat)) := by
    simpa using hpread (((defs.zip vals).filter (fun p => p.1.isArr)).map Prod.fst) ab (((defs.zip vals).filter (fun p => p.1.isArr)).map Prod.snd, ([] : List Nat)) hgoa
  have hrdata : readData ⟨tstr "binary"⟩ (sortDefinitions defs) (natToBEBytes 4 (toTwos 4 0) ++ (pb ++ ab)) (tstr "big")
      = .ok (((defs.zip vals).filter (fun p => p.1.isParam)).map Prod.snd ++ ((defs.zip vals).filter (fun p => p.1.isArr)).map Prod.snd) := by
    calc readData ⟨tstr "binary"⟩ (sortDefinitions defs) (natToBEBytes 4 (toTwos 4 0) ++ (pb ++ ab)) (tstr "big")
        = (readBinInt (tstr "big") (natToBEBytes 4 (toTwos 4 0) ++ (pb ++ ab)) >>= fun q =>
            match q with
            | (_, bs1) =>
              readDataBinary.go (tstr "big") (sortDefinitions defs) bs1 >>= fun r =>
                Except.ok r.1) := rfl
      _ = .ok (((defs.zip vals).filter (fun p => p.1.isParam)).map Prod.snd ++ ((defs.zip vals).filter (fun p => p.1.isArr)).map Prod.snd) := by
          rw [readBinInt_roundtrip 0 hfit0 (pb ++ ab)]
          dsimp only [exc_bind_ok]
          rw [sortDefs_eq defs vals hlen hwf, hgo2]
          dsimp only [exc_bind_ok]
  have hndsorted : ((sortDefinitions defs).map Definition.name).Nodup :=
    ((sortDefinitions_perm defs).map Definition.name).nodup_iff.mpr hnd
  have hread : readSdds machine none (utf8Encode (tstr "SDDS1\n") ++ (utf8Encode (tstr "!# big-endian\n") ++ ((descBytes desc) ++ (((defs.map (fun d => utf8Encode (sddsDefAsStr d))).flatten) ++ (utf8Encode (tstr "&data mode=binary, &end\n") ++ (natToBEBytes 4 (toTwos 4 0) ++ (pb ++ ab))))))) = .ok (⟨tstr "SDDS1", descRead desc, dictOfPairs ((sortDefinitions defs).map fun d => (d.name, d)), dictOfPairs (((sortDefinitions defs).zip (((defs.zip vals).filter (fun p => p.1.isParam)).map Prod.snd ++ ((defs.zip vals).filter (fun p => p.1.isArr)).map Prod.snd)).map fun p => (p.1.name, p.2)), none, 1⟩ : SddsFile) := by
    rw [readSdds_none_eq machine (utf8Encode (tstr "SDDS1\n") ++ (utf8Encode (tstr "!# big-endian\n") ++ ((descBytes desc) ++ (((defs.map (fun d => utf8Encode (sddsDefAsStr d))).flatten) ++ (utf8Encode (tstr "&data mode=binary, &end\n") ++ (natToBEBytes 4 (toTwos 4 0) ++ (pb ++ ab))))))) (tstr "SDDS1") (sortDefinitions defs)
      (descRead desc) ⟨tstr "binary"⟩ (natToBEBytes 4 (toTwos 4 0) ++ (pb ++ ab)) (((defs.zip vals).filter (fun p => p.1.isParam)).map Prod.snd ++ ((defs.zip vals).filter (fun p => p.1.isArr)).map Prod.snd) hend hrh hrdata]
    exact sddsFileInit_ok (tstr "SDDS1") (descRead desc) (sortDefinitions defs)
      (((defs.zip vals).filter (fun p => p.1.isParam)).map Prod.snd ++ ((defs.zip vals).filter (fun p => p.1.isArr)).map Prod.snd) hndsorted
  have hname_zip : ((defs.zip vals).map (fun q => q.1.name)).Nodup := by
    rw [zip_map_name_eq defs vals hlen]
    exact hnd
  have hspnd : ((((defs.zip vals).filter (fun p => p.1.isParam)) ++ ((defs.zip vals).filter (fun p => p.1.isArr))).map (fun q => q.1.name)).Nodup :=
    ((sortedPairs_perm (defs.zip vals) hwf).map (fun q => q.1.name)).nodup_iff.mpr hname_zip
  have hsorted_sp : sortDefinitions defs = (((defs.zip vals).filter (fun p => p.1.isParam)) ++ ((defs.zip vals).filter (fun p => p.1.isArr))).map Prod.fst := by
    rw [sortDefs_eq defs vals hlen hwf, List.map_append]
  have hzipsp : (sortDefinitions defs).zip (((defs.zip vals).filter (fun p => p.1.isParam)).map Prod.snd ++ ((defs.zip vals).filter (fun p => p.1.isArr)).map Prod.snd) = (((defs.zip vals).filter (fun p => p.1.isParam)) ++ ((defs.zip vals).filter (fun p => p.1.isArr))) := by
    rw [sortDefs_eq defs vals hlen hwf]
    rw [List.zip_append (by simp)]
    rw [zip_map_fst_snd_pairs, zip_map_fst_snd_pairs]
  have hdefsF2 : dictOfPairs ((sortDefinitions defs).map fun d => (d.name, d))
      = (((defs.zip vals).filter (fun p => p.1.isParam)) ++ ((defs.zip vals).filter (fun p => p.1.isArr))).map (fun q => (q.1.name, q.1)) := by
    rw [hsorted_sp, List.map_map,
      show ((fun d : Definition => (d.name, d)) ∘ Prod.fst)
          = (fun q : Definition × PyVal => (q.1.name, q.1)) from rfl]
    refine dictOfPairs_eq_self _ ?_
    rw [List.map_map,
      show (Prod.fst ∘ fun q : Definition × PyVal => (q.1.name, q.1))
          = (fun q : Definition × PyVal => q.1.name) from rfl]
    exact hspnd
  have hvalsF2 : dictOfPairs (((sortDefinitions defs).zip (((defs.zip vals).filter (fun p => p.1.isParam)).map Prod.snd ++ ((defs.zip vals).filter (fun p => p.1.isArr)).map Prod.snd)).map fun p => (p.1.name, p.2))
      = (((defs.zip vals).filter (fun p => p.1.isParam)) ++ ((defs.zip vals).filter (fun p => p.1.isArr))).map (fun q => (q.1.name, q.2)) := by
    rw [hzipsp]
    refine dictOfPairs_eq_self _ ?_
    rw [List.map_map,
      show (Prod.fst ∘ fun q : Definition × PyVal => (q.1.name, q.2))
          = (fun q : Definition × PyVal => q.1.name) from rfl]
    exact hspnd
  have hget : ∀ p ∈ defs.zip vals, sddsGetItem (⟨tstr "SDDS1", descRead desc, dictOfPairs ((sortDefinitions defs).map fun d => (d.name, d)), dictOfPairs (((sortDefinitions defs).zip (((defs.zip vals).filter (fun p => p.1.isParam)).map Prod.snd ++ ((defs.zip vals).filter (fun p => p.1.isArr)).map Prod.snd)).map fun p => (p.1.name, p.2)), none, 1⟩ : SddsFile) p.1.name = .ok p := by
    intro p hp
    have hpmem : p ∈ (((defs.zip vals).filter (fun p => p.1.isParam)) ++ ((defs.zip vals).filter (fun p => p.1.isArr))) := by
      rcases wf_param_or_arr (hwf p hp) with hP | hA
      · exact List.mem_append.2 (Or.inl (List.mem_filter.2 ⟨hp, hP⟩))
      · exact List.mem_append.2 (Or.inr (List.mem_filter.2 ⟨hp, hA⟩))
    have hld : assocLookup p.1.name
        (dictOfPairs ((sortDefinitions defs).map fun d => (d.name, d))) = some p.1 := by
      rw [hdefsF2]
      exact lookup_pairs_map (fun q => q.1) (((defs.zip vals).filter (fun p => p.1.isParam)) ++ ((defs.zip vals).filter (fun p => p.1.isArr))) hspnd p hpmem
    have hlv : assocLookup p.1.name
        (dictOfPairs (((sortDefinitions defs).zip (((defs.zip vals).filter (fun p => p.1.isParam)).map Prod.snd ++ ((defs.zip vals).filter (fun p => p.1.isArr)).map Prod.snd)).map fun p => (p.1.name, p.2)))
        = some p.2 := by
      rw [hvalsF2]
      exact lookup_pairs_map (fun q => q.2) (((defs.zip vals).filter (fun p => p.1.isParam)) ++ ((defs.zip vals).filter (fun p => p.1.isArr))) hspnd p hpmem
    calc sddsGetItem (⟨tstr "SDDS1", descRead desc, dictOfPairs ((sortDefinitions defs).map fun d => (d.name, d)), dictOfPairs (((sortDefinitions defs).zip (((defs.zip vals).filter (fun p => p.1.isParam)).map Prod.snd ++ ((defs.zip vals).filter (fun p => p.1.isArr)).map Prod.snd)).map fun p => (p.1.name, p.2)), none, 1⟩ : SddsFile) p.1.name
        = (match assocLookup p.1.name
              (dictOfPairs ((sortDefinitions defs).map fun d => (d.name, d))) with
           | none => Except.error "KeyError: name not in definitions"
           | some d =>
             match assocLookup p.1.name
                (dictOfPairs (((sortDefinitions defs).zip (((defs.zip vals).filter (fun p => p.1.isParam)).map Prod.snd ++ ((defs.zip vals).filter (fun p => p.1.isArr)).map Prod.snd)).map fun p => (p.1.name, p.2))) with
             | none => Except.error "KeyError: name not in values"
             | some v => Except.ok (d, v)) := rfl
      _ = .ok p := by
          rw [hld, hlv]
  exact ⟨(utf8Encode (tstr "SDDS1\n") ++ (utf8Encode (tstr "!# big-endian\n") ++ ((descBytes desc) ++ (((defs.map (fun d => utf8Encode (sddsDefAsStr d))).flatten) ++ (utf8Encode (tstr "&data mode=binary, &end\n") ++ (natToBEBytes 4 (toTwos 4 0) ++ (pb ++ ab))))))), (⟨tstr "SDDS1", descRead desc, dictOfPairs ((sortDefinitions defs).map fun d => (d.name, d)), dictOfPairs (((sortDefinitions defs).zip (((defs.zip vals).filter (fun p => p.1.isParam)).map Prod.snd ++ ((defs.zip vals).filter (fun p => p.1.isArr)).map Prod.snd)).map fun p => (p.1.name, p.2)), none, 1⟩ : SddsFile), hwrite, hread, hget⟩

/-- Witness for `C1_binary_roundtrip_amended` at a concrete document with
one `long` parameter holding the value 5. -/
theorem C1_binary_roundtrip_amended_witness :
    ∃ bs f,
      (writeSdds ⟨tstr "SDDS1", none,
          [mkP "a" "long" none].map (fun d => (d.name, d)),
          ([mkP "a" "long" none].zip [PyVal.int 5]).map (fun p => (p.1.name, p.2)),
          none, 1⟩ (some (tstr "binary"))).2 = .ok bs ∧
      readSdds (tstr "big") none bs = .ok f ∧
      ∀ p ∈ [mkP "a" "long" none].zip [PyVal.int 5],
        sddsGetItem f p.1.name = .ok p :=
  C1_binary_roundtrip_amended (tstr "big") [mkP "a" "long" none] [PyVal.int 5] none rfl
    (by decide) (by decide) rfl

end Sdds
